import Mathlib

/-!
Shallow embedding of the graph algorithm-visualiser engine:
`src/client/src/lib/algorithms.ts` (the server storage class in
`src/unnamed/part_002` carries a near-identical copy of the same four
algorithms; the client module is embedded here).

Modelling conventions:
* JS numbers are modelled as `Int` (graph weights and coordinates in this
  program are exact small numbers).
* A JS `Record<string, T>` is an insertion-ordered association list
  `List (String × T)`.
* A JS `Set<string>` is an insertion-ordered duplicate-free `List String`.
* A thrown JS exception is modelled as `Except.error`; the error names follow
  the spec's taxonomy (section 7).  Pushing onto a missing adjacency key
  (a JS `TypeError` on `undefined`) is `unknownNodeReference`; other reads of
  properties of `undefined` are `undefinedAccess`.
* `Infinity`-valued distances are `EDist := Option Int` with `none = Infinity`.
* The unbounded `while` loops are embedded with an explicit iteration budget
  (`fuel`); each budget passed by the wrappers is provably at least the number
  of iterations the JS loop performs, which is established where a claim
  depends on the post-loop state.
-/

namespace Engine

/-- `Node` from `shared/schema.ts`. -/
structure Node where
  id : String
  label : String
  x : Option Int := none
  y : Option Int := none
  color : Option String := none
deriving DecidableEq, Repr

/-- `Edge` from `shared/schema.ts`. -/
structure Edge where
  id : String
  source : String
  target : String
  weight : Option Int := none
  label : Option String := none
deriving DecidableEq, Repr

/-- Failure taxonomy (spec section 7). -/
inductive EngineError where
  | unknownNodeReference : EngineError
  | missingTarget : EngineError
  | undefinedAccess : EngineError
deriving DecidableEq, Repr

/-- `r[k]` on a JS record: the value at key `k`, if present. -/
def recordGet? (r : List (String × α)) (k : String) : Option α :=
  (r.find? (fun p => p.1 == k)).map (·.2)

/-- `k in r` on a JS record. -/
def recordHas (r : List (String × α)) (k : String) : Bool :=
  r.any (fun p => p.1 == k)

/-- `r[k] = v` on a JS record: overwrite in place, or append a new key. -/
def recordSet (r : List (String × α)) (k : String) (v : α) : List (String × α) :=
  if recordHas r k then r.map (fun p => if p.1 == k then (k, v) else p)
  else r ++ [(k, v)]

/-- One `{ nodeId, weight }` entry of the adjacency projection. -/
structure AdjEntry where
  nodeId : String
  weight : Int
deriving DecidableEq, Repr

/-- The adjacency projection `AdjacencyList` of `algorithms.ts`. -/
abbrev AdjacencyList := List (String × List AdjEntry)

/-- `edge.weight || 1`: JS treats `0` (and an absent weight) as falsy. -/
def effectiveWeight : Option Int → Int
  | none => 1
  | some w => if w = 0 then 1 else w

/-- `adjacencyList[k].push(e)`.  When `k` is not a key the JS code reads a
property of `undefined` and throws; the spec calls this failure
`UnknownNodeReference`. -/
def pushEntry (adj : AdjacencyList) (k : String) (e : AdjEntry) :
    Except EngineError AdjacencyList :=
  if recordHas adj k then
    .ok (adj.map (fun p => if p.1 == k then (p.1, p.2 ++ [e]) else p))
  else .error .unknownNodeReference

/-- The `nodes.forEach(node => adjacencyList[node.id] = [])` initialisation. -/
def initAdjacency (nodes : List Node) : AdjacencyList :=
  nodes.foldl (fun acc n => recordSet acc n.id []) []

/-- Processing of one edge inside `createAdjacencyList`: both directions are
appended (bidirectional contract). -/
def addEdge (adj : AdjacencyList) (e : Edge) : Except EngineError AdjacencyList := do
  let adj1 ← pushEntry adj e.source ⟨e.target, effectiveWeight e.weight⟩
  pushEntry adj1 e.target ⟨e.source, effectiveWeight e.weight⟩

/-- `createAdjacencyList` from `algorithms.ts` lines 6-24. -/
def createAdjacencyList (nodes : List Node) (edges : List Edge) :
    Except EngineError AdjacencyList :=
  edges.foldlM addEdge (initAdjacency nodes)

/-- The neighbor list of `a` (empty when `a` is not a key). -/
def adjEntries (adj : AdjacencyList) (a : String) : List AdjEntry :=
  (recordGet? adj a).getD []

/-- `b` is listed among `a`'s neighbors. -/
def hasNbr (adj : AdjacencyList) (a b : String) : Bool :=
  (adjEntries adj a).any (fun e => e.nodeId == b)

/-- All neighbor ids appearing anywhere in the projection. -/
def adjTargets (adj : AdjacencyList) : List String :=
  (adj.map (fun p => p.2.map AdjEntry.nodeId)).flatten

/-- A walk in the adjacency projection, weighted by the sum of the traversed
entry weights.  This is the specification-side notion of path used to state
shortest-distance claims. -/
inductive Walk (adj : AdjacencyList) : String → String → Int → Prop where
  | nil (a : String) : Walk adj a a 0
  | cons {a c : String} {w d : Int} (b : String)
      (h : AdjEntry.mk b w ∈ adjEntries adj a) (tail : Walk adj b c d) :
      Walk adj a c (w + d)

/-- Reachability in the adjacency projection. -/
def Reachable (adj : AdjacencyList) (a b : String) : Prop := ∃ d, Walk adj a b d

/-- All entry weights of the projection are non-negative. -/
def AdjNonneg (adj : AdjacencyList) : Prop :=
  ∀ a : String, ∀ e ∈ adjEntries adj a, (0 : Int) ≤ e.weight

/-- `d` is the shortest walk weight from `a` to `b`. -/
def ShortestFrom (adj : AdjacencyList) (a b : String) (d : Int) : Prop :=
  Walk adj a b d ∧ ∀ dw : Int, Walk adj a b dw → d ≤ dw

/-- A JS number-or-`Infinity` distance: `none` is `Infinity`. -/
abbrev EDist := Option Int

/-- The JS `<` on distances (`Infinity` compares greater than every number,
and `Infinity < Infinity` is false). -/
def eLt : EDist → EDist → Bool
  | none, _ => false
  | some _, none => true
  | some a, some b => a < b

/-- `d + w` where `d` may be `Infinity`. -/
def eAdd : EDist → Int → EDist
  | none, _ => none
  | some a, w => some (a + w)

/-- Rendering of a distance in a step description. -/
def edistStr : EDist → String
  | none => "Infinity"
  | some v => toString v

/-- Pointwise update of a string-indexed map. -/
def updF (f : String → α) (k : String) (v : α) : String → α :=
  fun x => if x = k then v else f x

/-- First-occurrence deduplication: the element order of a JS `Set` populated
by a `forEach` over a list. -/
def dedupKeys (l : List String) : List String :=
  l.foldl (fun acc x => if x ∈ acc then acc else acc ++ [x]) []

/-- Append `k` unless present: the key order of a record after `r[k] = v`. -/
def insertKey (l : List String) (k : String) : List String :=
  if k ∈ l then l else l ++ [k]

/-- The linear minimum scan of Dijkstra and A*: fold the iteration order,
keeping the first element that strictly improves the best distance so far. -/
def scanMin (dist : String → EDist) (l : List String) : Option String × EDist :=
  l.foldl (fun best id => if eLt (dist id) best.2 then (some id, dist id) else best)
    ((none : Option String), (none : EDist))

/-- `targetNodeId && currentNode === targetNodeId` (an absent target and the
empty string are both falsy in JS). -/
def targetMatches : Option String → String → Bool
  | none, _ => false
  | some tv, c => tv != "" && tv == c

/-- One step record (`AlgorithmStep` of `shared/schema.ts`). -/
structure AlgorithmStep where
  step : Nat
  visited : List String
  current : Option String := none
  queue : Option (List String) := none
  stack : Option (List String) := none
  distances : Option (List (String × EDist)) := none
  path : Option (List String) := none
  description : String
deriving DecidableEq, Repr

/-- `AlgorithmResult` of `shared/schema.ts`. -/
structure AlgorithmResult where
  algorithm : String
  startNode : String
  targetNode : Option String
  steps : List AlgorithmStep
  executionTime : Int
  timeComplexity : String
  spaceComplexity : String
deriving DecidableEq, Repr

/-- The `{ ...distances }` snapshot: the record's keys in order, paired with
their current values. -/
def distSnapshot (dkeys : List String) (dist : String → EDist) : List (String × EDist) :=
  dkeys.map (fun k => (k, dist k))

/-- Dijkstra's step field `visited: nodes.map(n => n.id).filter(id => !unvisited.has(id))`. -/
def visitedSnapshot (nodeIds : List String) (unvisited : List String) : List String :=
  nodeIds.filter (fun id => !unvisited.contains id)

/-- The working state of the Dijkstra runner. -/
structure DijkstraState where
  dist : String → EDist
  prev : String → Option (Option String)
  unvisited : List String
  steps : List AlgorithmStep
  stepn : Nat

/-- The backward `previous[]` chain from `c` (the JS `while (current !== null)`
walk; `prev c = some none` is an explicit `null`, `none` is an absent key).
The chain is finite in every state the runner produces; `fuel` truncates the
otherwise unbounded walk. -/
def prevChain (prev : String → Option (Option String)) : Nat → String → List String
  | 0, c => [c]
  | fuel + 1, c =>
    c :: (match prev c with
      | some (some p) => prevChain prev fuel p
      | _ => [])

/-- Path reconstruction: the `unshift` loop builds the reversed chain. -/
def reconstructPath (prev : String → Option (Option String)) (fuel : Nat) (c : String) :
    List String :=
  (prevChain prev fuel c).reverse

/-- The relaxation of one adjacency entry of the current node `c`
(`algorithms.ts` lines 294-311). -/
def dijkstraRelax (nodeIds dkeys : List String) (c : String)
    (st : DijkstraState) (e : AdjEntry) : DijkstraState :=
  if st.unvisited.contains e.nodeId then
    let newDistance := eAdd (st.dist c) e.weight
    if eLt newDistance (st.dist e.nodeId) then
      let dist1 := updF st.dist e.nodeId newDistance
      { st with
        dist := dist1
        prev := updF st.prev e.nodeId (some (some c))
        steps := st.steps ++ [{
          step := st.stepn
          visited := visitedSnapshot nodeIds st.unvisited
          current := some c
          distances := some (distSnapshot dkeys dist1)
          description := "Updated distance to node " ++ e.nodeId ++ " to " ++
            edistStr newDistance }]
        stepn := st.stepn + 1 }
    else st
  else st

/-- The `while (unvisited.size > 0)` loop of `executeDijkstra`
(`algorithms.ts` lines 251-333).  The JS break
`if (!currentNode || shortestDistance === Infinity) break` also fires when the
selected node id is the falsy empty string, and the `if (nextNode)` guard
skips the moving step for a falsy next node id. -/
def dijkstraLoop (adj : AdjacencyList) (nodeIds dkeys : List String) (t : Option String) :
    Nat → DijkstraState → DijkstraState
  | 0, st => st
  | fuel + 1, st =>
    if st.unvisited.isEmpty then st
    else
      match scanMin st.dist st.unvisited with
      | (none, _) => st
      | (some c, sd) =>
        if c == "" || sd.isNone then st
        else if targetMatches t c then
          let unvisited1 := st.unvisited.erase c
          { st with
            unvisited := unvisited1
            steps := st.steps ++ [{
              step := st.stepn
              visited := visitedSnapshot nodeIds unvisited1
              current := some c
              distances := some (distSnapshot dkeys st.dist)
              path := some (reconstructPath st.prev (dkeys.length + 1) c)
              description := "Target node " ++ t.getD "" ++
                " reached with shortest distance " ++ edistStr (st.dist c) }]
            stepn := st.stepn + 1 }
        else
          let st1 := { st with unvisited := st.unvisited.erase c }
          let st2 := (adjEntries adj c).foldl (dijkstraRelax nodeIds dkeys c) st1
          let st3 := match scanMin st2.dist st2.unvisited with
            | (some nx, _) =>
              if nx == "" then st2
              else
                { st2 with
                  steps := st2.steps ++ [{
                    step := st2.stepn
                    visited := visitedSnapshot nodeIds st2.unvisited
                    current := some nx
                    distances := some (distSnapshot dkeys st2.dist)
                    description := "Moving to node " ++ nx ++ " with current distance " ++
                      edistStr (st2.dist nx) }]
                  stepn := st2.stepn + 1 }
            | (none, _) => st2
          dijkstraLoop adj nodeIds dkeys t fuel st3

/-- The post-loop block of `executeDijkstra` (`algorithms.ts` lines 336-355):
when a target was given and `previous[target]` is not `undefined`, reconstruct
and append a final path step unless the last step already carries a path. -/
def dijkstraFinal (nodeIds dkeys : List String) (t : Option String)
    (st : DijkstraState) : DijkstraState :=
  match t with
  | none => st
  | some tv =>
    if tv == "" then st
    else
      match st.prev tv with
      | none => st
      | some _ =>
        let path := reconstructPath st.prev (dkeys.length + 1) tv
        match st.steps.getLast? with
        | none => st
        | some last =>
          if last.path.isNone then
            { st with
              steps := st.steps ++ [{
                step := st.stepn
                visited := visitedSnapshot nodeIds st.unvisited
                current := some tv
                distances := some (distSnapshot dkeys st.dist)
                path := some path
                description := "Final shortest path to " ++ tv ++ ": " ++
                  String.intercalate " -> " path }]
              stepn := st.stepn + 1 }
          else st

/-- The full Dijkstra run, exposing the final internal state. -/
def dijkstraRun (nodes : List Node) (edges : List Edge) (s : String) (t : Option String) :
    Except EngineError DijkstraState := do
  let adj ← createAdjacencyList nodes edges
  let nodeIds := nodes.map Node.id
  let uv := dedupKeys nodeIds
  let dkeys := insertKey uv s
  let dist0 := updF (fun _ => (none : EDist)) s (some 0)
  let st0 : DijkstraState := {
    dist := dist0,
    prev := fun id => if uv.contains id then some none else none,
    unvisited := uv,
    steps := [{
      step := 0
      visited := []
      current := some s
      distances := some (distSnapshot dkeys dist0)
      description := "Starting Dijkstra's algorithm from node " ++ s }]
    stepn := 1 }
  let st1 := dijkstraLoop adj nodeIds dkeys t uv.length st0
  .ok (dijkstraFinal nodeIds dkeys t st1)

/-- `executeDijkstra` from `algorithms.ts` lines 215-368. -/
def executeDijkstra (nodes : List Node) (edges : List Edge) (s : String)
    (t : Option String) : Except EngineError AlgorithmResult := do
  let st ← dijkstraRun nodes edges s t
  .ok { algorithm := "dijkstra", startNode := s, targetNode := t, steps := st.steps,
        executionTime := 0, timeComplexity := "O(V² + E)", spaceComplexity := "O(V)" }

/-- The description of a terminal target-reached step for target `tv`. -/
def reachedDesc (tv : String) : String := "Target node " ++ tv ++ " reached!"

/-- The working state of the BFS runner. -/
structure BfsState where
  visited : List String
  queue : List String
  steps : List AlgorithmStep
  stepn : Nat

/-- Processing of one adjacency entry of the dequeued node `c`
(`algorithms.ts` lines 95-108): newly discovered neighbors are marked visited
and enqueued, with one step per discovery. -/
def bfsDiscover (c : String) (st : BfsState) (e : AdjEntry) : BfsState :=
  if st.visited.contains e.nodeId then st
  else
    let visited1 := st.visited ++ [e.nodeId]
    let queue1 := st.queue ++ [e.nodeId]
    { visited := visited1
      queue := queue1
      steps := st.steps ++ [{
        step := st.stepn
        visited := visited1
        current := some c
        queue := some queue1
        description := "Visiting node " ++ c ++ ", discovered neighbor " ++ e.nodeId }]
      stepn := st.stepn + 1 }

/-- The `while (queue.length > 0)` loop of `executeBFS`
(`algorithms.ts` lines 79-119). -/
def bfsLoop (adj : AdjacencyList) (t : Option String) :
    Nat → BfsState → Except EngineError BfsState
  | 0, st => .ok st
  | fuel + 1, st =>
    match st.queue with
    | [] => .ok st
    | c :: rest =>
      if targetMatches t c then
        .ok { st with
          queue := rest
          steps := st.steps ++ [{
            step := st.stepn
            visited := st.visited
            current := some c
            queue := some rest
            description := reachedDesc (t.getD "") }]
          stepn := st.stepn + 1 }
      else
        match recordGet? adj c with
        | none => .error .undefinedAccess
        | some nbrs =>
          let st1 := nbrs.foldl (bfsDiscover c) { st with queue := rest }
          let st2 := match st1.queue with
            | [] => st1
            | q0 :: _ =>
              { st1 with
                steps := st1.steps ++ [{
                  step := st1.stepn
                  visited := st1.visited
                  current := some q0
                  queue := some st1.queue
                  description := "Moving to next node in queue: " ++ q0 }]
                stepn := st1.stepn + 1 }
          bfsLoop adj t fuel st2

/-- `executeBFS` from `algorithms.ts` lines 56-132. -/
def executeBFS (nodes : List Node) (edges : List Edge) (s : String)
    (t : Option String) : Except EngineError AlgorithmResult := do
  let adj ← createAdjacencyList nodes edges
  let st0 : BfsState := {
    visited := [s]
    queue := [s]
    steps := [{
      step := 0
      visited := [s]
      current := some s
      queue := some [s]
      description := "Starting BFS from node " ++ s }]
    stepn := 1 }
  let st1 ← bfsLoop adj t (2 * (adjTargets adj).length + 1) st0
  .ok { algorithm := "bfs", startNode := s, targetNode := t, steps := st1.steps,
        executionTime := 0, timeComplexity := "O(V + E)", spaceComplexity := "O(V)" }

/-- The working state of the DFS runner.  The stack is held top-first; the JS
array order (top last) is restored by `List.reverse` in each snapshot. -/
structure DfsState where
  visited : List String
  stack : List String
  steps : List AlgorithmStep
  stepn : Nat

/-- Pushing one not-yet-visited neighbor (`algorithms.ts` lines 185-196).
The neighbor list was reversed before this fold, so the fold pushes the last
adjacency entry first and the first entry ends on top. -/
def dfsPush (c : String) (st : DfsState) (e : AdjEntry) : DfsState :=
  if st.visited.contains e.nodeId then st
  else
    let stack1 := e.nodeId :: st.stack
    { st with
      stack := stack1
      steps := st.steps ++ [{
        step := st.stepn
        visited := st.visited
        current := some c
        stack := some stack1.reverse
        description := "Adding neighbor " ++ e.nodeId ++ " to stack" }]
      stepn := st.stepn + 1 }

/-- The `while (stack.length > 0)` loop of `executeDFS`
(`algorithms.ts` lines 157-199). -/
def dfsLoop (adj : AdjacencyList) (t : Option String) :
    Nat → DfsState → Except EngineError DfsState
  | 0, st => .ok st
  | fuel + 1, st =>
    match st.stack with
    | [] => .ok st
    | c :: rest =>
      if st.visited.contains c then
        dfsLoop adj t fuel { st with stack := rest }
      else
        let visited1 := st.visited ++ [c]
        let stA : DfsState := {
          visited := visited1
          stack := rest
          steps := st.steps ++ [{
            step := st.stepn
            visited := visited1
            current := some c
            stack := some rest.reverse
            description := "Visiting node " ++ c }]
          stepn := st.stepn + 1 }
        if targetMatches t c then
          .ok { stA with
            steps := stA.steps ++ [{
              step := stA.stepn
              visited := stA.visited
              current := some c
              stack := some stA.stack.reverse
              description := reachedDesc (t.getD "") }]
            stepn := stA.stepn + 1 }
        else
          match recordGet? adj c with
          | none => .error .undefinedAccess
          | some nbrs =>
            let stB := nbrs.reverse.foldl (dfsPush c) stA
            dfsLoop adj t fuel stB

/-- `executeDFS` from `algorithms.ts` lines 135-212.  Note the initial step is
pushed before the start node is visited, so its visited list is empty. -/
def executeDFS (nodes : List Node) (edges : List Edge) (s : String)
    (t : Option String) : Except EngineError AlgorithmResult := do
  let adj ← createAdjacencyList nodes edges
  let st0 : DfsState := {
    visited := []
    stack := [s]
    steps := [{
      step := 0
      visited := []
      current := some s
      stack := some [s]
      description := "Starting DFS from node " ++ s }]
    stepn := 1 }
  let st1 ← dfsLoop adj t (((adjTargets adj).length + 1) * ((adjTargets adj).length + 1) + 1) st0
  .ok { algorithm := "dfs", startNode := s, targetNode := t, steps := st1.steps,
        executionTime := 0, timeComplexity := "O(V + E)", spaceComplexity := "O(V)" }

/-- JS truthiness of an optional numeric field (`0` and absence are falsy). -/
def truthyNum : Option Int → Bool
  | none => false
  | some v => v != 0

/-- The `nodeMap` record of `executeAStar`. -/
def nodeMapOf (nodes : List Node) : List (String × Node) :=
  nodes.foldl (fun acc n => recordSet acc n.id n) []

/-- `getHeuristic` from `algorithms.ts` lines 409-420.  The JS condition
`!node.x || !node.y || !target.x || !target.y` short-circuits left to right;
reading a field of an absent map entry throws. -/
def getHeuristic (nodeMap : List (String × Node)) (t : String) (nodeId : String) :
    Except EngineError Int :=
  match recordGet? nodeMap nodeId with
  | none => .error .undefinedAccess
  | some node =>
    if truthyNum node.x = false then .ok 1
    else if truthyNum node.y = false then .ok 1
    else
      match recordGet? nodeMap t with
      | none => .error .undefinedAccess
      | some target =>
        if truthyNum target.x = false then .ok 1
        else if truthyNum target.y = false then .ok 1
        else .ok (|node.x.getD 0 - target.x.getD 0| + |node.y.getD 0 - target.y.getD 0|)

/-- The working state of the A* runner. -/
structure AStarState where
  openSet : List String
  closedSet : List String
  g : String → EDist
  f : String → EDist
  prev : String → Option (Option String)
  steps : List AlgorithmStep
  stepn : Nat

/-- Processing of one adjacency entry of the current node `c`
(`algorithms.ts` lines 479-507). -/
def astarRelax (nodeMap : List (String × Node)) (gkeys : List String) (tv c : String)
    (st : AStarState) (e : AdjEntry) : Except EngineError AStarState :=
  if st.closedSet.contains e.nodeId then .ok st
  else
    let tentative := eAdd (st.g c) e.weight
    let inOpen := st.openSet.contains e.nodeId
    let open1 := if inOpen then st.openSet else st.openSet ++ [e.nodeId]
    if inOpen && !eLt tentative (st.g e.nodeId) then .ok { st with openSet := open1 }
    else do
      let h ← getHeuristic nodeMap tv e.nodeId
      let g1 := updF st.g e.nodeId tentative
      let f1 := updF st.f e.nodeId (eAdd tentative h)
      .ok { st with
        openSet := open1
        g := g1
        f := f1
        prev := updF st.prev e.nodeId (some (some c))
        steps := st.steps ++ [{
          step := st.stepn
          visited := st.closedSet
          current := some c
          distances := some (distSnapshot gkeys g1)
          description := "Updated node " ++ e.nodeId ++ " with g-score: " ++
            edistStr (g1 e.nodeId) ++ ", f-score: " ++ edistStr (f1 e.nodeId) }]
        stepn := st.stepn + 1 }

/-- The `while (openSet.size > 0)` loop of `executeAStar`
(`algorithms.ts` lines 438-529).  The JS break `if (!currentNode) break` also
fires when the selected node id is the falsy empty string, and the
`if (nextNode)` guard skips the moving step for a falsy next node id. -/
def astarLoop (adj : AdjacencyList) (nodeMap : List (String × Node))
    (gkeys : List String) (tv : String) :
    Nat → AStarState → Except EngineError AStarState
  | 0, st => .ok st
  | fuel + 1, st =>
    if st.openSet.isEmpty then .ok st
    else
      match scanMin st.f st.openSet with
      | (none, _) => .ok st
      | (some c, _) =>
        if c == "" then .ok st
        else if c == tv then
          .ok { st with
            steps := st.steps ++ [{
              step := st.stepn
              visited := st.closedSet
              current := some c
              distances := some (distSnapshot gkeys st.g)
              path := some (reconstructPath st.prev (gkeys.length + 1) c)
              description := "Target node " ++ tv ++ " reached! Path found with cost " ++
                edistStr (st.g c) }]
            stepn := st.stepn + 1 }
        else do
          let st1 := { st with
            openSet := st.openSet.erase c
            closedSet := st.closedSet ++ [c] }
          let st2 ← (adjEntries adj c).foldlM (astarRelax nodeMap gkeys tv c) st1
          let st3 := match scanMin st2.f st2.openSet with
            | (some nx, _) =>
              if nx == "" then st2
              else
                { st2 with
                  steps := st2.steps ++ [{
                    step := st2.stepn
                    visited := st2.closedSet
                    current := some nx
                    distances := some (distSnapshot gkeys st2.g)
                    description := "Moving to node " ++ nx ++ " with f-score " ++
                      edistStr (st2.f nx) }]
                  stepn := st2.stepn + 1 }
            | (none, _) => st2
          astarLoop adj nodeMap gkeys tv fuel st3

/-- `executeAStar` from `algorithms.ts` lines 371-553.  The missing-target
check precedes everything else (spec name: `MissingTarget`); the terminal
`closedSet.has(target)` check after the loop appends a "No path found" step. -/
def executeAStar (nodes : List Node) (edges : List Edge) (s : String)
    (t : Option String) : Except EngineError AlgorithmResult :=
  match t with
  | none => .error .missingTarget
  | some tv =>
    if tv == "" then .error .missingTarget
    else do
      let adj ← createAdjacencyList nodes edges
      let nodeMap := nodeMapOf nodes
      let uv := dedupKeys (nodes.map Node.id)
      let gkeys := insertKey uv s
      let g0 := updF (fun _ => (none : EDist)) s (some 0)
      let h0 ← getHeuristic nodeMap tv s
      let f0 := updF (fun _ => (none : EDist)) s (some h0)
      let st0 : AStarState := {
        openSet := [s]
        closedSet := []
        g := g0
        f := f0
        prev := fun id => if uv.contains id then some none else none
        steps := [{
          step := 0
          visited := []
          current := some s
          distances := some (distSnapshot gkeys g0)
          description := "Starting A* search from node " ++ s ++ " to target " ++ tv }]
        stepn := 1 }
      let st1 ← astarLoop adj nodeMap gkeys tv
        ((adjTargets adj).length + nodes.length + 2) st0
      let st2 := if st1.closedSet.contains tv then st1
        else
          { st1 with
            steps := st1.steps ++ [{
              step := st1.stepn
              visited := st1.closedSet
              current := none
              distances := some (distSnapshot gkeys st1.g)
              description := "No path found from " ++ s ++ " to " ++ tv }]
            stepn := st1.stepn + 1 }
      .ok { algorithm := "astar", startNode := s, targetNode := t, steps := st2.steps,
            executionTime := 0, timeComplexity := "O(E log V)", spaceComplexity := "O(V)" }

/-- Step indices are the positions: the `i`-th record's `step` field is `i`. -/
def WellNumbered (steps : List AlgorithmStep) : Prop :=
  ∀ i : Nat, ∀ h : i < steps.length, (steps.get ⟨i, h⟩).step = i

/-- The edges of this node/edge list reference only listed node ids. -/
def WellRefd (nodes : List Node) (edges : List Edge) : Prop :=
  ∀ e ∈ edges, e.source ∈ nodes.map Node.id ∧ e.target ∈ nodes.map Node.id

/-- The last path field of a produced result, for stating counterexamples. -/
def lastPath (r : Except EngineError AlgorithmResult) : Option (Option (List String)) :=
  match r with
  | .error _ => none
  | .ok res => (res.steps.getLast?).map (fun st => st.path)

/-- `a` is at most `b` in the JS distance order (`¬ (b < a)`). -/
def eLe (a b : EDist) : Prop := eLt b a = false

/-- Loop invariant of the BFS runner: the queue holds visited nodes, visited
nodes are reachable and duplicate-free, fully processed nodes have all
neighbors visited, every visited node is the start or some adjacency target,
and the last recorded step snapshots the current visited set. -/
structure BfsInv (adj : AdjacencyList) (s : String) (st : BfsState) : Prop where
  startMem : s ∈ st.visited
  queueSub : ∀ x ∈ st.queue, x ∈ st.visited
  nodup : st.visited.Nodup
  reach : ∀ v ∈ st.visited, Reachable adj s v
  closed : ∀ v ∈ st.visited, v ∉ st.queue → ∀ e ∈ adjEntries adj v,
    e.nodeId ∈ st.visited
  keys : ∀ x ∈ st.visited, x = s ∨ x ∈ adjTargets adj
  lastVis : ∃ last, st.steps.getLast? = some last ∧ last.visited = st.visited

/-- Termination measure of the BFS loop: each iteration dequeues one node and
every enqueue consumes one never-visited adjacency target. -/
def bfsMeasure (adj : AdjacencyList) (st : BfsState) : Nat :=
  st.queue.length + 2 * ((adjTargets adj).toFinset \ st.visited.toFinset).card

/-- Loop invariant of the DFS runner. -/
structure DfsInv (adj : AdjacencyList) (s : String) (st : DfsState) : Prop where
  stackSub : ∀ x ∈ st.stack, x = s ∨ x ∈ adjTargets adj
  visSub : ∀ x ∈ st.visited, x = s ∨ x ∈ adjTargets adj
  nodup : st.visited.Nodup
  reach : ∀ v ∈ st.visited, Reachable adj s v
  stackReach : ∀ v ∈ st.stack, Reachable adj s v
  closed : ∀ v ∈ st.visited, ∀ e ∈ adjEntries adj v,
    e.nodeId ∈ st.visited ∨ e.nodeId ∈ st.stack
  startIn : s ∈ st.visited ∨ s ∈ st.stack
  lastVis : ∃ last, st.steps.getLast? = some last ∧ last.visited = st.visited

/-- Termination measure of the DFS loop: a pop of an already visited node
shortens the stack; a first visit consumes one member of the unvisited
universe at the price of at most one stack push per adjacency entry. -/
def dfsMeasure (adj : AdjacencyList) (s : String) (st : DfsState) : Nat :=
  st.stack.length + ((adjTargets adj).length + 1) *
    ((insert s (adjTargets adj).toFinset \ st.visited.toFinset).card)

/-- Loop invariant of the Dijkstra runner over the initial unvisited set
`uv0`: every finite distance is attained by a walk, settled nodes carry
shortest distances, the settled boundary is relaxed, and predecessor entries
exist exactly for the node keys and point only to reachable nodes. -/
structure DijkInv (adj : AdjacencyList) (s : String) (uv0 : List String)
    (st : DijkstraState) : Prop where
  sub : ∀ x ∈ st.unvisited, x ∈ uv0
  attained : ∀ v d, st.dist v = some d → Walk adj s v d
  startDist : st.dist s = some 0
  settledLB : ∀ v ∈ uv0, v ∉ st.unvisited → ∃ d, st.dist v = some d ∧
    ∀ dw : Int, Walk adj s v dw → d ≤ dw
  boundary : ∀ x ∈ uv0, x ∉ st.unvisited → ∀ e ∈ adjEntries adj x,
    e.nodeId ∈ st.unvisited → eLe (st.dist e.nodeId) (eAdd (st.dist x) e.weight)
  prevShape : ∀ v, (v ∈ uv0 → st.prev v ≠ none) ∧ (v ∉ uv0 → st.prev v = none)
  prevReach : ∀ v p, st.prev v = some (some p) → Reachable adj s v

/-! ### Record and key lemmas -/

theorem recordHas_iff {α : Type} (r : List (String × α)) (k : String) :
    recordHas r k = true ↔ k ∈ r.map Prod.fst := by
  simp only [recordHas, List.any_eq_true, List.mem_map, beq_iff_eq]

theorem recordGet?_eq_none {α : Type} (r : List (String × α)) (k : String)
    (h : recordHas r k = false) : recordGet? r k = none := by
  unfold recordGet?
  have hk : k ∉ r.map Prod.fst := by
    intro hm
    rw [← recordHas_iff] at hm
    rw [h] at hm
    exact Bool.false_ne_true hm
  have hf : r.find? (fun p => p.1 == k) = none := by
    rw [List.find?_eq_none]
    intro p hp
    simp only [beq_iff_eq]
    intro hpk
    exact hk (List.mem_map.mpr ⟨p, hp, hpk⟩)
  rw [hf]
  rfl

theorem recordGet?_isSome {α : Type} (r : List (String × α)) (k : String)
    (h : recordHas r k = true) : (recordGet? r k).isSome := by
  simp only [recordHas, List.any_eq_true] at h
  obtain ⟨p, hp, hk⟩ := h
  unfold recordGet?
  cases hf : r.find? (fun p => p.1 == k) with
  | none =>
    rw [List.find?_eq_none] at hf
    exact absurd hk (by simpa using hf p hp)
  | some q => rfl

theorem recordSet_map_fst {α : Type} (r : List (String × α)) (k : String) (v : α) :
    (recordSet r k v).map Prod.fst =
      if recordHas r k then r.map Prod.fst else r.map Prod.fst ++ [k] := by
  unfold recordSet
  by_cases h : recordHas r k
  · simp only [h, if_true, List.map_map]
    apply List.map_congr_left
    intro p _
    by_cases hp : p.1 == k
    · simp only [Function.comp, hp, if_true]
      exact (beq_iff_eq.mp hp).symm
    · simp [Function.comp, hp]
  · simp [h]

theorem pushEntry_ok_keys {adj adj2 : AdjacencyList} {k : String} {e : AdjEntry}
    (h : pushEntry adj k e = .ok adj2) : adj2.map Prod.fst = adj.map Prod.fst := by
  unfold pushEntry at h
  by_cases hk : recordHas adj k
  · simp only [hk, if_true, Except.ok.injEq] at h
    subst h
    simp only [List.map_map]
    apply List.map_congr_left
    intro p _
    by_cases hp : p.1 == k <;> simp [Function.comp, hp]
  · simp [hk] at h

theorem pushEntry_error {adj : AdjacencyList} {k : String} {e : AdjEntry}
    (h : recordHas adj k = false) :
    pushEntry adj k e = .error .unknownNodeReference := by
  simp [pushEntry, h]

theorem pushEntry_ok {adj : AdjacencyList} {k : String} {e : AdjEntry}
    (h : recordHas adj k = true) :
    pushEntry adj k e = .ok (adj.map (fun p => if p.1 == k then (p.1, p.2 ++ [e]) else p)) := by
  simp [pushEntry, h]

theorem find?_pushEntry {adj adj2 : AdjacencyList} {k : String} {e : AdjEntry}
    (h : pushEntry adj k e = .ok adj2) (a : String) :
    adj2.find? (fun p => p.1 == a) =
      (adj.find? (fun p => p.1 == a)).map (fun p => if p.1 == k then (p.1, p.2 ++ [e]) else p) := by
  unfold pushEntry at h
  by_cases hk : recordHas adj k
  · simp only [hk, if_true, Except.ok.injEq] at h
    subst h
    rw [List.find?_map]
    have hpred : ((fun p => p.1 == a) ∘ fun (p : String × List AdjEntry) =>
        if p.1 == k then (p.1, p.2 ++ [e]) else p) = (fun p => p.1 == a) := by
      funext p
      by_cases hp : p.1 == k <;> simp [Function.comp, hp]
    rw [hpred]
  · simp [hk] at h

theorem adjEntries_pushEntry {adj adj2 : AdjacencyList} {k : String} {e : AdjEntry}
    (h : pushEntry adj k e = .ok adj2) (a : String) :
    adjEntries adj2 a = if a = k then adjEntries adj a ++ [e] else adjEntries adj a := by
  unfold adjEntries recordGet?
  rw [find?_pushEntry h a]
  cases hf : adj.find? (fun p => p.1 == a) with
  | none =>
    by_cases hak : a = k
    · subst hak
      unfold pushEntry at h
      by_cases hk : recordHas adj a
      · have := recordGet?_isSome adj a hk
        simp only [recordGet?, hf] at this
        simp at this
      · simp [hk] at h
    · simp [hak]
  | some p =>
    have hpa : p.1 = a := by
      have := List.find?_some hf
      simpa using this
    by_cases hak : a = k
    · subst hak
      simp [hpa]
    · have hpk : ¬ p.1 = k := by
        rw [hpa]
        exact hak
      simp [hpk, hak]

theorem dedupKeys_spec :
    ∀ (l acc : List String),
      (∀ x, x ∈ l.foldl (fun acc x => if x ∈ acc then acc else acc ++ [x]) acc ↔
        x ∈ acc ∨ x ∈ l) ∧
      (acc.Nodup → (l.foldl (fun acc x => if x ∈ acc then acc else acc ++ [x]) acc).Nodup) := by
  intro l
  induction l with
  | nil => simp
  | cons y ys ih =>
    intro acc
    simp only [List.foldl_cons]
    by_cases hy : y ∈ acc
    · simp only [hy, if_true]
      refine ⟨fun x => ?_, fun h => (ih acc).2 h⟩
      rw [(ih acc).1 x]
      constructor
      · rintro (h | h)
        · exact Or.inl h
        · exact Or.inr (List.mem_cons_of_mem _ h)
      · rintro (h | h)
        · exact Or.inl h
        · rcases List.mem_cons.mp h with rfl | h
          · exact Or.inl hy
          · exact Or.inr h
    · simp only [hy, if_false]
      refine ⟨fun x => ?_, fun h => (ih (acc ++ [y])).2 ?_⟩
      · rw [(ih (acc ++ [y])).1 x]
        simp only [List.mem_append, List.mem_singleton, List.mem_cons]
        tauto
      · simpa [List.nodup_append] using ⟨h, hy⟩

theorem mem_dedupKeys (l : List String) (x : String) : x ∈ dedupKeys l ↔ x ∈ l := by
  unfold dedupKeys
  rw [(dedupKeys_spec l []).1 x]
  simp

theorem nodup_dedupKeys (l : List String) : (dedupKeys l).Nodup :=
  (dedupKeys_spec l []).2 List.nodup_nil

theorem initAdjacency_map_fst (nodes : List Node) :
    (initAdjacency nodes).map Prod.fst = dedupKeys (nodes.map Node.id) := by
  unfold initAdjacency dedupKeys
  suffices h : ∀ (ids : List String) (acc : AdjacencyList),
      (ids.foldl (fun acc i => recordSet acc i ([] : List AdjEntry)) acc).map Prod.fst =
        ids.foldl (fun acc x => if x ∈ acc then acc else acc ++ [x]) (acc.map Prod.fst) by
    have h2 := h (nodes.map Node.id) []
    rw [List.foldl_map] at h2
    simpa using h2
  intro ids
  induction ids with
  | nil => simp
  | cons y ys ih =>
    intro acc
    simp only [List.foldl_cons, ih]
    congr 1
    rw [recordSet_map_fst]
    by_cases hy : recordHas acc y
    · have hy2 : y ∈ acc.map Prod.fst := (recordHas_iff acc y).mp hy
      simp [hy, hy2]
    · have hy2 : y ∉ acc.map Prod.fst := fun hmem =>
        absurd ((recordHas_iff acc y).mpr hmem) (by simpa using hy)
      simp [hy, hy2]

theorem addEdge_ok_keys {adj adj2 : AdjacencyList} {e : Edge}
    (h : addEdge adj e = .ok adj2) : adj2.map Prod.fst = adj.map Prod.fst := by
  unfold addEdge at h
  cases h1 : pushEntry adj e.source ⟨e.target, effectiveWeight e.weight⟩ with
  | error err => simp [h1, bind, Except.bind] at h
  | ok adj1 =>
    simp only [h1, bind, Except.bind] at h
    rw [pushEntry_ok_keys h, pushEntry_ok_keys h1]

theorem addEdge_error {adj : AdjacencyList} {e : Edge}
    (h : e.source ∉ adj.map Prod.fst ∨ e.target ∉ adj.map Prod.fst) :
    addEdge adj e = .error .unknownNodeReference := by
  unfold addEdge
  by_cases hs : e.source ∈ adj.map Prod.fst
  · have ht : e.target ∉ adj.map Prod.fst := h.resolve_left (by simpa using hs)
    have h1 := @pushEntry_ok adj e.source
      ⟨e.target, effectiveWeight e.weight⟩ (by rw [recordHas_iff]; exact hs)
    rw [h1]
    simp only [bind, Except.bind]
    apply pushEntry_error
    rw [← Bool.not_eq_true, recordHas_iff]
    have hkeys := pushEntry_ok_keys h1
    rw [hkeys]
    exact ht
  · have h1 := @pushEntry_error adj e.source
      ⟨e.target, effectiveWeight e.weight⟩
      (by rw [← Bool.not_eq_true, recordHas_iff]; exact hs)
    rw [h1]
    rfl

theorem addEdge_ok_exists {adj : AdjacencyList} {e : Edge}
    (hs : e.source ∈ adj.map Prod.fst) (ht : e.target ∈ adj.map Prod.fst) :
    ∃ adj2, addEdge adj e = .ok adj2 := by
  unfold addEdge
  have h1 := @pushEntry_ok adj e.source
    ⟨e.target, effectiveWeight e.weight⟩ (by rw [recordHas_iff]; exact hs)
  rw [h1]
  simp only [bind, Except.bind]
  have hkeys := pushEntry_ok_keys h1
  have h2 := @pushEntry_ok (adj.map (fun p => if p.1 == e.source then
      (p.1, p.2 ++ [⟨e.target, effectiveWeight e.weight⟩]) else p))
    e.target ⟨e.source, effectiveWeight e.weight⟩
    (by rw [recordHas_iff, hkeys]; exact ht)
  rw [h2]
  exact ⟨_, rfl⟩

theorem addEdge_entries {adj adj2 : AdjacencyList} {e : Edge}
    (h : addEdge adj e = .ok adj2) (a : String) :
    adjEntries adj2 a = adjEntries adj a ++
      ((if a = e.source then [⟨e.target, effectiveWeight e.weight⟩] else []) ++
       (if a = e.target then [⟨e.source, effectiveWeight e.weight⟩] else [])) := by
  unfold addEdge at h
  cases h1 : pushEntry adj e.source ⟨e.target, effectiveWeight e.weight⟩ with
  | error err => simp [h1, bind, Except.bind] at h
  | ok adj1 =>
    simp only [h1, bind, Except.bind] at h
    rw [adjEntries_pushEntry h a, adjEntries_pushEntry h1 a]
    by_cases hat : a = e.target
    · by_cases has : a = e.source
      · rw [if_pos hat, if_pos has, if_pos has, if_pos hat]
        simp
      · rw [if_pos hat, if_neg has, if_neg has, if_pos hat]
        simp
    · by_cases has : a = e.source
      · rw [if_neg hat, if_pos has, if_pos has, if_neg hat]
        simp
      · rw [if_neg hat, if_neg has, if_neg has, if_neg hat]
        simp

theorem hasNbr_addEdge {adj adj2 : AdjacencyList} {e : Edge}
    (h : addEdge adj e = .ok adj2) (a b : String) :
    (hasNbr adj2 a b = true ↔
      hasNbr adj a b = true ∨ (a = e.source ∧ b = e.target) ∨
        (a = e.target ∧ b = e.source)) := by
  have he := addEdge_entries h a
  unfold hasNbr
  rw [he]
  simp only [List.any_append, Bool.or_eq_true, List.any_eq_true]
  constructor
  · rintro (hold | (hnew | hnew))
    · exact Or.inl hold
    · by_cases has : a = e.source
      · simp only [has, if_true, List.mem_singleton] at hnew
        obtain ⟨en, rfl, hb⟩ := hnew
        exact Or.inr (Or.inl ⟨has, (beq_iff_eq.mp hb).symm⟩)
      · rw [if_neg has] at hnew
        simp at hnew
    · by_cases hat : a = e.target
      · simp only [hat, if_true, List.mem_singleton] at hnew
        obtain ⟨en, rfl, hb⟩ := hnew
        exact Or.inr (Or.inr ⟨hat, (beq_iff_eq.mp hb).symm⟩)
      · rw [if_neg hat] at hnew
        simp at hnew
  · rintro (hold | ⟨rfl, rfl⟩ | ⟨rfl, rfl⟩)
    · exact Or.inl hold
    · exact Or.inr (Or.inl (by simp))
    · exact Or.inr (Or.inr (by simp))

theorem foldlM_addEdge_keys :
    ∀ (edges : List Edge) (adj adj2 : AdjacencyList),
      edges.foldlM addEdge adj = .ok adj2 → adj2.map Prod.fst = adj.map Prod.fst := by
  intro edges
  induction edges with
  | nil =>
    intro adj adj2 h
    rw [List.foldlM_nil] at h
    rw [show (pure adj : Except EngineError AdjacencyList) = Except.ok adj from rfl] at h
    rw [Except.ok.injEq] at h
    rw [h]
  | cons e es ih =>
    intro adj adj2 h
    rw [List.foldlM_cons] at h
    cases h1 : addEdge adj e with
    | error err => simp [h1, bind, Except.bind] at h
    | ok adj1 =>
      simp only [h1, bind, Except.bind] at h
      rw [ih adj1 adj2 h, addEdge_ok_keys h1]

theorem build_ok_keys {nodes : List Node} {edges : List Edge} {adj : AdjacencyList}
    (h : createAdjacencyList nodes edges = .ok adj) :
    adj.map Prod.fst = dedupKeys (nodes.map Node.id) := by
  unfold createAdjacencyList at h
  rw [foldlM_addEdge_keys edges _ _ h, initAdjacency_map_fst]

theorem foldlM_addEdge_error_iff :
    ∀ (edges : List Edge) (adj : AdjacencyList),
      (∃ e ∈ edges, e.source ∉ adj.map Prod.fst ∨ e.target ∉ adj.map Prod.fst) ↔
        edges.foldlM addEdge adj = .error .unknownNodeReference := by
  intro edges
  induction edges with
  | nil =>
    intro adj
    rw [List.foldlM_nil]
    rw [show (pure adj : Except EngineError AdjacencyList) = Except.ok adj from rfl]
    simp
  | cons e es ih =>
    intro adj
    by_cases hgood : e.source ∈ adj.map Prod.fst ∧ e.target ∈ adj.map Prod.fst
    · obtain ⟨adj1, h1⟩ := addEdge_ok_exists hgood.1 hgood.2
      have hk := addEdge_ok_keys h1
      rw [List.foldlM_cons]
      simp only [h1, bind, Except.bind]
      constructor
      · rintro ⟨e2, he2, hbad⟩
        rcases List.mem_cons.mp he2 with rfl | he2
        · exact absurd hgood (by tauto)
        · exact (ih adj1).mp ⟨e2, he2, by rwa [hk]⟩
      · intro h
        obtain ⟨e2, he2, hbad⟩ := (ih adj1).mpr h
        exact ⟨e2, List.mem_cons_of_mem _ he2, by rwa [hk] at hbad⟩
    · have hbad : e.source ∉ adj.map Prod.fst ∨ e.target ∉ adj.map Prod.fst := by tauto
      rw [List.foldlM_cons]
      rw [addEdge_error hbad]
      simp only [bind, Except.bind]
      exact iff_of_true ⟨e, List.mem_cons_self e es, hbad⟩ trivial

theorem build_error_iff (nodes : List Node) (edges : List Edge) :
    createAdjacencyList nodes edges = .error .unknownNodeReference ↔
      ∃ e ∈ edges, e.source ∉ nodes.map Node.id ∨ e.target ∉ nodes.map Node.id := by
  unfold createAdjacencyList
  rw [← foldlM_addEdge_error_iff edges (initAdjacency nodes)]
  rw [initAdjacency_map_fst]
  constructor
  · rintro ⟨e, he, hbad⟩
    exact ⟨e, he, by rcases hbad with hb | hb <;> [left; right] <;>
      simpa [mem_dedupKeys] using hb⟩
  · rintro ⟨e, he, hbad⟩
    exact ⟨e, he, by rcases hbad with hb | hb <;> [left; right] <;>
      simpa [mem_dedupKeys] using hb⟩

theorem foldlM_addEdge_ok :
    ∀ (edges : List Edge) (adj : AdjacencyList),
      (∀ e ∈ edges, e.source ∈ adj.map Prod.fst ∧ e.target ∈ adj.map Prod.fst) →
      ∃ adj2, edges.foldlM addEdge adj = .ok adj2 := by
  intro edges
  induction edges with
  | nil =>
    intro adj _
    exact ⟨adj, rfl⟩
  | cons e es ih =>
    intro adj hgood
    obtain ⟨hs, ht⟩ := hgood e (List.mem_cons_self e es)
    obtain ⟨adj1, h1⟩ := addEdge_ok_exists hs ht
    have hk := addEdge_ok_keys h1
    obtain ⟨adj2, h2⟩ := ih adj1 (fun e2 he2 => by
      rw [hk]
      exact hgood e2 (List.mem_cons_of_mem _ he2))
    refine ⟨adj2, ?_⟩
    rw [List.foldlM_cons]
    simp only [h1, bind, Except.bind]
    exact h2

theorem build_ok_of_wellRefd {nodes : List Node} {edges : List Edge}
    (h : WellRefd nodes edges) : ∃ adj, createAdjacencyList nodes edges = .ok adj := by
  unfold createAdjacencyList
  apply foldlM_addEdge_ok
  intro e he
  rw [initAdjacency_map_fst]
  obtain ⟨hs, ht⟩ := h e he
  exact ⟨by rwa [mem_dedupKeys], by rwa [mem_dedupKeys]⟩

theorem initAdjacency_entries (nodes : List Node) (a : String) :
    adjEntries (initAdjacency nodes) a = [] := by
  suffices h : ∀ (nodes : List Node) (acc : AdjacencyList),
      (∀ p ∈ acc, p.2 = []) →
      ∀ p ∈ nodes.foldl (fun acc n => recordSet acc n.id []) acc, p.2 = [] by
    unfold adjEntries recordGet?
    cases hf : (initAdjacency nodes).find? (fun p => p.1 == a) with
    | none => simp
    | some p =>
      have hmem := List.mem_of_find?_eq_some hf
      have := h nodes [] (by simp) p hmem
      simp [this]
  intro ns
  induction ns with
  | nil =>
    intro acc hacc p hp
    exact hacc p hp
  | cons n ns ih =>
    intro acc hacc p hp
    refine ih (recordSet acc n.id []) ?_ p hp
    intro q hq
    unfold recordSet at hq
    cases hk : recordHas acc n.id with
    | true =>
      simp only [hk, if_true, List.mem_map] at hq
      obtain ⟨q0, hq0, rfl⟩ := hq
      by_cases hq0k : q0.1 == n.id <;> simp [hq0k, hacc q0 hq0]
    | false =>
      simp only [hk, Bool.false_eq_true, if_false, List.mem_append,
        List.mem_singleton] at hq
      rcases hq with hq | rfl
      · exact hacc q hq
      · rfl

theorem addEdge_ok_keyed {adj adj2 : AdjacencyList} {e : Edge}
    (h : addEdge adj e = .ok adj2) :
    e.source ∈ adj.map Prod.fst ∧ e.target ∈ adj.map Prod.fst := by
  unfold addEdge at h
  cases h1 : pushEntry adj e.source ⟨e.target, effectiveWeight e.weight⟩ with
  | error err => simp [h1, bind, Except.bind] at h
  | ok adj1 =>
    simp only [h1, bind, Except.bind] at h
    constructor
    · unfold pushEntry at h1
      by_cases hk : recordHas adj e.source
      · exact (recordHas_iff adj e.source).mp hk
      · simp [hk] at h1
    · unfold pushEntry at h
      by_cases hk : recordHas adj1 e.target
      · have := (recordHas_iff adj1 e.target).mp hk
        rwa [pushEntry_ok_keys h1] at this
      · simp [hk] at h

theorem hasNbr_initAdjacency (nodes : List Node) (a b : String) :
    hasNbr (initAdjacency nodes) a b = false := by
  unfold hasNbr
  rw [initAdjacency_entries]
  rfl

theorem foldlM_addEdge_symm :
    ∀ (edges : List Edge) (adj adj2 : AdjacencyList),
      (∀ a b, hasNbr adj a b = hasNbr adj b a) →
      edges.foldlM addEdge adj = .ok adj2 →
      ∀ a b, hasNbr adj2 a b = hasNbr adj2 b a := by
  intro edges
  induction edges with
  | nil =>
    intro adj adj2 hsym h
    rw [List.foldlM_nil] at h
    rw [show (pure adj : Except EngineError AdjacencyList) = Except.ok adj from rfl] at h
    rw [Except.ok.injEq] at h
    rw [← h]
    exact hsym
  | cons e es ih =>
    intro adj adj2 hsym h
    rw [List.foldlM_cons] at h
    cases h1 : addEdge adj e with
    | error err => simp [h1, bind, Except.bind] at h
    | ok adj1 =>
      simp only [h1, bind, Except.bind] at h
      refine ih adj1 adj2 (fun a b => ?_) h
      have hab := hasNbr_addEdge h1 a b
      have hba := hasNbr_addEdge h1 b a
      cases hx : hasNbr adj1 a b <;> cases hy : hasNbr adj1 b a
      · rfl
      · exfalso
        rw [hx] at hab
        rw [hy] at hba
        have := hab.mpr (by
          rcases hba.mp rfl with hold | hp | hp
          · exact Or.inl (by rw [hsym b a] at hold; exact hold)
          · exact Or.inr (Or.inr ⟨hp.2, hp.1⟩)
          · exact Or.inr (Or.inl ⟨hp.2, hp.1⟩))
        simp at this
      · exfalso
        rw [hx] at hab
        rw [hy] at hba
        have := hba.mpr (by
          rcases hab.mp rfl with hold | hp | hp
          · exact Or.inl (by rw [hsym a b] at hold; exact hold)
          · exact Or.inr (Or.inr ⟨hp.2, hp.1⟩)
          · exact Or.inr (Or.inl ⟨hp.2, hp.1⟩))
        simp at this
      · rfl

theorem foldlM_addEdge_entries_sub :
    ∀ (edges : List Edge) (adj adj2 : AdjacencyList),
      edges.foldlM addEdge adj = .ok adj2 →
      ∀ a en, en ∈ adjEntries adj2 a →
        en ∈ adjEntries adj a ∨
        ∃ ed ∈ edges, en.weight = effectiveWeight ed.weight ∧
          (en.nodeId = ed.target ∨ en.nodeId = ed.source) ∧
          ed.source ∈ adj.map Prod.fst ∧ ed.target ∈ adj.map Prod.fst := by
  intro edges
  induction edges with
  | nil =>
    intro adj adj2 h a en hen
    rw [List.foldlM_nil] at h
    rw [show (pure adj : Except EngineError AdjacencyList) = Except.ok adj from rfl] at h
    rw [Except.ok.injEq] at h
    subst h
    exact Or.inl hen
  | cons e es ih =>
    intro adj adj2 h a en hen
    rw [List.foldlM_cons] at h
    cases h1 : addEdge adj e with
    | error err => simp [h1, bind, Except.bind] at h
    | ok adj1 =>
      simp only [h1, bind, Except.bind] at h
      have hkeyed := addEdge_ok_keyed h1
      have hk := addEdge_ok_keys h1
      rcases ih adj1 adj2 h a en hen with hold | ⟨ed, hed, hw, hn, hkd⟩
      · rw [addEdge_entries h1 a] at hold
        rcases List.mem_append.mp hold with hold | hnew
        · exact Or.inl hold
        · rcases List.mem_append.mp hnew with hnew | hnew
          · by_cases has : a = e.source
            · rw [if_pos has, List.mem_singleton] at hnew
              subst hnew
              exact Or.inr ⟨e, List.mem_cons_self e es, rfl, Or.inl rfl, hkeyed⟩
            · rw [if_neg has] at hnew
              simp at hnew
          · by_cases hat : a = e.target
            · rw [if_pos hat, List.mem_singleton] at hnew
              subst hnew
              exact Or.inr ⟨e, List.mem_cons_self e es, rfl, Or.inr rfl, hkeyed⟩
            · rw [if_neg hat] at hnew
              simp at hnew
      · exact Or.inr ⟨ed, List.mem_cons_of_mem _ hed, hw, hn, by rwa [hk] at hkd⟩

theorem build_entry_provenance {nodes : List Node} {edges : List Edge} {adj : AdjacencyList}
    (h : createAdjacencyList nodes edges = .ok adj) :
    ∀ a en, en ∈ adjEntries adj a →
      ∃ ed ∈ edges, en.weight = effectiveWeight ed.weight ∧
        (en.nodeId = ed.target ∨ en.nodeId = ed.source) ∧
        ed.source ∈ nodes.map Node.id ∧ ed.target ∈ nodes.map Node.id := by
  intro a en hen
  unfold createAdjacencyList at h
  rcases foldlM_addEdge_entries_sub edges _ _ h a en hen with hinit | ⟨ed, hed, hw, hn, hks, hkt⟩
  · rw [initAdjacency_entries] at hinit
    simp at hinit
  · rw [initAdjacency_map_fst] at hks hkt
    rw [mem_dedupKeys] at hks hkt
    exact ⟨ed, hed, hw, hn, hks, hkt⟩

theorem build_adjNonneg {nodes : List Node} {edges : List Edge} {adj : AdjacencyList}
    (h : createAdjacencyList nodes edges = .ok adj)
    (hw : ∀ e ∈ edges, (0 : Int) ≤ effectiveWeight e.weight) : AdjNonneg adj := by
  intro a en hen
  obtain ⟨ed, hed, hwe, _, _⟩ := build_entry_provenance h a en hen
  rw [hwe]
  exact hw ed hed

theorem build_targets_keyed {nodes : List Node} {edges : List Edge} {adj : AdjacencyList}
    (h : createAdjacencyList nodes edges = .ok adj) :
    ∀ a, ∀ en ∈ adjEntries adj a, en.nodeId ∈ adj.map Prod.fst := by
  intro a en hen
  obtain ⟨ed, _, _, hn, hks, hkt⟩ := build_entry_provenance h a en hen
  rw [build_ok_keys h]
  rcases hn with hn | hn <;> rw [hn, mem_dedupKeys]
  · exact hkt
  · exact hks

theorem adjEntries_nonkey {adj : AdjacencyList} {a : String}
    (h : a ∉ adj.map Prod.fst) : adjEntries adj a = [] := by
  unfold adjEntries
  have hr : recordHas adj a = false := by
    rw [← Bool.not_eq_true, recordHas_iff]
    exact h
  rw [recordGet?_eq_none adj a hr]
  rfl

theorem mem_adjTargets {adj : AdjacencyList} {a : String} {en : AdjEntry}
    (hen : en ∈ adjEntries adj a) : en.nodeId ∈ adjTargets adj := by
  unfold adjEntries recordGet? at hen
  cases hf : adj.find? (fun p => p.1 == a) with
  | none => simp [hf] at hen
  | some p =>
    rw [hf] at hen
    have hen2 : en ∈ p.2 := hen
    unfold adjTargets
    rw [List.mem_flatten]
    exact ⟨p.2.map AdjEntry.nodeId, List.mem_map.mpr ⟨p, List.mem_of_find?_eq_some hf, rfl⟩,
      List.mem_map.mpr ⟨en, hen2, rfl⟩⟩

/-! ### Claims C2 and C3: adjacency builder -/

/-- Claim C2: for every node list and edge list whose edges reference only
listed nodes, the adjacency projection lists `b` among `a`'s neighbors iff it
lists `a` among `b`'s neighbors (bidirectional symmetry). -/
theorem C2_adjacency_bidirectional (nodes : List Node) (edges : List Edge)
    (h : WellRefd nodes edges) :
    ∃ adj, createAdjacencyList nodes edges = .ok adj ∧
      ∀ a b, hasNbr adj a b = hasNbr adj b a := by
  obtain ⟨adj, hadj⟩ := build_ok_of_wellRefd h
  refine ⟨adj, hadj, ?_⟩
  unfold createAdjacencyList at hadj
  exact foldlM_addEdge_symm edges _ adj (fun a b => by rw [hasNbr_initAdjacency,
    hasNbr_initAdjacency]) hadj

/-- Witness for C2 on a concrete two-node, one-edge graph. -/
theorem C2_adjacency_bidirectional_witness :
    ∃ adj, createAdjacencyList
        [{ id := "A", label := "A" }, { id := "B", label := "B" }]
        [{ id := "e1", source := "A", target := "B", weight := some 3 }] = .ok adj ∧
      ∀ a b, hasNbr adj a b = hasNbr adj b a :=
  C2_adjacency_bidirectional _ _ (by
    intro e he
    simp only [List.mem_singleton] at he
    subst he
    exact ⟨by decide, by decide⟩)

/-- Claim C3: whenever some edge references a node id absent from the node
list, the adjacency-projection build fails with the `UnknownNodeReference`
failure, and every runner fails before recording any step (the A* runner
reaches the build only when given a non-empty target, its missing-target check
coming first). -/
theorem C3_unknown_node_reference (nodes : List Node) (edges : List Edge)
    (hbad : ∃ e ∈ edges, e.source ∉ nodes.map Node.id ∨ e.target ∉ nodes.map Node.id) :
    createAdjacencyList nodes edges = .error .unknownNodeReference ∧
    (∀ s t, executeBFS nodes edges s t = .error .unknownNodeReference) ∧
    (∀ s t, executeDFS nodes edges s t = .error .unknownNodeReference) ∧
    (∀ s t, executeDijkstra nodes edges s t = .error .unknownNodeReference) ∧
    (∀ s tv, tv ≠ "" →
      executeAStar nodes edges s (some tv) = .error .unknownNodeReference) := by
  have hb : createAdjacencyList nodes edges = .error .unknownNodeReference :=
    (build_error_iff nodes edges).mpr hbad
  refine ⟨hb, fun s t => ?_, fun s t => ?_, fun s t => ?_, fun s tv htv => ?_⟩
  · unfold executeBFS
    rw [hb]
    rfl
  · unfold executeDFS
    rw [hb]
    rfl
  · unfold executeDijkstra dijkstraRun
    rw [hb]
    rfl
  · have htv2 : (tv == "") = false := by
      rw [beq_eq_false_iff_ne]
      exact htv
    unfold executeAStar
    simp only [htv2, Bool.false_eq_true, if_false, hb, bind, Except.bind]

/-- Witness for C3 on a concrete graph whose single edge names a missing node. -/
theorem C3_unknown_node_reference_witness :
    createAdjacencyList [{ id := "A", label := "A" }]
        [{ id := "e1", source := "A", target := "Z" }] = .error .unknownNodeReference ∧
    (∀ s t, executeBFS [{ id := "A", label := "A" }]
        [{ id := "e1", source := "A", target := "Z" }] s t = .error .unknownNodeReference) ∧
    (∀ s t, executeDFS [{ id := "A", label := "A" }]
        [{ id := "e1", source := "A", target := "Z" }] s t = .error .unknownNodeReference) ∧
    (∀ s t, executeDijkstra [{ id := "A", label := "A" }]
        [{ id := "e1", source := "A", target := "Z" }] s t = .error .unknownNodeReference) ∧
    (∀ s tv, tv ≠ "" → executeAStar [{ id := "A", label := "A" }]
        [{ id := "e1", source := "A", target := "Z" }] s (some tv) =
          .error .unknownNodeReference) :=
  C3_unknown_node_reference _ _
    ⟨{ id := "e1", source := "A", target := "Z" }, by decide, by decide⟩

/-! ### The JS distance order -/

theorem eLt_none_left (d : EDist) : eLt none d = false := rfl

theorem eLe_refl (a : EDist) : eLe a a := by
  cases a <;> simp [eLe, eLt]

theorem eLe_trans {a b c : EDist} (h1 : eLe a b) (h2 : eLe b c) : eLe a c := by
  cases a <;> cases b <;> cases c <;> simp_all [eLe, eLt] <;> omega

theorem eLe_of_eLt {a b : EDist} (h : eLt a b = true) : eLe a b := by
  cases a <;> cases b <;> simp_all [eLe, eLt] <;> omega

theorem eLe_of_not_eLt {a b : EDist} (h : eLt a b = false) : eLe b a := h

theorem eLe_some_none (a : Int) : eLe (some a) none := by
  simp [eLe, eLt]

theorem eLe_some_some {a b : Int} : eLe (some a) (some b) ↔ a ≤ b := by
  simp [eLe, eLt]

theorem eLe_none_right {a : EDist} (h : eLe none a) : a = none := by
  cases a
  · rfl
  · simp [eLe, eLt] at h

theorem eLt_some_of_le {a b : Int} (h : a ≤ b) : eLt (some a) (some b) = false → a = b := by
  simp only [eLt, decide_eq_false_iff_not, not_lt]
  omega

/-! ### The linear minimum scan -/

theorem scanMin_fold_spec (dist : String → EDist) :
    ∀ (l : List String) (init : Option String × EDist),
      (l.foldl (fun best id => if eLt (dist id) best.2 then (some id, dist id) else best)
          init = init ∨
        ∃ c ∈ l, l.foldl (fun best id =>
          if eLt (dist id) best.2 then (some id, dist id) else best) init =
            (some c, dist c) ∧ (dist c).isSome) ∧
      eLe (l.foldl (fun best id =>
        if eLt (dist id) best.2 then (some id, dist id) else best) init).2 init.2 ∧
      (∀ id ∈ l, eLt (dist id) (l.foldl (fun best id =>
        if eLt (dist id) best.2 then (some id, dist id) else best) init).2 = false) := by
  intro l
  induction l with
  | nil =>
    intro init
    exact ⟨Or.inl rfl, eLe_refl _, by simp⟩
  | cons y ys ih =>
    intro init
    simp only [List.foldl_cons]
    by_cases hy : eLt (dist y) init.2
    · rw [if_pos hy]
      obtain ⟨hsh, hle, hmin⟩ := ih (some y, dist y)
      refine ⟨?_, ?_, ?_⟩
      · rcases hsh with heq | ⟨c, hc, heq, hsome⟩
        · refine Or.inr ⟨y, List.mem_cons_self y ys, heq, ?_⟩
          cases hd : dist y
          · rw [hd] at hy
            simp [eLt] at hy
          · rfl
        · exact Or.inr ⟨c, List.mem_cons_of_mem _ hc, heq, hsome⟩
      · exact eLe_trans hle (eLe_of_eLt hy)
      · intro id hid
        rcases List.mem_cons.mp hid with rfl | hid
        · have h2 : eLe (ys.foldl (fun best id =>
              if eLt (dist id) best.2 then (some id, dist id) else best)
                (some id, dist id)).2 (dist id) := hle
          exact h2
        · exact hmin id hid
    · rw [if_neg hy]
      obtain ⟨hsh, hle, hmin⟩ := ih init
      refine ⟨?_, hle, ?_⟩
      · rcases hsh with heq | ⟨c, hc, heq, hsome⟩
        · exact Or.inl heq
        · exact Or.inr ⟨c, List.mem_cons_of_mem _ hc, heq, hsome⟩
      intro id hid
      rcases List.mem_cons.mp hid with rfl | hid
      · have hyf : eLt (dist id) init.2 = false := by
          simpa using hy
        have : eLe init.2 (dist id) := eLe_of_not_eLt hyf
        exact eLe_trans hle this
      · exact hmin id hid

theorem scanMin_none {dist : String → EDist} {l : List String}
    (h : (scanMin dist l).1 = none) : ∀ id ∈ l, dist id = none := by
  intro id hid
  obtain ⟨hsh, _, hmin⟩ := scanMin_fold_spec dist l (none, none)
  rcases hsh with heq | ⟨c, _, heq, _⟩
  · have hthis := hmin id hid
    unfold scanMin at h
    rw [heq] at hthis
    cases hd : dist id
    · rfl
    · rw [hd] at hthis
      simp [eLt] at hthis
  · unfold scanMin at h
    rw [heq] at h
    simp at h

theorem scanMin_some {dist : String → EDist} {l : List String} {c : String} {sd : EDist}
    (h : scanMin dist l = (some c, sd)) :
    c ∈ l ∧ dist c = sd ∧ sd.isSome ∧ ∀ id ∈ l, eLt (dist id) sd = false := by
  obtain ⟨hsh, _, hmin⟩ := scanMin_fold_spec dist l (none, none)
  unfold scanMin at h
  rcases hsh with heq | ⟨c2, hc2, heq, hsome⟩
  · rw [heq] at h
    simp at h
  · rw [heq] at h hmin
    obtain ⟨h1, h2⟩ := Prod.mk.injEq _ _ _ _ ▸ h
    have hcc : c2 = c := by
      simpa using congrArg Prod.fst h
    have hdd : dist c2 = sd := by
      simpa using congrArg Prod.snd h
    subst hcc
    refine ⟨hc2, hdd, by rw [← hdd] at *; exact hdd ▸ hsome, ?_⟩
    intro id hid
    have := hmin id hid
    rwa [hdd] at this

/-! ### Walk lemmas -/

theorem Walk.cast_weight {adj : AdjacencyList} {a b : String} {d d2 : Int}
    (h : Walk adj a b d) (he : d = d2) : Walk adj a b d2 := he ▸ h

theorem Walk.snoc {adj : AdjacencyList} {a b c : String} {d w : Int}
    (h : Walk adj a b d) (he : AdjEntry.mk c w ∈ adjEntries adj b) :
    Walk adj a c (d + w) := by
  induction h with
  | nil a =>
    exact (Walk.cons c he (Walk.nil c)).cast_weight (by ring)
  | cons b2 hb tail ih =>
    exact ((Walk.cons b2 hb (ih he))).cast_weight (by ring)

theorem Walk.weight_nonneg {adj : AdjacencyList} (hnn : AdjNonneg adj)
    {a b : String} {d : Int} (h : Walk adj a b d) : 0 ≤ d := by
  induction h with
  | nil a => exact le_refl 0
  | cons b2 hb tail ih =>
    have h2 := hnn _ _ hb
    dsimp only at h2
    omega

theorem Walk.end_cases {adj : AdjacencyList} {a b : String} {d : Int}
    (h : Walk adj a b d) : b = a ∨ b ∈ adjTargets adj := by
  induction h with
  | nil a => exact Or.inl rfl
  | cons b2 hb tail ih =>
    rcases ih with rfl | hmem
    · exact Or.inr (mem_adjTargets hb)
    · exact Or.inr hmem

theorem Reachable.refl (adj : AdjacencyList) (a : String) : Reachable adj a a :=
  ⟨0, Walk.nil a⟩

theorem reachable_snoc {adj : AdjacencyList} {a b c : String} {w : Int}
    (h : Reachable adj a b) (he : AdjEntry.mk c w ∈ adjEntries adj b) :
    Reachable adj a c := by
  obtain ⟨d, hw⟩ := h
  exact ⟨d + w, hw.snoc he⟩

theorem reachable_no_nbrs {adj : AdjacencyList} {a b : String}
    (hempty : adjEntries adj a = []) (h : Reachable adj a b) : b = a := by
  obtain ⟨d, hw⟩ := h
  cases hw with
  | nil => rfl
  | cons b2 hb tail =>
    rw [hempty] at hb
    simp at hb

/-! ### Claim C6: zero-weight edges -/

/-- Claim C6: a declared weight of exactly `0` is replaced by the effective
weight `1` (JS `||` falsiness), and on the concrete graph `A-B` with an
explicit weight of `0`, Dijkstra's final distance from `A` to `B` is `1`. -/
theorem C6_zero_weight_effective_one :
    (∀ e : Edge, e.weight = some 0 → effectiveWeight e.weight = 1) ∧
    (∃ st, dijkstraRun [{ id := "A", label := "A" }, { id := "B", label := "B" }]
        [{ id := "eAB", source := "A", target := "B", weight := some 0 }] "A" none = .ok st ∧
      st.dist "B" = some 1 ∧ st.dist "B" ≠ some 0) := by
  refine ⟨fun e he => ?_, ⟨_, rfl, rfl, by decide⟩⟩
  rw [he]
  rfl

/-- Witness for C6's universally quantified part at a concrete zero-weight edge. -/
theorem C6_zero_weight_effective_one_witness : effectiveWeight (some 0) = 1 :=
  C6_zero_weight_effective_one.1
    { id := "e", source := "A", target := "B", weight := some 0 } rfl

/-! ### Claim C9: the A* heuristic -/

/-- Counterexample to claim C9 as stated: both nodes carry x and y
coordinates (`A` at `(0, 5)`, `B` at `(3, 4)`), yet the heuristic is the
constant fallback `1` and not the Manhattan distance `4`, because the JS
truthiness test treats the coordinate `0` as missing. -/
theorem C9_heuristic_counterexample :
    (∀ n ∈ [({ id := "A", label := "A", x := some 0, y := some 5 } : Node),
      { id := "B", label := "B", x := some 3, y := some 4 }],
        n.x.isSome ∧ n.y.isSome) ∧
    getHeuristic (nodeMapOf [{ id := "A", label := "A", x := some 0, y := some 5 },
      { id := "B", label := "B", x := some 3, y := some 4 }]) "B" "A" = .ok 1 ∧
    (|(0 : Int) - 3| + |(5 : Int) - 4| = 4) ∧ (1 : Int) ≠ 4 := by
  refine ⟨by decide, rfl, by decide, by decide⟩

/-- Claim C9 as amended: when both node ids resolve in the node map, the
heuristic is the Manhattan distance exactly when all four coordinates are
present and non-zero (JS-truthy); otherwise it is the constant 1.  In
particular a node lacking only one coordinate, or carrying a zero coordinate,
already triggers the fallback. -/
theorem C9_heuristic_manhattan_or_fallback (nodeMap : List (String × Node))
    (t a : String) (na nt : Node)
    (ha : recordGet? nodeMap a = some na) (ht : recordGet? nodeMap t = some nt) :
    getHeuristic nodeMap t a = .ok
      (if truthyNum na.x && truthyNum na.y && truthyNum nt.x && truthyNum nt.y then
        |na.x.getD 0 - nt.x.getD 0| + |na.y.getD 0 - nt.y.getD 0|
      else 1) := by
  unfold getHeuristic
  rw [ha, ht]
  cases hx : truthyNum na.x <;> cases hy : truthyNum na.y <;>
    cases hx2 : truthyNum nt.x <;> cases hy2 : truthyNum nt.y <;>
      simp [hx, hy, hx2, hy2]

/-- Witness for the amended C9 on a concrete truthy-coordinate pair. -/
theorem C9_heuristic_manhattan_or_fallback_witness :
    getHeuristic (nodeMapOf [{ id := "A", label := "A", x := some 2, y := some 5 },
      { id := "B", label := "B", x := some 3, y := some 4 }]) "B" "A" = .ok
      (if truthyNum (some 2) && truthyNum (some 5) && truthyNum (some 3) &&
          truthyNum (some 4) then
        |(2 : Int) - 3| + |(5 : Int) - 4|
      else 1) :=
  C9_heuristic_manhattan_or_fallback _ "B" "A"
    { id := "A", label := "A", x := some 2, y := some 5 }
    { id := "B", label := "B", x := some 3, y := some 4 } (by decide) (by decide)

/-! ### Claim C10: consecutive step indices -/

theorem wellNumbered_append {steps : List AlgorithmStep} {st2 : AlgorithmStep}
    (h : WellNumbered steps) (hn : st2.step = steps.length) :
    WellNumbered (steps ++ [st2]) := by
  intro i hi
  rw [List.get_eq_getElem]
  by_cases hlt : i < steps.length
  · rw [List.getElem_append_left hlt]
    have h2 := h i hlt
    rw [List.get_eq_getElem] at h2
    exact h2
  · have hieq : i = steps.length := by
      rw [List.length_append, List.length_singleton] at hi
      omega
    subst hieq
    rw [List.getElem_concat_length]
    · exact hn
    · rfl

theorem bfsDiscover_counted {c : String} {st : BfsState} {e : AdjEntry}
    (h : st.stepn = st.steps.length ∧ WellNumbered st.steps) :
    (bfsDiscover c st e).stepn = (bfsDiscover c st e).steps.length ∧
      WellNumbered (bfsDiscover c st e).steps := by
  unfold bfsDiscover
  by_cases hv : st.visited.contains e.nodeId
  · rw [if_pos hv]
    exact h
  · rw [if_neg hv]
    refine ⟨by simp [h.1], wellNumbered_append h.2 h.1⟩

theorem bfsDiscover_fold_counted (c : String) :
    ∀ (l : List AdjEntry) (st : BfsState),
      st.stepn = st.steps.length ∧ WellNumbered st.steps →
      (l.foldl (bfsDiscover c) st).stepn = (l.foldl (bfsDiscover c) st).steps.length ∧
        WellNumbered (l.foldl (bfsDiscover c) st).steps := by
  intro l
  induction l with
  | nil => exact fun st h => h
  | cons e es ih =>
    intro st h
    rw [List.foldl_cons]
    exact ih _ (bfsDiscover_counted h)

theorem bfsLoop_counted (adj : AdjacencyList) (t : Option String) :
    ∀ (fuel : Nat) (st st2 : BfsState),
      st.stepn = st.steps.length ∧ WellNumbered st.steps →
      bfsLoop adj t fuel st = .ok st2 →
      st2.stepn = st2.steps.length ∧ WellNumbered st2.steps := by
  intro fuel
  induction fuel with
  | zero =>
    intro st st2 h hl
    unfold bfsLoop at hl
    rw [Except.ok.injEq] at hl
    rw [← hl]
    exact h
  | succ fuel ih =>
    intro st st2 h hl
    unfold bfsLoop at hl
    cases hq : st.queue with
    | nil =>
      rw [hq, Except.ok.injEq] at hl
      rw [← hl]
      exact h
    | cons c rest =>
      rw [hq] at hl
      dsimp only at hl
      by_cases htm : targetMatches t c
      · rw [if_pos htm, Except.ok.injEq] at hl
        rw [← hl]
        exact ⟨by simp [h.1], wellNumbered_append h.2 h.1⟩
      · rw [if_neg htm] at hl
        cases hg : recordGet? adj c with
        | none =>
          rw [hg] at hl
          exact absurd hl (by simp)
        | some nbrs =>
          rw [hg] at hl
          dsimp only at hl
          have h1 : (nbrs.foldl (bfsDiscover c) { st with queue := rest }).stepn =
              (nbrs.foldl (bfsDiscover c) { st with queue := rest }).steps.length ∧
              WellNumbered (nbrs.foldl (bfsDiscover c) { st with queue := rest }).steps :=
            bfsDiscover_fold_counted c nbrs _ h
          cases hq1 : (nbrs.foldl (bfsDiscover c) { st with queue := rest }).queue with
          | nil =>
            rw [hq1] at hl
            dsimp only at hl
            exact ih _ _ h1 hl
          | cons q0 qrest =>
            rw [hq1] at hl
            dsimp only at hl
            refine ih _ _ ⟨by simp [h1.1], wellNumbered_append h1.2 h1.1⟩ hl

theorem dfsPush_counted {c : String} {st : DfsState} {e : AdjEntry}
    (h : st.stepn = st.steps.length ∧ WellNumbered st.steps) :
    (dfsPush c st e).stepn = (dfsPush c st e).steps.length ∧
      WellNumbered (dfsPush c st e).steps := by
  unfold dfsPush
  by_cases hv : st.visited.contains e.nodeId
  · rw [if_pos hv]
    exact h
  · rw [if_neg hv]
    exact ⟨by simp [h.1], wellNumbered_append h.2 h.1⟩

theorem dfsPush_fold_counted (c : String) :
    ∀ (l : List AdjEntry) (st : DfsState),
      st.stepn = st.steps.length ∧ WellNumbered st.steps →
      (l.foldl (dfsPush c) st).stepn = (l.foldl (dfsPush c) st).steps.length ∧
        WellNumbered (l.foldl (dfsPush c) st).steps := by
  intro l
  induction l with
  | nil => exact fun st h => h
  | cons e es ih =>
    intro st h
    rw [List.foldl_cons]
    exact ih _ (dfsPush_counted h)

theorem dfsLoop_counted (adj : AdjacencyList) (t : Option String) :
    ∀ (fuel : Nat) (st st2 : DfsState),
      st.stepn = st.steps.length ∧ WellNumbered st.steps →
      dfsLoop adj t fuel st = .ok st2 →
      st2.stepn = st2.steps.length ∧ WellNumbered st2.steps := by
  intro fuel
  induction fuel with
  | zero =>
    intro st st2 h hl
    unfold dfsLoop at hl
    rw [Except.ok.injEq] at hl
    rw [← hl]
    exact h
  | succ fuel ih =>
    intro st st2 h hl
    unfold dfsLoop at hl
    cases hq : st.stack with
    | nil =>
      rw [hq, Except.ok.injEq] at hl
      rw [← hl]
      exact h
    | cons c rest =>
      rw [hq] at hl
      dsimp only at hl
      by_cases hv : st.visited.contains c
      · rw [if_pos hv] at hl
        refine ih _ _ ?_ hl
        exact ⟨h.1, h.2⟩
      · rw [if_neg hv] at hl
        have h1 : (st.stepn + 1) = (st.steps ++ [{
            step := st.stepn
            visited := st.visited ++ [c]
            current := some c
            stack := some rest.reverse
            description := "Visiting node " ++ c }] : List AlgorithmStep).length ∧
            WellNumbered (st.steps ++ [{
            step := st.stepn
            visited := st.visited ++ [c]
            current := some c
            stack := some rest.reverse
            description := "Visiting node " ++ c }] : List AlgorithmStep) :=
          ⟨by simp [h.1], wellNumbered_append h.2 h.1⟩
        by_cases htm : targetMatches t c
        · rw [if_pos htm, Except.ok.injEq] at hl
          rw [← hl]
          exact ⟨by simp [h1.1], wellNumbered_append h1.2 h1.1⟩
        · rw [if_neg htm] at hl
          cases hg : recordGet? adj c with
          | none =>
            rw [hg] at hl
            exact absurd hl (by simp)
          | some nbrs =>
            rw [hg] at hl
            dsimp only at hl
            refine ih _ _ ?_ hl
            exact dfsPush_fold_counted c nbrs.reverse _ h1

theorem dijkstraRelax_counted {nodeIds dkeys : List String} {c : String}
    {st : DijkstraState} {e : AdjEntry}
    (h : st.stepn = st.steps.length ∧ WellNumbered st.steps) :
    (dijkstraRelax nodeIds dkeys c st e).stepn =
      (dijkstraRelax nodeIds dkeys c st e).steps.length ∧
      WellNumbered (dijkstraRelax nodeIds dkeys c st e).steps := by
  unfold dijkstraRelax
  by_cases hu : st.unvisited.contains e.nodeId
  · rw [if_pos hu]
    by_cases hlt : eLt (eAdd (st.dist c) e.weight) (st.dist e.nodeId)
    · rw [if_pos hlt]
      exact ⟨by simp [h.1], wellNumbered_append h.2 h.1⟩
    · rw [if_neg hlt]
      exact h
  · rw [if_neg hu]
    exact h

theorem dijkstraRelax_fold_counted (nodeIds dkeys : List String) (c : String) :
    ∀ (l : List AdjEntry) (st : DijkstraState),
      st.stepn = st.steps.length ∧ WellNumbered st.steps →
      (l.foldl (dijkstraRelax nodeIds dkeys c) st).stepn =
        (l.foldl (dijkstraRelax nodeIds dkeys c) st).steps.length ∧
        WellNumbered (l.foldl (dijkstraRelax nodeIds dkeys c) st).steps := by
  intro l
  induction l with
  | nil => exact fun st h => h
  | cons e es ih =>
    intro st h
    rw [List.foldl_cons]
    exact ih _ (dijkstraRelax_counted h)

theorem dijkstraLoop_counted (adj : AdjacencyList) (nodeIds dkeys : List String)
    (t : Option String) :
    ∀ (fuel : Nat) (st : DijkstraState),
      st.stepn = st.steps.length ∧ WellNumbered st.steps →
      (dijkstraLoop adj nodeIds dkeys t fuel st).stepn =
        (dijkstraLoop adj nodeIds dkeys t fuel st).steps.length ∧
        WellNumbered (dijkstraLoop adj nodeIds dkeys t fuel st).steps := by
  intro fuel
  induction fuel with
  | zero => exact fun st h => h
  | succ fuel ih =>
    intro st h
    unfold dijkstraLoop
    by_cases he : st.unvisited.isEmpty
    · rw [if_pos he]
      exact h
    · rw [if_neg he]
      cases hm : scanMin st.dist st.unvisited with
      | mk c0 sd =>
        cases c0 with
        | none =>
          dsimp only
          exact h
        | some c =>
          dsimp only
          by_cases hsd : (c == "" || sd.isNone) = true
          · rw [if_pos hsd]
            exact h
          · rw [if_neg hsd]
            by_cases htm : targetMatches t c
            · rw [if_pos htm]
              exact ⟨by simp [h.1], wellNumbered_append h.2 h.1⟩
            · rw [if_neg htm]
              have h2 := dijkstraRelax_fold_counted nodeIds dkeys c
                (adjEntries adj c) { st with unvisited := st.unvisited.erase c } h
              cases hm2 : scanMin (((adjEntries adj c).foldl
                  (dijkstraRelax nodeIds dkeys c)
                  { st with unvisited := st.unvisited.erase c }).dist)
                  (((adjEntries adj c).foldl (dijkstraRelax nodeIds dkeys c)
                  { st with unvisited := st.unvisited.erase c }).unvisited) with
              | mk nx0 sd2 =>
                cases nx0 with
                | none =>
                  dsimp only
                  exact ih _ h2
                | some nx =>
                  dsimp only
                  by_cases hnx : (nx == "") = true
                  · rw [if_pos hnx]
                    exact ih _ h2
                  · rw [if_neg hnx]
                    exact ih _ ⟨by simp [h2.1], wellNumbered_append h2.2 h2.1⟩

theorem dijkstraFinal_counted (nodeIds dkeys : List String) (t : Option String)
    (st : DijkstraState)
    (h : st.stepn = st.steps.length ∧ WellNumbered st.steps) :
    (dijkstraFinal nodeIds dkeys t st).stepn =
      (dijkstraFinal nodeIds dkeys t st).steps.length ∧
      WellNumbered (dijkstraFinal nodeIds dkeys t st).steps := by
  unfold dijkstraFinal
  cases t with
  | none => exact h
  | some tv =>
    dsimp only
    by_cases he : tv == ""
    · rw [if_pos he]
      exact h
    · rw [if_neg he]
      cases hp : st.prev tv with
      | none => exact h
      | some o =>
        dsimp only
        cases hlast : st.steps.getLast? with
        | none => exact h
        | some last =>
          dsimp only
          by_cases hip : last.path.isNone
          · rw [if_pos hip]
            exact ⟨by simp [h.1], wellNumbered_append h.2 h.1⟩
          · rw [if_neg hip]
            exact h

theorem astarRelax_counted {nodeMap : List (String × Node)} {gkeys : List String}
    {tv c : String} {st st2 : AStarState} {e : AdjEntry}
    (h : st.stepn = st.steps.length ∧ WellNumbered st.steps)
    (hr : astarRelax nodeMap gkeys tv c st e = .ok st2) :
    st2.stepn = st2.steps.length ∧ WellNumbered st2.steps := by
  unfold astarRelax at hr
  dsimp only at hr
  by_cases hc : st.closedSet.contains e.nodeId
  · rw [if_pos hc, Except.ok.injEq] at hr
    rw [← hr]
    exact h
  · rw [if_neg hc] at hr
    by_cases hskip : (st.openSet.contains e.nodeId &&
        !eLt (eAdd (st.g c) e.weight) (st.g e.nodeId)) = true
    · rw [if_pos hskip, Except.ok.injEq] at hr
      rw [← hr]
      exact h
    · rw [if_neg hskip] at hr
      cases hh : getHeuristic nodeMap tv e.nodeId with
      | error err =>
        rw [hh] at hr
        exact absurd hr (by simp [bind, Except.bind])
      | ok hval =>
        rw [hh] at hr
        simp only [bind, Except.bind, Except.ok.injEq] at hr
        rw [← hr]
        exact ⟨by simp [h.1], wellNumbered_append h.2 h.1⟩

theorem astarRelax_fold_counted (nodeMap : List (String × Node)) (gkeys : List String)
    (tv c : String) :
    ∀ (l : List AdjEntry) (st st2 : AStarState),
      st.stepn = st.steps.length ∧ WellNumbered st.steps →
      l.foldlM (astarRelax nodeMap gkeys tv c) st = .ok st2 →
      st2.stepn = st2.steps.length ∧ WellNumbered st2.steps := by
  intro l
  induction l with
  | nil =>
    intro st st2 h hl
    rw [List.foldlM_nil] at hl
    rw [show (pure st : Except EngineError AStarState) = Except.ok st from rfl] at hl
    rw [Except.ok.injEq] at hl
    rw [← hl]
    exact h
  | cons e es ih =>
    intro st st2 h hl
    rw [List.foldlM_cons] at hl
    cases h1 : astarRelax nodeMap gkeys tv c st e with
    | error err => simp [h1, bind, Except.bind] at hl
    | ok st1 =>
      simp only [h1, bind, Except.bind] at hl
      exact ih _ _ (astarRelax_counted h h1) hl

theorem astarLoop_counted (adj : AdjacencyList) (nodeMap : List (String × Node))
    (gkeys : List String) (tv : String) :
    ∀ (fuel : Nat) (st st2 : AStarState),
      st.stepn = st.steps.length ∧ WellNumbered st.steps →
      astarLoop adj nodeMap gkeys tv fuel st = .ok st2 →
      st2.stepn = st2.steps.length ∧ WellNumbered st2.steps := by
  intro fuel
  induction fuel with
  | zero =>
    intro st st2 h hl
    unfold astarLoop at hl
    rw [Except.ok.injEq] at hl
    rw [← hl]
    exact h
  | succ fuel ih =>
    intro st st2 h hl
    unfold astarLoop at hl
    by_cases he : st.openSet.isEmpty
    · rw [if_pos he, Except.ok.injEq] at hl
      rw [← hl]
      exact h
    · rw [if_neg he] at hl
      cases hm : scanMin st.f st.openSet with
      | mk c0 sd =>
        rw [hm] at hl
        cases c0 with
        | none =>
          dsimp only at hl
          rw [Except.ok.injEq] at hl
          rw [← hl]
          exact h
        | some c =>
          dsimp only at hl
          by_cases hce : (c == "") = true
          · rw [if_pos hce, Except.ok.injEq] at hl
            rw [← hl]
            exact h
          · rw [if_neg hce] at hl
            by_cases hct : c == tv
            · rw [if_pos hct, Except.ok.injEq] at hl
              rw [← hl]
              exact ⟨by simp [h.1], wellNumbered_append h.2 h.1⟩
            · rw [if_neg hct] at hl
              cases h2 : (adjEntries adj c).foldlM (astarRelax nodeMap gkeys tv c)
                  { st with
                    openSet := st.openSet.erase c
                    closedSet := st.closedSet ++ [c] } with
              | error err => simp [h2, bind, Except.bind] at hl
              | ok stf =>
                simp only [h2, bind, Except.bind] at hl
                have hf : stf.stepn = stf.steps.length ∧ WellNumbered stf.steps :=
                  astarRelax_fold_counted nodeMap gkeys tv c _
                    { st with
                      openSet := st.openSet.erase c
                      closedSet := st.closedSet ++ [c] } _ ⟨h.1, h.2⟩ h2
                cases hm2 : scanMin stf.f stf.openSet with
                | mk nx0 sd2 =>
                  rw [hm2] at hl
                  cases nx0 with
                  | none => exact ih _ _ hf hl
                  | some nx =>
                    dsimp only at hl
                    by_cases hnx : (nx == "") = true
                    · rw [if_pos hnx] at hl
                      exact ih _ _ hf hl
                    · rw [if_neg hnx] at hl
                      exact ih _ _ ⟨by simp [hf.1], wellNumbered_append hf.2 hf.1⟩ hl

theorem wellNumbered_single {st : AlgorithmStep} (h : st.step = 0) :
    WellNumbered [st] := by
  intro i hi
  simp only [List.length_singleton] at hi
  have hz : i = 0 := by omega
  subst hz
  exact h

/-- Claim C10: for each of the four runners, the `i`-th record of a returned
steps sequence has `step` field `i`: indices are consecutive from 0. -/
theorem C10_step_indices_consecutive (nodes : List Node) (edges : List Edge)
    (s : String) (t : Option String) :
    (∀ r, executeBFS nodes edges s t = .ok r → WellNumbered r.steps) ∧
    (∀ r, executeDFS nodes edges s t = .ok r → WellNumbered r.steps) ∧
    (∀ r, executeDijkstra nodes edges s t = .ok r → WellNumbered r.steps) ∧
    (∀ r, executeAStar nodes edges s t = .ok r → WellNumbered r.steps) := by
  refine ⟨fun r hr => ?_, fun r hr => ?_, fun r hr => ?_, fun r hr => ?_⟩
  · unfold executeBFS at hr
    cases hb : createAdjacencyList nodes edges with
    | error err => simp [hb, bind, Except.bind] at hr
    | ok adj =>
      simp only [hb, bind, Except.bind] at hr
      cases hloop : bfsLoop adj t (2 * (adjTargets adj).length + 1)
          { visited := [s], queue := [s], steps := [{
              step := 0
              visited := [s]
              current := some s
              queue := some [s]
              description := "Starting BFS from node " ++ s }], stepn := 1 } with
      | error err => rw [hloop] at hr; simp at hr
      | ok st1 =>
        rw [hloop] at hr
        simp only [Except.ok.injEq] at hr
        have h1 := bfsLoop_counted adj t _ _ _
          ⟨rfl, wellNumbered_single rfl⟩ hloop
        rw [← hr]
        exact h1.2
  · unfold executeDFS at hr
    cases hb : createAdjacencyList nodes edges with
    | error err => simp [hb, bind, Except.bind] at hr
    | ok adj =>
      simp only [hb, bind, Except.bind] at hr
      cases hloop : dfsLoop adj t
          (((adjTargets adj).length + 1) * ((adjTargets adj).length + 1) + 1)
          { visited := [], stack := [s], steps := [{
              step := 0
              visited := []
              current := some s
              stack := some [s]
              description := "Starting DFS from node " ++ s }], stepn := 1 } with
      | error err => rw [hloop] at hr; simp at hr
      | ok st1 =>
        rw [hloop] at hr
        simp only [Except.ok.injEq] at hr
        have h1 := dfsLoop_counted adj t _ _ _
          ⟨rfl, wellNumbered_single rfl⟩ hloop
        rw [← hr]
        exact h1.2
  · unfold executeDijkstra dijkstraRun at hr
    cases hb : createAdjacencyList nodes edges with
    | error err => simp [hb, bind, Except.bind] at hr
    | ok adj =>
      simp only [hb, bind, Except.bind, Except.ok.injEq] at hr
      rw [← hr]
      refine (dijkstraFinal_counted _ _ _ _ ?_).2
      refine dijkstraLoop_counted adj _ _ t _ _ ?_
      exact ⟨rfl, wellNumbered_single rfl⟩
  · unfold executeAStar at hr
    cases t with
    | none => simp at hr
    | some tv =>
      dsimp only at hr
      by_cases he : tv == ""
      · rw [if_pos he] at hr
        simp at hr
      · rw [if_neg he] at hr
        cases hb : createAdjacencyList nodes edges with
        | error err => simp [hb, bind, Except.bind] at hr
        | ok adj =>
          simp only [hb, bind, Except.bind] at hr
          cases hh : getHeuristic (nodeMapOf nodes) tv s with
          | error err => rw [hh] at hr; simp [bind, Except.bind] at hr
          | ok h0 =>
            rw [hh] at hr
            simp only [bind, Except.bind] at hr
            cases hloop : astarLoop adj (nodeMapOf nodes)
                (insertKey (dedupKeys (nodes.map Node.id)) s) tv
                ((adjTargets adj).length + nodes.length + 2)
                { openSet := [s], closedSet := [],
                  g := updF (fun _ => (none : EDist)) s (some 0),
                  f := updF (fun _ => (none : EDist)) s (some h0),
                  prev := fun id =>
                    if (dedupKeys (nodes.map Node.id)).contains id then some none else none,
                  steps := [{
                    step := 0
                    visited := []
                    current := some s
                    distances := some (distSnapshot
                      (insertKey (dedupKeys (nodes.map Node.id)) s)
                      (updF (fun _ => (none : EDist)) s (some 0)))
                    description := "Starting A* search from node " ++ s ++
                      " to target " ++ tv }],
                  stepn := 1 } with
            | error err => rw [hloop] at hr; simp at hr
            | ok st1 =>
              rw [hloop] at hr
              simp only [Except.ok.injEq] at hr
              have h1 := astarLoop_counted adj (nodeMapOf nodes) _ tv _ _ _
                ⟨rfl, wellNumbered_single rfl⟩ hloop
              by_cases hcl : st1.closedSet.contains tv
              · rw [if_pos hcl] at hr
                rw [← hr]
                exact h1.2
              · rw [if_neg hcl] at hr
                rw [← hr]
                exact (wellNumbered_append h1.2 h1.1)

/-! ### BFS machinery -/

theorem visiting_ne_reached (tv c b : String) :
    "Visiting node " ++ c ++ ", discovered neighbor " ++ b ≠ reachedDesc tv := by
  intro h
  have h2 := congrArg String.data h
  unfold reachedDesc at h2
  simp only [String.data_append] at h2
  have h3 : ('V' : Char) = 'T' := by
    have h4 := congrArg List.head? h2
    simpa using h4
  simp at h3

theorem moving_ne_reached (tv q : String) :
    "Moving to next node in queue: " ++ q ≠ reachedDesc tv := by
  intro h
  have h2 := congrArg String.data h
  unfold reachedDesc at h2
  simp only [String.data_append] at h2
  have h3 : ('M' : Char) = 'T' := by
    have h4 := congrArg List.head? h2
    simpa using h4
  simp at h3

theorem startingBFS_ne_reached (tv s : String) :
    "Starting BFS from node " ++ s ≠ reachedDesc tv := by
  intro h
  have h2 := congrArg String.data h
  unfold reachedDesc at h2
  simp only [String.data_append] at h2
  have h3 : ('S' : Char) = 'T' := by
    have h4 := congrArg List.head? h2
    simpa using h4
  simp at h3

theorem cnv_append (T : Finset String) (A news : List String)
    (hnd : news.Nodup) (hsub : ∀ x ∈ news, x ∈ T ∧ x ∉ A) :
    (T \ (A ++ news).toFinset).card + news.length = (T \ A.toFinset).card := by
  have hN : news.toFinset ⊆ T \ A.toFinset := by
    intro x hx
    rw [List.mem_toFinset] at hx
    rcases hsub x hx with ⟨hx1, hx2⟩
    rw [Finset.mem_sdiff, List.mem_toFinset]
    exact ⟨hx1, hx2⟩
  have he : T \ (A ++ news).toFinset = (T \ A.toFinset) \ news.toFinset := by
    ext x
    simp only [List.toFinset_append, Finset.mem_sdiff, Finset.mem_union]
    tauto
  rw [he, Finset.card_sdiff hN]
  have hc : news.toFinset.card = news.length := by
    rw [List.toFinset_card_of_nodup hnd]
  have hle : news.toFinset.card ≤ (T \ A.toFinset).card := Finset.card_le_card hN
  omega

theorem visited_complete {adj : AdjacencyList} {s : String} {vis : List String}
    (hstart : s ∈ vis)
    (hclosed : ∀ v ∈ vis, ∀ e ∈ adjEntries adj v, e.nodeId ∈ vis) :
    ∀ v, Reachable adj s v → v ∈ vis := by
  have h : ∀ a c d, Walk adj a c d → a ∈ vis → c ∈ vis := by
    intro a c d hw
    induction hw with
    | nil a => exact id
    | cons b hb tail ih =>
      intro ha
      exact ih (hclosed _ ha _ hb)
  rintro v ⟨d, hw⟩
  exact h s v d hw hstart

theorem bfsDiscover_fold_facts (c : String) :
    ∀ (l : List AdjEntry) (st : BfsState),
      ∃ news,
        (l.foldl (bfsDiscover c) st).visited = st.visited ++ news ∧
        (l.foldl (bfsDiscover c) st).queue = st.queue ++ news ∧
        news.Nodup ∧
        (∀ x ∈ news, x ∉ st.visited) ∧
        (∀ x ∈ news, ∃ e ∈ l, e.nodeId = x) ∧
        (∀ e ∈ l, e.nodeId ∈ st.visited ++ news) ∧
        (∃ ds, (l.foldl (bfsDiscover c) st).steps = st.steps ++ ds ∧
          (∀ x ∈ ds, ∃ b, x.description =
            "Visiting node " ++ c ++ ", discovered neighbor " ++ b) ∧
          ((ds = [] ∧ news = []) ∨
            ∃ last2, (l.foldl (bfsDiscover c) st).steps.getLast? = some last2 ∧
              last2.visited = st.visited ++ news)) := by
  intro l
  induction l with
  | nil =>
    intro st
    refine ⟨[], by simp, by simp, List.nodup_nil, by simp, by simp, by simp,
      [], by simp, by simp, Or.inl ⟨rfl, rfl⟩⟩
  | cons e es ih =>
    intro st
    rw [List.foldl_cons]
    by_cases hv : st.visited.contains e.nodeId
    · rw [show bfsDiscover c st e = st from by unfold bfsDiscover; rw [if_pos hv]]
      obtain ⟨news, h1, h2, h3, h4, h5, h6, ds, hd1, hd2, hd3⟩ := ih st
      refine ⟨news, h1, h2, h3, h4, ?_, ?_, ds, hd1, hd2, hd3⟩
      · intro x hx
        obtain ⟨e2, he2, hee⟩ := h5 x hx
        exact ⟨e2, List.mem_cons_of_mem _ he2, hee⟩
      · intro e2 he2
        rcases List.mem_cons.mp he2 with rfl | he2
        · exact List.mem_append_left _ (by simpa using hv)
        · exact h6 e2 he2
    · have hst' : bfsDiscover c st e = {
          visited := st.visited ++ [e.nodeId]
          queue := st.queue ++ [e.nodeId]
          steps := st.steps ++ [{
            step := st.stepn
            visited := st.visited ++ [e.nodeId]
            current := some c
            queue := some (st.queue ++ [e.nodeId])
            description := "Visiting node " ++ c ++ ", discovered neighbor " ++ e.nodeId }]
          stepn := st.stepn + 1 } := by
        unfold bfsDiscover
        rw [if_neg hv]
      rw [hst']
      obtain ⟨news, h1, h2, h3, h4, h5, h6, ds, hd1, hd2, hd3⟩ := ih _
      refine ⟨e.nodeId :: news, ?_, ?_, ?_, ?_, ?_, ?_, ?_⟩
      · rw [h1]
        simp
      · rw [h2]
        simp
      · refine List.Nodup.cons ?_ h3
        intro hmem
        exact h4 e.nodeId hmem (List.mem_append_right _ (by simp))
      · intro x hx
        rcases List.mem_cons.mp hx with rfl | hx
        · simpa using hv
        · intro hmem
          exact h4 x hx (List.mem_append_left _ hmem)
      · intro x hx
        rcases List.mem_cons.mp hx with rfl | hx
        · exact ⟨e, List.mem_cons_self e es, rfl⟩
        · obtain ⟨e2, he2, hee⟩ := h5 x hx
          exact ⟨e2, List.mem_cons_of_mem _ he2, hee⟩
      · intro e2 he2
        rcases List.mem_cons.mp he2 with rfl | he2
        · simp
        · have := h6 e2 he2
          rw [List.append_assoc] at this
          simpa using this
      · refine ⟨{
            step := st.stepn
            visited := st.visited ++ [e.nodeId]
            current := some c
            queue := some (st.queue ++ [e.nodeId])
            description :=
              "Visiting node " ++ c ++ ", discovered neighbor " ++ e.nodeId } :: ds,
          ?_, ?_, ?_⟩
        · rw [hd1]
          simp
        · intro x hx
          rcases List.mem_cons.mp hx with rfl | hx
          · exact ⟨e.nodeId, rfl⟩
          · exact hd2 x hx
        · rcases hd3 with ⟨hds, hnews⟩ | ⟨last2, hl2, hl2v⟩
          · subst hds
            subst hnews
            refine Or.inr ⟨{
                step := st.stepn
                visited := st.visited ++ [e.nodeId]
                current := some c
                queue := some (st.queue ++ [e.nodeId])
                description :=
                  "Visiting node " ++ c ++ ", discovered neighbor " ++ e.nodeId }, ?_, ?_⟩
            · rw [hd1]
              simp
            · simp
          · refine Or.inr ⟨last2, hl2, ?_⟩
            rw [hl2v]
            simp

theorem adjEntries_of_get {adj : AdjacencyList} {c : String} {nbrs : List AdjEntry}
    (hg : recordGet? adj c = some nbrs) : adjEntries adj c = nbrs := by
  unfold adjEntries
  rw [hg]
  rfl

theorem recordGet?_of_keyed {adj : AdjacencyList} {c : String}
    (h : recordHas adj c = true) : ∃ nbrs, recordGet? adj c = some nbrs := by
  have := recordGet?_isSome adj c h
  exact Option.isSome_iff_exists.mp this

/-- The master lemma for the BFS loop: with enough fuel the loop succeeds, and
either it ran to exhaustion (empty queue, invariant intact, visited closed
under adjacency, and — when a target was requested — no reached step and the
target not visited), or it broke on dequeuing the requested target (the trace
extends the previous steps by one terminal reached step, the target was
already in the previous snapshot's visited set, and everything visited is
reachable). -/
theorem bfsLoop_master (adj : AdjacencyList) (s : String) (t : Option String)
    (hs : recordHas adj s = true)
    (htk : ∀ x ∈ adjTargets adj, recordHas adj x = true) :
    ∀ (fuel : Nat) (st : BfsState), BfsInv adj s st →
      bfsMeasure adj st ≤ fuel →
      (∀ tv, t = some tv → tv ≠ "" →
        (∀ x ∈ st.steps, x.description ≠ reachedDesc tv) ∧
        (tv ∈ st.visited → tv ∈ st.queue)) →
      ∃ st2, bfsLoop adj t fuel st = .ok st2 ∧
        ((st2.queue = [] ∧ BfsInv adj s st2 ∧
          (∀ v ∈ st2.visited, ∀ e ∈ adjEntries adj v, e.nodeId ∈ st2.visited) ∧
          (∀ tv, t = some tv → tv ≠ "" →
            (∀ x ∈ st2.steps, x.description ≠ reachedDesc tv) ∧ tv ∉ st2.visited)) ∨
         (∃ tv pre last2, t = some tv ∧ tv ≠ "" ∧
            st2.steps = pre ++ [last2] ∧
            (∀ x ∈ pre, x.description ≠ reachedDesc tv) ∧
            last2.description = reachedDesc tv ∧
            last2.current = some tv ∧
            (∃ plast, pre.getLast? = some plast ∧ tv ∈ plast.visited) ∧
            tv ∈ st2.visited ∧ (∀ v ∈ st2.visited, Reachable adj s v))) := by
  intro fuel
  induction fuel with
  | zero =>
    intro st inv hmu htgt
    have hq : st.queue = [] := by
      unfold bfsMeasure at hmu
      have hlen : st.queue.length = 0 := by omega
      exact List.length_eq_zero.mp hlen
    refine ⟨st, by unfold bfsLoop; rfl, Or.inl ⟨hq, inv, ?_, ?_⟩⟩
    · intro v hv e he
      exact inv.closed v hv (by rw [hq]; simp) e he
    · intro tv htv hne
      refine ⟨(htgt tv htv hne).1, fun hmem => ?_⟩
      have := (htgt tv htv hne).2 hmem
      rw [hq] at this
      simp at this
  | succ fuel ih =>
    intro st inv hmu htgt
    cases hq : st.queue with
    | nil =>
      refine ⟨st, by unfold bfsLoop; rw [hq], Or.inl ⟨hq, inv, ?_, ?_⟩⟩
      · intro v hv e he
        exact inv.closed v hv (by rw [hq]; simp) e he
      · intro tv htv hne
        refine ⟨(htgt tv htv hne).1, fun hmem => ?_⟩
        have := (htgt tv htv hne).2 hmem
        rw [hq] at this
        simp at this
    | cons c rest =>
      have hcv : c ∈ st.visited := inv.queueSub c (by rw [hq]; exact List.mem_cons_self c rest)
      by_cases htm : targetMatches t c
      · obtain ⟨tv, htv, hne, hceq⟩ : ∃ tv, t = some tv ∧ tv ≠ "" ∧ tv = c := by
          cases t with
          | none => simp [targetMatches] at htm
          | some tv =>
            unfold targetMatches at htm
            rcases Bool.and_eq_true _ _ |>.mp htm with ⟨h1, h2⟩
            exact ⟨tv, rfl, by simpa using h1, by simpa using h2⟩
        have hloop : bfsLoop adj t (fuel + 1) st = .ok { st with
            queue := rest
            steps := st.steps ++ [{
              step := st.stepn
              visited := st.visited
              current := some c
              queue := some rest
              description := reachedDesc (t.getD "") }]
            stepn := st.stepn + 1 } := by
          unfold bfsLoop
          rw [hq]
          dsimp only
          rw [if_pos htm]
        obtain ⟨plast, hpl, hplv⟩ := inv.lastVis
        refine ⟨_, hloop, Or.inr ⟨tv, st.steps, _, htv, hne, rfl,
          (htgt tv htv hne).1, ?_, ?_, ⟨plast, hpl, ?_⟩, ?_, ?_⟩⟩
        · rw [htv]
          rfl
        · rw [hceq]
        · rw [hplv, hceq]
          exact hcv
        · rw [hceq]
          exact hcv
        · exact inv.reach
      · have hck : recordHas adj c = true := by
          rcases inv.keys c hcv with rfl | hct
          · exact hs
          · exact htk c hct
        obtain ⟨nbrs, hg⟩ := recordGet?_of_keyed hck
        have hce : adjEntries adj c = nbrs := adjEntries_of_get hg
        obtain ⟨news, h1, h2, h3, h4, h5, h6, ds, hd1, hd2, hd3⟩ :=
          bfsDiscover_fold_facts c nbrs { st with queue := rest }
        have hreachc : Reachable adj s c := inv.reach c hcv
        have hnewsT : ∀ x ∈ news, x ∈ adjTargets adj := by
          intro x hx
          obtain ⟨e, he, hee⟩ := h5 x hx
          rw [← hee]
          exact mem_adjTargets (hce ▸ he)
        have hnewsR : ∀ x ∈ news, Reachable adj s x := by
          intro x hx
          obtain ⟨e, he, hee⟩ := h5 x hx
          rw [← hee]
          exact reachable_snoc hreachc (show AdjEntry.mk e.nodeId e.weight ∈ adjEntries adj c from
            hce ▸ he)
        set st1 := nbrs.foldl (bfsDiscover c) { st with queue := rest } with hst1
        have hv1 : st1.visited = st.visited ++ news := h1
        have hq1 : st1.queue = rest ++ news := h2
        have inv1 : BfsInv adj s st1 := by
          refine ⟨?_, ?_, ?_, ?_, ?_, ?_, ?_⟩
          · rw [hv1]
            exact List.mem_append_left _ inv.startMem
          · intro x hx
            rw [hq1] at hx
            rw [hv1]
            rcases List.mem_append.mp hx with hx | hx
            · refine List.mem_append_left _ (inv.queueSub x ?_)
              rw [hq]
              exact List.mem_cons_of_mem _ hx
            · exact List.mem_append_right _ hx
          · rw [hv1]
            rw [List.nodup_append]
            exact ⟨inv.nodup, h3, fun x hx hx2 => h4 x hx2 hx⟩
          · intro v hv
            rw [hv1] at hv
            rcases List.mem_append.mp hv with hv | hv
            · exact inv.reach v hv
            · exact hnewsR v hv
          · intro v hv hvq e he
            rw [hq1] at hvq
            rw [hv1] at hv ⊢
            rcases List.mem_append.mp hv with hv | hv
            · by_cases hvc : v = c
              · subst hvc
                exact h6 e (hce ▸ he)
              · have hvq0 : v ∉ st.queue := by
                  rw [hq]
                  intro hmem
                  rcases List.mem_cons.mp hmem with rfl | hmem
                  · exact hvc rfl
                  · exact hvq (List.mem_append_left _ hmem)
                exact List.mem_append_left _ (inv.closed v hv hvq0 e he)
            · exact absurd (List.mem_append_right rest hv) hvq
          · intro x hx
            rw [hv1] at hx
            rcases List.mem_append.mp hx with hx | hx
            · exact inv.keys x hx
            · exact Or.inr (hnewsT x hx)
          · rcases hd3 with ⟨hds, hnews⟩ | ⟨last2, hl2, hl2v⟩
            · obtain ⟨plast, hpl, hplv⟩ := inv.lastVis
              refine ⟨plast, ?_, ?_⟩
              · rw [hd1, hds]
                simpa using hpl
              · rw [hplv, hv1, hnews]
                simp
            · exact ⟨last2, hl2, by rw [hl2v, hv1]⟩
        have hmu1 : bfsMeasure adj st1 + 1 ≤ bfsMeasure adj st := by
          unfold bfsMeasure
          rw [hq1, hv1, hq]
          have hcnv := cnv_append (adjTargets adj).toFinset st.visited news h3
            (fun x hx => ⟨by rw [List.mem_toFinset]; exact hnewsT x hx, h4 x hx⟩)
          simp only [List.length_append, List.length_cons]
          omega
        have htgt1 : ∀ tv, t = some tv → tv ≠ "" →
            (∀ x ∈ st1.steps, x.description ≠ reachedDesc tv) ∧
            (tv ∈ st1.visited → tv ∈ st1.queue) := by
          intro tv htv hne
          have htvc : tv ≠ c := by
            intro hcontra
            apply htm
            subst hcontra
            rw [htv]
            simp [targetMatches, bne_iff_ne, hne]
          constructor
          · intro x hx
            rw [hd1] at hx
            rcases List.mem_append.mp hx with hx | hx
            · exact (htgt tv htv hne).1 x hx
            · obtain ⟨b, hb⟩ := hd2 x hx
              rw [hb]
              exact visiting_ne_reached tv c b
          · intro hmem
            rw [hv1] at hmem
            rw [hq1]
            rcases List.mem_append.mp hmem with hmem | hmem
            · have := (htgt tv htv hne).2 hmem
              rw [hq] at this
              rcases List.mem_cons.mp this with heq | hmem2
              · exact absurd heq htvc
              · exact List.mem_append_left _ hmem2
            · exact List.mem_append_right _ hmem
        have hstep : bfsLoop adj t (fuel + 1) st = bfsLoop adj t fuel
            (match st1.queue with
             | [] => st1
             | q0 :: tail => { st1 with
                 steps := st1.steps ++ [{
                   step := st1.stepn
                   visited := st1.visited
                   current := some q0
                   queue := some st1.queue
                   description := "Moving to next node in queue: " ++ q0 }]
                 stepn := st1.stepn + 1 }) := by
          conv_lhs => rw [bfsLoop]
          rw [hq]
          dsimp only
          rw [if_neg htm, hg]
        cases hq1c : st1.queue with
        | nil =>
          rw [hq1c] at hstep
          dsimp only at hstep
          obtain ⟨st2, heq2, hpost⟩ := ih st1 inv1 (by omega) htgt1
          exact ⟨st2, by rw [hstep]; exact heq2, hpost⟩
        | cons q0 qrest =>
          have hstep2 : bfsLoop adj t (fuel + 1) st = bfsLoop adj t fuel
              { st1 with
                steps := st1.steps ++ [{
                  step := st1.stepn
                  visited := st1.visited
                  current := some q0
                  queue := some st1.queue
                  description := "Moving to next node in queue: " ++ q0 }]
                stepn := st1.stepn + 1 } := by
            rw [hstep, hq1c]
          have invM : BfsInv adj s ({ st1 with
              steps := st1.steps ++ [{
                step := st1.stepn
                visited := st1.visited
                current := some q0
                queue := some st1.queue
                description := "Moving to next node in queue: " ++ q0 }]
              stepn := st1.stepn + 1 } : BfsState) := by
            refine ⟨inv1.startMem, inv1.queueSub, inv1.nodup, inv1.reach,
              inv1.closed, inv1.keys, ?_⟩
            refine ⟨{
              step := st1.stepn
              visited := st1.visited
              current := some q0
              queue := some st1.queue
              description := "Moving to next node in queue: " ++ q0 }, ?_, rfl⟩
            simp
          have htgtM : ∀ tv, t = some tv → tv ≠ "" →
              (∀ x ∈ st1.steps ++ [({
                step := st1.stepn
                visited := st1.visited
                current := some q0
                queue := some st1.queue
                description := "Moving to next node in queue: " ++ q0 } : AlgorithmStep)],
                x.description ≠ reachedDesc tv) ∧
              (tv ∈ st1.visited → tv ∈ st1.queue) := by
            intro tv htv hne
            refine ⟨?_, (htgt1 tv htv hne).2⟩
            intro x hx
            rcases List.mem_append.mp hx with hx | hx
            · exact (htgt1 tv htv hne).1 x hx
            · rw [List.mem_singleton] at hx
              rw [hx]
              exact moving_ne_reached tv q0
          have hmuM : bfsMeasure adj ({ st1 with
              steps := st1.steps ++ [{
                step := st1.stepn
                visited := st1.visited
                current := some q0
                queue := some st1.queue
                description := "Moving to next node in queue: " ++ q0 }]
              stepn := st1.stepn + 1 } : BfsState) = bfsMeasure adj st1 := rfl
          obtain ⟨st2, heq2, hpost⟩ := ih _ invM (by omega) htgtM
          exact ⟨st2, by rw [hstep2]; exact heq2, hpost⟩

theorem adjEntries_of_mem_nodupKeys :
    ∀ {adj : AdjacencyList} {p : String × List AdjEntry},
      (adj.map Prod.fst).Nodup → p ∈ adj → adjEntries adj p.1 = p.2 := by
  intro adj
  induction adj with
  | nil =>
    intro p _ hp
    simp at hp
  | cons q qs ih =>
    intro p hnd hp
    rcases List.mem_cons.mp hp with rfl | hp
    · unfold adjEntries recordGet?
      rw [List.find?_cons_of_pos _ (by simp)]
      rfl
    · have hq : q.1 ≠ p.1 := by
        intro he
        rw [List.map_cons, List.nodup_cons] at hnd
        exact hnd.1 (he ▸ List.mem_map.mpr ⟨p, hp, rfl⟩)
      have htail : adjEntries qs p.1 = p.2 := by
        refine ih ?_ hp
        rw [List.map_cons, List.nodup_cons] at hnd
        exact hnd.2
      unfold adjEntries recordGet? at htail ⊢
      rw [List.find?_cons_of_neg _ (by simp [hq])]
      exact htail

theorem adjTargets_src {adj : AdjacencyList} {x : String}
    (hnd : (adj.map Prod.fst).Nodup) (hx : x ∈ adjTargets adj) :
    ∃ a en, en ∈ adjEntries adj a ∧ en.nodeId = x := by
  unfold adjTargets at hx
  rw [List.mem_flatten] at hx
  obtain ⟨l, hl, hxl⟩ := hx
  obtain ⟨p, hp, rfl⟩ := List.mem_map.mp hl
  obtain ⟨en, hen, rfl⟩ := List.mem_map.mp hxl
  exact ⟨p.1, en, by rw [adjEntries_of_mem_nodupKeys hnd hp]; exact hen, rfl⟩

theorem build_start_keyed {nodes : List Node} {edges : List Edge} {adj : AdjacencyList}
    (h : createAdjacencyList nodes edges = .ok adj) {s : String}
    (hs : s ∈ nodes.map Node.id) : recordHas adj s = true := by
  rw [recordHas_iff, build_ok_keys h, mem_dedupKeys]
  exact hs

theorem build_keys_nodup {nodes : List Node} {edges : List Edge} {adj : AdjacencyList}
    (h : createAdjacencyList nodes edges = .ok adj) : (adj.map Prod.fst).Nodup := by
  rw [build_ok_keys h]
  exact nodup_dedupKeys _

theorem build_targets_has {nodes : List Node} {edges : List Edge} {adj : AdjacencyList}
    (h : createAdjacencyList nodes edges = .ok adj) :
    ∀ x ∈ adjTargets adj, recordHas adj x = true := by
  intro x hx
  obtain ⟨a, en, hen, rfl⟩ := adjTargets_src (build_keys_nodup h) hx
  rw [recordHas_iff]
  exact build_targets_keyed h a en hen

theorem bfs_initial_inv (adj : AdjacencyList) (s : String) :
    BfsInv adj s {
      visited := [s]
      queue := [s]
      steps := [{
        step := 0
        visited := [s]
        current := some s
        queue := some [s]
        description := "Starting BFS from node " ++ s }]
      stepn := 1 } := by
  refine ⟨by simp, by simp, by simp, ?_, ?_, by simp, ⟨_, rfl, rfl⟩⟩
  · intro v hv
    rw [List.mem_singleton] at hv
    rw [hv]
    exact Reachable.refl adj s
  · intro v hv hvq
    exact absurd hv (by simpa using hvq)

theorem bfs_initial_measure (adj : AdjacencyList) (s : String) :
    bfsMeasure adj ({
      visited := [s]
      queue := [s]
      steps := [{
        step := 0
        visited := [s]
        current := some s
        queue := some [s]
        description := "Starting BFS from node " ++ s }]
      stepn := 1 } : BfsState) ≤ 2 * (adjTargets adj).length + 1 := by
  unfold bfsMeasure
  have h1 : ((adjTargets adj).toFinset \ ([s] : List String).toFinset).card ≤
      (adjTargets adj).toFinset.card :=
    Finset.card_le_card (Finset.sdiff_subset)
  have h2 : (adjTargets adj).toFinset.card ≤ (adjTargets adj).length :=
    List.toFinset_card_le _
  simp only [List.length_singleton]
  omega

/-- Claim C7: the BFS runner checks target equality on dequeue, before
expanding neighbors.  With a start node from the node list and a non-empty
requested target: no non-final step is a target-reached step; the final step
is a target-reached step (with the dequeued target as its current node)
exactly when the target is reachable from the start; and in that case the
target was already in the visited snapshot of the previous step, having been
discovered strictly before being reported. -/
theorem C7_bfs_target_reported_on_dequeue (nodes : List Node) (edges : List Edge)
    (s tv : String) (adj : AdjacencyList)
    (hadj : createAdjacencyList nodes edges = .ok adj)
    (hs : s ∈ nodes.map Node.id) (hne : tv ≠ "") :
    ∃ r, executeBFS nodes edges s (some tv) = .ok r ∧
      (∀ x ∈ r.steps.dropLast, x.description ≠ reachedDesc tv) ∧
      (Reachable adj s tv ↔ ∃ last2, r.steps.getLast? = some last2 ∧
        last2.description = reachedDesc tv ∧ last2.current = some tv) ∧
      (Reachable adj s tv → ∃ plast, r.steps.dropLast.getLast? = some plast ∧
        tv ∈ plast.visited) := by
  obtain ⟨st2, hloop, hpost⟩ := bfsLoop_master adj s (some tv)
    (build_start_keyed hadj hs) (build_targets_has hadj)
    (2 * (adjTargets adj).length + 1) _ (bfs_initial_inv adj s)
    (bfs_initial_measure adj s)
    (by
      intro tv2 htv2 hne2
      refine ⟨?_, ?_⟩
      · intro x hx
        rw [List.mem_singleton] at hx
        rw [hx]
        exact startingBFS_ne_reached tv2 s
      · exact id)
  have hexec : executeBFS nodes edges s (some tv) = .ok {
      algorithm := "bfs", startNode := s, targetNode := some tv, steps := st2.steps,
      executionTime := 0, timeComplexity := "O(V + E)", spaceComplexity := "O(V)" } := by
    unfold executeBFS
    rw [hadj]
    simp only [bind, Except.bind]
    rw [hloop]
  refine ⟨_, hexec, ?_, ?_, ?_⟩
  · intro x hx
    rcases hpost with ⟨_, _, _, hnor⟩ | ⟨tv2, pre, last2, htv2, _, hsteps, hpre, _⟩
    · exact (hnor tv rfl hne).1 x (List.dropLast_subset _ hx)
    · rw [Option.some.injEq] at htv2
      subst htv2
      dsimp only at hx
      rw [hsteps, List.dropLast_concat] at hx
      exact hpre x hx
  · constructor
    · intro hreach
      rcases hpost with ⟨_, inv2, hclosed, hnor⟩ | hbreak
      · exfalso
        exact (hnor tv rfl hne).2 (visited_complete inv2.startMem hclosed tv hreach)
      · obtain ⟨tv2, pre, last2, htv2, _, hsteps, _, hdesc, hcur, _, _, _⟩ := hbreak
        rw [Option.some.injEq] at htv2
        subst htv2
        refine ⟨last2, ?_, hdesc, hcur⟩
        dsimp only
        rw [hsteps]
        exact List.getLast?_concat _
    · rintro ⟨last2, hl2, hdesc, _⟩
      rcases hpost with ⟨_, _, _, hnor⟩ | hbreak
      · exfalso
        have hmem : last2 ∈ st2.steps := by
          dsimp only at hl2
          exact List.mem_of_getLast?_eq_some hl2
        exact (hnor tv rfl hne).1 last2 hmem hdesc
      · obtain ⟨tv2, pre, l2, htv2, _, _, _, _, _, _, htvv, hreach⟩ := hbreak
        rw [Option.some.injEq] at htv2
        subst htv2
        exact hreach tv htvv
  · intro hreach
    rcases hpost with ⟨_, inv2, hclosed, hnor⟩ | hbreak
    · exfalso
      exact (hnor tv rfl hne).2 (visited_complete inv2.startMem hclosed tv hreach)
    · obtain ⟨tv2, pre, last2, htv2, _, hsteps, _, _, _, ⟨plast, hpl, hplv⟩, _, _⟩ := hbreak
      rw [Option.some.injEq] at htv2
      subst htv2
      refine ⟨plast, ?_, hplv⟩
      dsimp only
      rw [hsteps, List.dropLast_concat]
      exact hpl

/-- Witness for C7 on the concrete two-node graph `A - B`. -/
theorem C7_bfs_target_reported_on_dequeue_witness :
    ∃ r, executeBFS [{ id := "A", label := "A" }, { id := "B", label := "B" }]
        [{ id := "e1", source := "A", target := "B" }] "A" (some "B") = .ok r ∧
      (∀ x ∈ r.steps.dropLast, x.description ≠ reachedDesc "B") ∧
      (Reachable [("A", [⟨"B", 1⟩]), ("B", [⟨"A", 1⟩])] "A" "B" ↔
        ∃ last2, r.steps.getLast? = some last2 ∧
          last2.description = reachedDesc "B" ∧ last2.current = some "B") ∧
      (Reachable [("A", [⟨"B", 1⟩]), ("B", [⟨"A", 1⟩])] "A" "B" →
        ∃ plast, r.steps.dropLast.getLast? = some plast ∧ "B" ∈ plast.visited) :=
  C7_bfs_target_reported_on_dequeue
    [{ id := "A", label := "A" }, { id := "B", label := "B" }]
    [{ id := "e1", source := "A", target := "B" }] "A" "B"
    [("A", [⟨"B", 1⟩]), ("B", [⟨"A", 1⟩])] rfl (by decide) (by decide)

/-- Witness for C10 on a concrete one-node graph, for all four runners. -/
theorem C10_step_indices_consecutive_witness :
    (∃ r, executeBFS [{ id := "A", label := "A" }] [] "A" (some "A") = .ok r ∧
      WellNumbered r.steps) ∧
    (∃ r, executeDFS [{ id := "A", label := "A" }] [] "A" (some "A") = .ok r ∧
      WellNumbered r.steps) ∧
    (∃ r, executeDijkstra [{ id := "A", label := "A" }] [] "A" (some "A") = .ok r ∧
      WellNumbered r.steps) ∧
    (∃ r, executeAStar [{ id := "A", label := "A" }] [] "A" (some "A") = .ok r ∧
      WellNumbered r.steps) :=
  ⟨⟨_, rfl, (C10_step_indices_consecutive [{ id := "A", label := "A" }] [] "A"
      (some "A")).1 _ rfl⟩,
   ⟨_, rfl, (C10_step_indices_consecutive [{ id := "A", label := "A" }] [] "A"
      (some "A")).2.1 _ rfl⟩,
   ⟨_, rfl, (C10_step_indices_consecutive [{ id := "A", label := "A" }] [] "A"
      (some "A")).2.2.1 _ rfl⟩,
   ⟨_, rfl, (C10_step_indices_consecutive [{ id := "A", label := "A" }] [] "A"
      (some "A")).2.2.2 _ rfl⟩⟩

theorem length_le_flatten {α : Type} {l : List α} {L : List (List α)} (h : l ∈ L) :
    l.length ≤ L.flatten.length := by
  induction L with
  | nil => simp at h
  | cons a L ih =>
    rw [List.flatten_cons, List.length_append]
    rcases List.mem_cons.mp h with rfl | h
    · exact Nat.le_add_right _ _
    · exact le_trans (ih h) (Nat.le_add_left _ _)

theorem adjEntries_length_le {adj : AdjacencyList} {c : String} {nbrs : List AdjEntry}
    (hg : recordGet? adj c = some nbrs) : nbrs.length ≤ (adjTargets adj).length := by
  unfold recordGet? at hg
  cases hf : adj.find? (fun p => p.1 == c) with
  | none =>
    rw [hf] at hg
    simp at hg
  | some p =>
    rw [hf] at hg
    simp at hg
    have hmem : p ∈ adj := List.mem_of_find?_eq_some hf
    have hmem2 : p.2.map AdjEntry.nodeId ∈ adj.map (fun q => q.2.map AdjEntry.nodeId) :=
      List.mem_map.mpr ⟨p, hmem, rfl⟩
    have h3 : (p.2.map AdjEntry.nodeId).length ≤ (adjTargets adj).length := by
      unfold adjTargets
      exact length_le_flatten hmem2
    rw [List.length_map] at h3
    rw [← hg]
    exact h3

/-- Cumulative effect of the neighbor-push fold of one DFS iteration: visited
is untouched, the stack gains a block of previously unvisited neighbor ids on
top, every folded entry ends up visited or pushed, and the trace keeps a final
step snapshotting th unchanged visited set. -/
theorem dfsPush_fold_facts (c : String) :
    ∀ (l : List AdjEntry) (st : DfsState),
      ∃ pushed,
        (l.foldl (dfsPush c) st).visited = st.visited ∧
        (l.foldl (dfsPush c) st).stack = pushed ++ st.stack ∧
        pushed.length ≤ l.length ∧
        (∀ x ∈ pushed, (∃ e ∈ l, e.nodeId = x) ∧ x ∉ st.visited) ∧
        (∀ e ∈ l, e.nodeId ∈ st.visited ∨ e.nodeId ∈ pushed) ∧
        (∀ last0 : AlgorithmStep, st.steps.getLast? = some last0 →
          last0.visited = st.visited →
          ∃ last2, (l.foldl (dfsPush c) st).steps.getLast? = some last2 ∧
            last2.visited = st.visited) := by
  intro l
  induction l with
  | nil =>
    intro st
    exact ⟨[], rfl, rfl, by simp, by simp, by simp,
      fun last0 h1 h2 => ⟨last0, h1, h2⟩⟩
  | cons e es ih =>
    intro st
    rw [List.foldl_cons]
    by_cases hv : st.visited.contains e.nodeId
    · rw [show dfsPush c st e = st from by unfold dfsPush; rw [if_pos hv]]
      obtain ⟨pushed, h1, h2, h3, h4, h5, h6⟩ := ih st
      refine ⟨pushed, h1, h2, by simp only [List.length_cons]; omega, ?_, ?_, h6⟩
      · intro x hx
        obtain ⟨⟨e2, he2, hee⟩, hnv⟩ := h4 x hx
        exact ⟨⟨e2, List.mem_cons_of_mem _ he2, hee⟩, hnv⟩
      · intro e2 he2
        rcases List.mem_cons.mp he2 with rfl | he2
        · exact Or.inl (by simpa using hv)
        · exact h5 e2 he2
    · have hst' : dfsPush c st e = {
          visited := st.visited
          stack := e.nodeId :: st.stack
          steps := st.steps ++ [{
            step := st.stepn
            visited := st.visited
            current := some c
            stack := some (e.nodeId :: st.stack).reverse
            description := "Adding neighbor " ++ e.nodeId ++ " to stack" }]
          stepn := st.stepn + 1 } := by
        unfold dfsPush
        rw [if_neg hv]
      rw [hst']
      obtain ⟨pushed, h1, h2, h3, h4, h5, h6⟩ := ih _
      refine ⟨pushed ++ [e.nodeId], h1, ?_, ?_, ?_, ?_, ?_⟩
      · rw [h2]
        simp
      · simp only [List.length_append, List.length_singleton, List.length_cons,
          List.length_nil]
        omega
      · intro x hx
        rcases List.mem_append.mp hx with hx | hx
        · obtain ⟨⟨e2, he2, hee⟩, hnv⟩ := h4 x hx
          exact ⟨⟨e2, List.mem_cons_of_mem _ he2, hee⟩, hnv⟩
        · rw [List.mem_singleton] at hx
          subst hx
          exact ⟨⟨e, List.mem_cons_self e es, rfl⟩, by simpa using hv⟩
      · intro e2 he2
        rcases List.mem_cons.mp he2 with rfl | he2
        · exact Or.inr (List.mem_append_right _ (by simp))
        · rcases h5 e2 he2 with h | h
          · exact Or.inl h
          · exact Or.inr (List.mem_append_left _ h)
      · intro _last0 _hg1 _hg2
        exact h6 _ (List.getLast?_concat _) rfl

/-- The master lemma for the targetless DFS loop: with enough fuel the loop
runs the stack to exhaustion, the invariant holds at the end, and the final
visited set is closed under adjacency. -/
theorem dfsLoop_master (adj : AdjacencyList) (s : String)
    (hs : recordHas adj s = true)
    (htk : ∀ x ∈ adjTargets adj, recordHas adj x = true) :
    ∀ (fuel : Nat) (st : DfsState), DfsInv adj s st →
      dfsMeasure adj s st ≤ fuel →
      ∃ st2, dfsLoop adj none fuel st = .ok st2 ∧ st2.stack = [] ∧
        DfsInv adj s st2 ∧
        ∀ v ∈ st2.visited, ∀ e ∈ adjEntries adj v, e.nodeId ∈ st2.visited := by
  have key : ∀ S pl rl cA cB f : Nat, cB + 1 = cA → pl ≤ S →
      rl + 1 + (S + 1) * cA ≤ f + 1 → pl + rl + (S + 1) * cB ≤ f := by
    intro S pl rl cA cB f hc hp h
    have hm : (S + 1) * cA = (S + 1) * cB + (S + 1) := by
      rw [← hc]
      ring
    rw [hm] at h
    set P := (S + 1) * cB with hP
    clear_value P
    clear hm hP
    omega
  intro fuel
  induction fuel with
  | zero =>
    intro st inv hmu
    have hq : st.stack = [] := by
      unfold dfsMeasure at hmu
      set P := ((adjTargets adj).length + 1) *
        ((insert s (adjTargets adj).toFinset \ st.visited.toFinset).card) with hP
      clear_value P
      have h0 : st.stack.length = 0 := by omega
      exact List.length_eq_zero.mp h0
    refine ⟨st, by unfold dfsLoop; rfl, hq, inv, ?_⟩
    intro v hv e he
    rcases inv.closed v hv e he with h | h
    · exact h
    · rw [hq] at h
      simp at h
  | succ fuel ih =>
    intro st inv hmu
    cases hq : st.stack with
    | nil =>
      refine ⟨st, by unfold dfsLoop; rw [hq], hq, inv, ?_⟩
      intro v hv e he
      rcases inv.closed v hv e he with h | h
      · exact h
      · rw [hq] at h
        simp at h
    | cons c rest =>
      by_cases hv : st.visited.contains c = true
      · have hstep : dfsLoop adj none (fuel + 1) st =
            dfsLoop adj none fuel { st with stack := rest } := by
          conv_lhs => rw [dfsLoop]
          rw [hq]
          dsimp only
          rw [if_pos hv]
        have inv1 : DfsInv adj s { st with stack := rest } := by
          refine ⟨?_, inv.visSub, inv.nodup, inv.reach, ?_, ?_, ?_, inv.lastVis⟩
          · intro x hx
            exact inv.stackSub x (by rw [hq]; exact List.mem_cons_of_mem _ hx)
          · intro x hx
            exact inv.stackReach x (by rw [hq]; exact List.mem_cons_of_mem _ hx)
          · intro v hvv e he
            rcases inv.closed v hvv e he with h | h
            · exact Or.inl h
            · rw [hq] at h
              rcases List.mem_cons.mp h with rfl | h
              · exact Or.inl (by simpa using hv)
              · exact Or.inr h
          · rcases inv.startIn with h | h
            · exact Or.inl h
            · rw [hq] at h
              rcases List.mem_cons.mp h with hsc | h
              · exact Or.inl (by rw [hsc]; simpa using hv)
              · exact Or.inr h
        have hmu1 : dfsMeasure adj s { st with stack := rest } ≤ fuel := by
          show rest.length + ((adjTargets adj).length + 1) *
            ((insert s (adjTargets adj).toFinset \ st.visited.toFinset).card) ≤ fuel
          unfold dfsMeasure at hmu
          rw [hq] at hmu
          rw [List.length_cons] at hmu
          set P := ((adjTargets adj).length + 1) *
            ((insert s (adjTargets adj).toFinset \ st.visited.toFinset).card) with hP
          clear_value P
          omega
        obtain ⟨st2, heq2, hpost⟩ := ih _ inv1 hmu1
        exact ⟨st2, by rw [hstep]; exact heq2, hpost⟩
      · have hvm : c ∉ st.visited := fun hmem => hv (by simpa using hmem)
        have hcs : c = s ∨ c ∈ adjTargets adj :=
          inv.stackSub c (by rw [hq]; exact List.mem_cons_self c rest)
        have hck : recordHas adj c = true := by
          rcases hcs with rfl | hct
          · exact hs
          · exact htk c hct
        obtain ⟨nbrs, hg⟩ := recordGet?_of_keyed hck
        have hce : adjEntries adj c = nbrs := adjEntries_of_get hg
        have hreachc : Reachable adj s c :=
          inv.stackReach c (by rw [hq]; exact List.mem_cons_self c rest)
        have htm : ¬(targetMatches none c = true) := fun h => Bool.false_ne_true h
        have hstep : dfsLoop adj none (fuel + 1) st = dfsLoop adj none fuel
            (nbrs.reverse.foldl (dfsPush c) {
              visited := st.visited ++ [c]
              stack := rest
              steps := st.steps ++ [{
                step := st.stepn
                visited := st.visited ++ [c]
                current := some c
                stack := some rest.reverse
                description := "Visiting node " ++ c }]
              stepn := st.stepn + 1 }) := by
          conv_lhs => rw [dfsLoop]
          rw [hq]
          dsimp only
          rw [if_neg hv, if_neg htm, hg]
        obtain ⟨pushed, h1, h2, h3, h4, h5, h6⟩ := dfsPush_fold_facts c nbrs.reverse
          ({ visited := st.visited ++ [c]
             stack := rest
             steps := st.steps ++ [{
               step := st.stepn
               visited := st.visited ++ [c]
               current := some c
               stack := some rest.reverse
               description := "Visiting node " ++ c }]
             stepn := st.stepn + 1 } : DfsState)
        set stB := nbrs.reverse.foldl (dfsPush c)
          ({ visited := st.visited ++ [c]
             stack := rest
             steps := st.steps ++ [{
               step := st.stepn
               visited := st.visited ++ [c]
               current := some c
               stack := some rest.reverse
               description := "Visiting node " ++ c }]
             stepn := st.stepn + 1 } : DfsState) with hstB
        have hvis : stB.visited = st.visited ++ [c] := h1
        have hstk : stB.stack = pushed ++ rest := h2
        have invB : DfsInv adj s stB := by
          refine ⟨?_, ?_, ?_, ?_, ?_, ?_, ?_, ?_⟩
          · intro x hx
            rw [hstk] at hx
            rcases List.mem_append.mp hx with hx | hx
            · obtain ⟨⟨e, he, hee⟩, _⟩ := h4 x hx
              refine Or.inr ?_
              rw [← hee]
              exact mem_adjTargets (hce ▸ List.mem_reverse.mp he)
            · exact inv.stackSub x (by rw [hq]; exact List.mem_cons_of_mem _ hx)
          · intro x hx
            rw [hvis] at hx
            rcases List.mem_append.mp hx with hx | hx
            · exact inv.visSub x hx
            · rw [List.mem_singleton] at hx
              subst hx
              exact hcs
          · rw [hvis, List.nodup_append]
            refine ⟨inv.nodup, List.nodup_singleton c, ?_⟩
            intro x hx hx2
            rw [List.mem_singleton] at hx2
            subst hx2
            exact hvm hx
          · intro v hvv
            rw [hvis] at hvv
            rcases List.mem_append.mp hvv with hvv | hvv
            · exact inv.reach v hvv
            · rw [List.mem_singleton] at hvv
              subst hvv
              exact hreachc
          · intro v hvv
            rw [hstk] at hvv
            rcases List.mem_append.mp hvv with hvv | hvv
            · obtain ⟨⟨e, he, hee⟩, _⟩ := h4 v hvv
              rw [← hee]
              exact reachable_snoc hreachc (show AdjEntry.mk e.nodeId e.weight ∈ adjEntries adj c
                from hce ▸ List.mem_reverse.mp he)
            · exact inv.stackReach v (by rw [hq]; exact List.mem_cons_of_mem _ hvv)
          · intro v hvv e he
            rw [hvis] at hvv
            rw [hvis, hstk]
            rcases List.mem_append.mp hvv with hvv | hvv
            · rcases inv.closed v hvv e he with h | h
              · exact Or.inl (List.mem_append_left _ h)
              · rw [hq] at h
                rcases List.mem_cons.mp h with rfl | h
                · exact Or.inl (List.mem_append_right _ (List.mem_singleton.mpr rfl))
                · exact Or.inr (List.mem_append_right _ h)
            · rw [List.mem_singleton] at hvv
              subst hvv
              rcases h5 e (List.mem_reverse.mpr (hce ▸ he)) with h | h
              · exact Or.inl h
              · exact Or.inr (List.mem_append_left _ h)
          · rcases inv.startIn with h | h
            · refine Or.inl ?_
              rw [hvis]
              exact List.mem_append_left _ h
            · rw [hq] at h
              rcases List.mem_cons.mp h with hsc | h
              · refine Or.inl ?_
                rw [hvis, hsc]
                exact List.mem_append_right _ (List.mem_singleton.mpr rfl)
              · refine Or.inr ?_
                rw [hstk]
                exact List.mem_append_right _ h
          · obtain ⟨last2, hl2, hl2v⟩ := h6 {
                step := st.stepn
                visited := st.visited ++ [c]
                current := some c
                stack := some rest.reverse
                description := "Visiting node " ++ c } (List.getLast?_concat _) rfl
            refine ⟨last2, hl2, ?_⟩
            rw [hvis]
            exact hl2v
        have hmuB : dfsMeasure adj s stB ≤ fuel := by
          have hcnv := cnv_append (insert s (adjTargets adj).toFinset) st.visited [c]
            (List.nodup_singleton c)
            (fun x hx => by
              rw [List.mem_singleton] at hx
              subst hx
              refine ⟨?_, hvm⟩
              rcases hcs with rfl | hct
              · exact Finset.mem_insert_self _ _
              · exact Finset.mem_insert_of_mem (List.mem_toFinset.mpr hct))
          have hcB : (insert s (adjTargets adj).toFinset \
              (st.visited ++ [c]).toFinset).card + 1 =
              (insert s (adjTargets adj).toFinset \ st.visited.toFinset).card := by
            simpa using hcnv
          have hplen : pushed.length ≤ (adjTargets adj).length := by
            have h0 : nbrs.length ≤ (adjTargets adj).length := adjEntries_length_le hg
            have h3b := h3
            rw [List.length_reverse] at h3b
            omega
          unfold dfsMeasure
          rw [hstk, hvis, List.length_append]
          unfold dfsMeasure at hmu
          rw [hq, List.length_cons] at hmu
          exact key ((adjTargets adj).length) pushed.length rest.length _ _ fuel
            hcB hplen hmu
        obtain ⟨st2, heq2, hpost⟩ := ih _ invB hmuB
        exact ⟨st2, by rw [hstep]; exact heq2, hpost⟩

/-- The DFS invariant holds in the initial state pushed by `executeDFS`. -/
theorem dfs_initial_inv (adj : AdjacencyList) (s : String) :
    DfsInv adj s {
      visited := []
      stack := [s]
      steps := [{
        step := 0
        visited := []
        current := some s
        stack := some [s]
        description := "Starting DFS from node " ++ s }]
      stepn := 1 } := by
  refine ⟨?_, ?_, List.nodup_nil, ?_, ?_, ?_, ?_, ⟨_, rfl, rfl⟩⟩
  · intro x hx
    exact Or.inl (List.mem_singleton.mp hx)
  · intro x hx
    exact absurd hx (List.not_mem_nil x)
  · intro v hv
    exact absurd hv (List.not_mem_nil v)
  · intro v hv
    have hv2 := List.mem_singleton.mp hv
    rw [hv2]
    exact Reachable.refl adj s
  · intro v hv
    exact absurd hv (List.not_mem_nil v)
  · exact Or.inr (List.mem_singleton.mpr rfl)

/-- The initial DFS measure fits in the fuel supplied by `executeDFS`. -/
theorem dfs_initial_measure (adj : AdjacencyList) (s : String) :
    dfsMeasure adj s {
      visited := []
      stack := [s]
      steps := [{
        step := 0
        visited := []
        current := some s
        stack := some [s]
        description := "Starting DFS from node " ++ s }]
      stepn := 1 } ≤ ((adjTargets adj).length + 1) * ((adjTargets adj).length + 1) + 1 := by
  show 1 + ((adjTargets adj).length + 1) *
      ((insert s (adjTargets adj).toFinset \ ([] : List String).toFinset).card) ≤
      ((adjTargets adj).length + 1) * ((adjTargets adj).length + 1) + 1
  have h1 : (insert s (adjTargets adj).toFinset \ ([] : List String).toFinset).card ≤
      (adjTargets adj).length + 1 := by
    rw [List.toFinset_nil, Finset.sdiff_empty]
    calc (insert s (adjTargets adj).toFinset).card
        ≤ (adjTargets adj).toFinset.card + 1 := Finset.card_insert_le _ _
      _ ≤ (adjTargets adj).length + 1 := by
          have h2 := (adjTargets adj).toFinset_card_le
          omega
  have h2 : ((adjTargets adj).length + 1) *
      ((insert s (adjTargets adj).toFinset \ ([] : List String).toFinset).card) ≤
      ((adjTargets adj).length + 1) * ((adjTargets adj).length + 1) :=
    Nat.mul_le_mul_left _ h1
  exact le_trans (Nat.add_le_add_left h2 1) (Nat.le_of_eq (Nat.add_comm 1 _))

/-- Shared targetless-run lemma: with no target requested, both the BFS and
the DFS runner succeed, and the visited set recorded in the final step of each
trace has exactly as many entries as the connected component of the start node
in the adjacency projection. -/
theorem bfs_dfs_exhaustion (nodes : List Node) (edges : List Edge)
    (s : String) (adj : AdjacencyList)
    (hadj : createAdjacencyList nodes edges = .ok adj)
    (hs : s ∈ nodes.map Node.id) :
    (∃ r, executeBFS nodes edges s none = .ok r ∧
      ∃ last, r.steps.getLast? = some last ∧
        last.visited.length = Set.ncard {v | Reachable adj s v}) ∧
    (∃ r, executeDFS nodes edges s none = .ok r ∧
      ∃ last, r.steps.getLast? = some last ∧
        last.visited.length = Set.ncard {v | Reachable adj s v}) := by
  constructor
  · obtain ⟨st2, hloop, hpost⟩ := bfsLoop_master adj s none
      (build_start_keyed hadj hs) (build_targets_has hadj)
      (2 * (adjTargets adj).length + 1) _ (bfs_initial_inv adj s)
      (bfs_initial_measure adj s)
      (fun tv htv => by cases htv)
    rcases hpost with ⟨_, inv2, hclosed, _⟩ | ⟨tv, _, _, htv, _⟩
    · have hexec : executeBFS nodes edges s none = .ok {
          algorithm := "bfs", startNode := s, targetNode := none, steps := st2.steps,
          executionTime := 0, timeComplexity := "O(V + E)",
          spaceComplexity := "O(V)" } := by
        unfold executeBFS
        rw [hadj]
        simp only [bind, Except.bind]
        rw [hloop]
      obtain ⟨last, hlast, hlastv⟩ := inv2.lastVis
      refine ⟨_, hexec, last, hlast, ?_⟩
      have hset : {v | Reachable adj s v} = ↑st2.visited.toFinset := by
        ext v
        rw [Set.mem_setOf_eq, Finset.mem_coe, List.mem_toFinset]
        exact ⟨fun hr => visited_complete inv2.startMem hclosed v hr,
          fun hm => inv2.reach v hm⟩
      rw [hlastv, hset, Set.ncard_coe_Finset, List.toFinset_card_of_nodup inv2.nodup]
    · cases htv
  · obtain ⟨st2, hloop, hstk2, inv2, hclosed⟩ := dfsLoop_master adj s
      (build_start_keyed hadj hs) (build_targets_has hadj)
      (((adjTargets adj).length + 1) * ((adjTargets adj).length + 1) + 1) _
      (dfs_initial_inv adj s) (dfs_initial_measure adj s)
    have hexec : executeDFS nodes edges s none = .ok {
        algorithm := "dfs", startNode := s, targetNode := none, steps := st2.steps,
        executionTime := 0, timeComplexity := "O(V + E)",
        spaceComplexity := "O(V)" } := by
      unfold executeDFS
      rw [hadj]
      simp only [bind, Except.bind]
      rw [hloop]
    obtain ⟨last, hlast, hlastv⟩ := inv2.lastVis
    refine ⟨_, hexec, last, hlast, ?_⟩
    have hstart : s ∈ st2.visited := by
      rcases inv2.startIn with h | h
      · exact h
      · rw [hstk2] at h
        exact absurd h (List.not_mem_nil s)
    have hset : {v | Reachable adj s v} = ↑st2.visited.toFinset := by
      ext v
      rw [Set.mem_setOf_eq, Finset.mem_coe, List.mem_toFinset]
      exact ⟨fun hr => visited_complete hstart hclosed v hr,
        fun hm => inv2.reach v hm⟩
    rw [hlastv, hset, Set.ncard_coe_Finset, List.toFinset_card_of_nodup inv2.nodup]

/-- Claim C8: with no target requested, both the BFS and the DFS runner
succeed, and the visited set recorded in the final step of each trace has
exactly as many entries as the connected component of the start node in the
adjacency projection. -/
theorem C8_visited_set_size_is_component (nodes : List Node) (edges : List Edge)
    (s : String) (adj : AdjacencyList)
    (hadj : createAdjacencyList nodes edges = .ok adj)
    (hs : s ∈ nodes.map Node.id) :
    (∃ r, executeBFS nodes edges s none = .ok r ∧
      ∃ last, r.steps.getLast? = some last ∧
        last.visited.length = Set.ncard {v | Reachable adj s v}) ∧
    (∃ r, executeDFS nodes edges s none = .ok r ∧
      ∃ last, r.steps.getLast? = some last ∧
        last.visited.length = Set.ncard {v | Reachable adj s v}) :=
  bfs_dfs_exhaustion nodes edges s adj hadj hs

/-- Witness for C8 on the concrete one-node graph. -/
theorem C8_visited_set_size_is_component_witness :
    (∃ r, executeBFS [{ id := "A", label := "A" }] [] "A" none = .ok r ∧
      ∃ last, r.steps.getLast? = some last ∧
        last.visited.length = Set.ncard {v | Reachable [("A", [])] "A" v}) ∧
    (∃ r, executeDFS [{ id := "A", label := "A" }] [] "A" none = .ok r ∧
      ∃ last, r.steps.getLast? = some last ∧
        last.visited.length = Set.ncard {v | Reachable [("A", [])] "A" v}) :=
  C8_visited_set_size_is_component [{ id := "A", label := "A" }] [] "A"
    [("A", [])] rfl (by decide)

/-- Claim C5: invoking the A* runner with no target fails with MissingTarget
and records no step, while the BFS, DFS and Dijkstra runners tolerate the
missing target and run to completion. -/
theorem C5_astar_requires_target (nodes : List Node) (edges : List Edge)
    (s : String) :
    executeAStar nodes edges s none = .error .missingTarget ∧
    (∀ adj, createAdjacencyList nodes edges = .ok adj → s ∈ nodes.map Node.id →
      (∃ r, executeBFS nodes edges s none = .ok r) ∧
      (∃ r, executeDFS nodes edges s none = .ok r) ∧
      (∃ r, executeDijkstra nodes edges s none = .ok r)) := by
  refine ⟨rfl, ?_⟩
  intro adj hadj hs
  refine ⟨?_, ?_, ?_⟩
  · obtain ⟨⟨r, hr, _⟩, _⟩ := bfs_dfs_exhaustion nodes edges s adj hadj hs
    exact ⟨r, hr⟩
  · obtain ⟨_, ⟨r, hr, _⟩⟩ := bfs_dfs_exhaustion nodes edges s adj hadj hs
    exact ⟨r, hr⟩
  · unfold executeDijkstra dijkstraRun
    rw [hadj]
    exact ⟨_, rfl⟩

/-- Witness for C5 on the concrete one-node graph. -/
theorem C5_astar_requires_target_witness :
    executeAStar [{ id := "A", label := "A" }] [] "A" none = .error .missingTarget ∧
    ((∃ r, executeBFS [{ id := "A", label := "A" }] [] "A" none = .ok r) ∧
     (∃ r, executeDFS [{ id := "A", label := "A" }] [] "A" none = .ok r) ∧
     (∃ r, executeDijkstra [{ id := "A", label := "A" }] [] "A" none = .ok r)) :=
  ⟨(C5_astar_requires_target [{ id := "A", label := "A" }] [] "A").1,
   (C5_astar_requires_target [{ id := "A", label := "A" }] [] "A").2
     [("A", [])] rfl (by decide)⟩

/-- Cumulative effect of the relaxation fold of one Dijkstra iteration over
the current node `c` (already erased from the unvisited set): unvisited is
untouched; distances and predecessors of nodes outside the unvisited set are
untouched; distances never increase; every change records a relaxation
through `c`; after the fold every processed entry into the unvisited set is
relaxed; and all appended steps carry no path. -/
theorem dijkstraRelax_fold_facts (nodeIds dkeys : List String) (c : String) :
    ∀ (l : List AdjEntry) (st : DijkstraState),
      st.unvisited.contains c = false →
      (l.foldl (dijkstraRelax nodeIds dkeys c) st).unvisited = st.unvisited ∧
      (∀ v, v ∉ st.unvisited →
        (l.foldl (dijkstraRelax nodeIds dkeys c) st).dist v = st.dist v ∧
        (l.foldl (dijkstraRelax nodeIds dkeys c) st).prev v = st.prev v) ∧
      (∀ v, eLe ((l.foldl (dijkstraRelax nodeIds dkeys c) st).dist v) (st.dist v)) ∧
      (∀ v, ((l.foldl (dijkstraRelax nodeIds dkeys c) st).dist v = st.dist v ∧
          (l.foldl (dijkstraRelax nodeIds dkeys c) st).prev v = st.prev v) ∨
        (v ∈ st.unvisited ∧
          (l.foldl (dijkstraRelax nodeIds dkeys c) st).prev v = some (some c) ∧
          ∃ e ∈ l, e.nodeId = v ∧
            (l.foldl (dijkstraRelax nodeIds dkeys c) st).dist v =
              eAdd (st.dist c) e.weight)) ∧
      (∀ e ∈ l, e.nodeId ∈ st.unvisited →
        eLe ((l.foldl (dijkstraRelax nodeIds dkeys c) st).dist e.nodeId)
          (eAdd (st.dist c) e.weight)) ∧
      (∃ ds, (l.foldl (dijkstraRelax nodeIds dkeys c) st).steps = st.steps ++ ds ∧
        ∀ x ∈ ds, x.path = none) := by
  intro l
  induction l with
  | nil =>
    intro st hc
    exact ⟨rfl, fun v _ => ⟨rfl, rfl⟩, fun v => eLe_refl _, fun v => Or.inl ⟨rfl, rfl⟩,
      by simp, [], by simp, by simp⟩
  | cons e es ih =>
    intro st hc
    rw [List.foldl_cons]
    by_cases hun : st.unvisited.contains e.nodeId = true
    · have hcne : c ≠ e.nodeId := by
        intro h
        rw [← h] at hun
        rw [hun] at hc
        cases hc
      by_cases hlt : eLt (eAdd (st.dist c) e.weight) (st.dist e.nodeId) = true
      · have hst' : dijkstraRelax nodeIds dkeys c st e = {
            dist := updF st.dist e.nodeId (eAdd (st.dist c) e.weight)
            prev := updF st.prev e.nodeId (some (some c))
            unvisited := st.unvisited
            steps := st.steps ++ [{
              step := st.stepn
              visited := visitedSnapshot nodeIds st.unvisited
              current := some c
              distances := some (distSnapshot dkeys
                (updF st.dist e.nodeId (eAdd (st.dist c) e.weight)))
              description := "Updated distance to node " ++ e.nodeId ++ " to " ++
                edistStr (eAdd (st.dist c) e.weight) }]
            stepn := st.stepn + 1 } := by
          unfold dijkstraRelax
          rw [if_pos hun]
          dsimp only
          rw [if_pos hlt]
        rw [hst']
        obtain ⟨g1, g2, g3, g4, g5, ds, hds1, hds2⟩ := ih ({
            dist := updF st.dist e.nodeId (eAdd (st.dist c) e.weight)
            prev := updF st.prev e.nodeId (some (some c))
            unvisited := st.unvisited
            steps := st.steps ++ [{
              step := st.stepn
              visited := visitedSnapshot nodeIds st.unvisited
              current := some c
              distances := some (distSnapshot dkeys
                (updF st.dist e.nodeId (eAdd (st.dist c) e.weight)))
              description := "Updated distance to node " ++ e.nodeId ++ " to " ++
                edistStr (eAdd (st.dist c) e.weight) }]
            stepn := st.stepn + 1 } : DijkstraState) hc
        refine ⟨by rw [g1], ?_, ?_, ?_, ?_, ?_⟩
        · intro v hv
          have hvne : v ≠ e.nodeId := fun h => hv (by rw [h]; simpa using hun)
          obtain ⟨hd, hp⟩ := g2 v hv
          constructor
          · rw [hd]
            show updF st.dist e.nodeId (eAdd (st.dist c) e.weight) v = st.dist v
            unfold updF
            rw [if_neg hvne]
          · rw [hp]
            show updF st.prev e.nodeId (some (some c)) v = st.prev v
            unfold updF
            rw [if_neg hvne]
        · intro v
          refine eLe_trans (g3 v) ?_
          show eLe (updF st.dist e.nodeId (eAdd (st.dist c) e.weight) v) (st.dist v)
          unfold updF
          by_cases hve : v = e.nodeId
          · rw [if_pos hve, hve]
            exact eLe_of_eLt hlt
          · rw [if_neg hve]
            exact eLe_refl _
        · intro v
          rcases g4 v with ⟨hd, hp⟩ | ⟨hvm, hp, e2, he2, hev, hdv⟩
          · by_cases hve : v = e.nodeId
            · refine Or.inr ⟨by rw [hve]; simpa using hun, ?_,
                e, List.mem_cons_self e es, hve.symm, ?_⟩
              · rw [hp]
                show updF st.prev e.nodeId (some (some c)) v = some (some c)
                unfold updF
                rw [if_pos hve]
              · rw [hd]
                show updF st.dist e.nodeId (eAdd (st.dist c) e.weight) v =
                  eAdd (st.dist c) e.weight
                unfold updF
                rw [if_pos hve]
            · refine Or.inl ⟨?_, ?_⟩
              · rw [hd]
                show updF st.dist e.nodeId (eAdd (st.dist c) e.weight) v = st.dist v
                unfold updF
                rw [if_neg hve]
              · rw [hp]
                show updF st.prev e.nodeId (some (some c)) v = st.prev v
                unfold updF
                rw [if_neg hve]
          · refine Or.inr ⟨hvm, hp, e2, List.mem_cons_of_mem _ he2, hev, ?_⟩
            rw [hdv]
            show eAdd (updF st.dist e.nodeId (eAdd (st.dist c) e.weight) c) e2.weight =
              eAdd (st.dist c) e2.weight
            unfold updF
            rw [if_neg hcne]
        · intro e2 he2 hmem
          rcases List.mem_cons.mp he2 with rfl | he2
          · refine eLe_trans (g3 e2.nodeId) ?_
            show eLe (updF st.dist e2.nodeId (eAdd (st.dist c) e2.weight) e2.nodeId)
              (eAdd (st.dist c) e2.weight)
            unfold updF
            rw [if_pos rfl]
            exact eLe_refl _
          · have h5 := g5 e2 he2 hmem
            have hsc : updF st.dist e.nodeId (eAdd (st.dist c) e.weight) c = st.dist c := by
              unfold updF
              rw [if_neg hcne]
            rw [show ({
                dist := updF st.dist e.nodeId (eAdd (st.dist c) e.weight)
                prev := updF st.prev e.nodeId (some (some c))
                unvisited := st.unvisited
                steps := st.steps ++ [{
                  step := st.stepn
                  visited := visitedSnapshot nodeIds st.unvisited
                  current := some c
                  distances := some (distSnapshot dkeys
                    (updF st.dist e.nodeId (eAdd (st.dist c) e.weight)))
                  description := "Updated distance to node " ++ e.nodeId ++ " to " ++
                    edistStr (eAdd (st.dist c) e.weight) }]
                stepn := st.stepn + 1 } : DijkstraState).dist c = st.dist c from hsc] at h5
            exact h5
        · refine ⟨({
              step := st.stepn
              visited := visitedSnapshot nodeIds st.unvisited
              current := some c
              distances := some (distSnapshot dkeys
                (updF st.dist e.nodeId (eAdd (st.dist c) e.weight)))
              description := "Updated distance to node " ++ e.nodeId ++ " to " ++
                edistStr (eAdd (st.dist c) e.weight) } : AlgorithmStep) :: ds, ?_, ?_⟩
          · rw [hds1]
            simp
          · intro x hx
            rcases List.mem_cons.mp hx with rfl | hx
            · rfl
            · exact hds2 x hx
      · rw [show dijkstraRelax nodeIds dkeys c st e = st from by
          unfold dijkstraRelax
          rw [if_pos hun]
          dsimp only
          rw [if_neg hlt]]
        obtain ⟨g1, g2, g3, g4, g5, ds, hds1, hds2⟩ := ih st hc
        refine ⟨g1, g2, g3, ?_, ?_, ds, hds1, hds2⟩
        · intro v
          rcases g4 v with h | ⟨hvm, hp, e2, he2, hev, hdv⟩
          · exact Or.inl h
          · exact Or.inr ⟨hvm, hp, e2, List.mem_cons_of_mem _ he2, hev, hdv⟩
        · intro e2 he2 hmem
          rcases List.mem_cons.mp he2 with rfl | he2
          · refine eLe_trans (g3 e2.nodeId) ?_
            exact eLe_of_not_eLt (by simpa using hlt)
          · exact g5 e2 he2 hmem
    · rw [show dijkstraRelax nodeIds dkeys c st e = st from by
        unfold dijkstraRelax
        rw [if_neg hun]]
      obtain ⟨g1, g2, g3, g4, g5, ds, hds1, hds2⟩ := ih st hc
      refine ⟨g1, g2, g3, ?_, ?_, ds, hds1, hds2⟩
      · intro v
        rcases g4 v with h | ⟨hvm, hp, e2, he2, hev, hdv⟩
        · exact Or.inl h
        · exact Or.inr ⟨hvm, hp, e2, List.mem_cons_of_mem _ he2, hev, hdv⟩
      · intro e2 he2 hmem
        rcases List.mem_cons.mp he2 with rfl | he2
        · exact absurd (by simpa using hmem) hun
        · exact g5 e2 he2 hmem

/-- On settling the minimum `c` of the unvisited set, its tentative distance
is a lower bound of every walk reaching the unvisited region: the key step of
Dijkstra's correctness. -/
theorem dijk_settle_bound {adj : AdjacencyList} {s : String} {uv0 : List String}
    {st : DijkstraState} (hnn : AdjNonneg adj) (inv : DijkInv adj s uv0 st)
    (htK : ∀ x ∈ adjTargets adj, x ∈ uv0)
    {dc : Int}
    (hmin : ∀ x ∈ st.unvisited, eLt (st.dist x) (some dc) = false) :
    ∀ (a v : String) (d : Int), Walk adj a v d → v ∈ st.unvisited → a ∈ uv0 →
      ∀ da : Int, st.dist a = some da → dc ≤ da + d := by
  intro a v d hw
  induction hw with
  | nil a =>
    intro hv _ da hda
    have hm := hmin a hv
    rw [hda] at hm
    have h3 : eLe (some dc) (some da) := eLe_of_not_eLt hm
    rw [eLe_some_some] at h3
    omega
  | cons b hb tail ih =>
    rename_i a2 c2 w2 d2
    intro hv ha da hda
    have hw0 : (0 : Int) ≤ w2 := by
      have h2 := hnn _ _ hb
      dsimp only at h2
      exact h2
    have hd2n : (0 : Int) ≤ d2 := Walk.weight_nonneg hnn tail
    by_cases hain : a2 ∈ st.unvisited
    · have hm := hmin a2 hain
      rw [hda] at hm
      have h3 : eLe (some dc) (some da) := eLe_of_not_eLt hm
      rw [eLe_some_some] at h3
      omega
    · have hbU : b ∈ uv0 := htK _ (mem_adjTargets hb)
      by_cases hbin : b ∈ st.unvisited
      · have hbd := inv.boundary a2 ha hain _ hb hbin
        dsimp only at hbd
        rw [hda] at hbd
        have hbd2 : eLe (st.dist b) (some (da + w2)) := hbd
        cases hbv : st.dist b with
        | none =>
          rw [hbv] at hbd2
          have h4 := eLe_none_right hbd2
          simp at h4
        | some db =>
          rw [hbv] at hbd2
          rw [eLe_some_some] at hbd2
          have hm := hmin b hbin
          rw [hbv] at hm
          have h3 : eLe (some dc) (some db) := eLe_of_not_eLt hm
          rw [eLe_some_some] at h3
          omega
      · obtain ⟨db, hdb, hlb⟩ := inv.settledLB b hbU hbin
        have hwa : Walk adj s a2 da := inv.attained a2 da hda
        have hwb : Walk adj s b (da + w2) := hwa.snoc hb
        have hble : db ≤ da + w2 := hlb _ hwb
        have h6 := ih hv hbU db hdb
        omega

/-- If every still-unvisited node has an infinite tentative distance, the
unvisited region is unreachable from the start. -/
theorem dijk_cover {adj : AdjacencyList} {s : String} {uv0 : List String}
    {st : DijkstraState} (inv : DijkInv adj s uv0 st)
    (hs0 : s ∈ uv0)
    (htK : ∀ x ∈ adjTargets adj, x ∈ uv0)
    (hnone : ∀ v ∈ st.unvisited, st.dist v = none) :
    ∀ v, Reachable adj s v → v ∉ st.unvisited := by
  have hsnot : s ∉ st.unvisited := by
    intro hs
    have h1 := hnone s hs
    rw [inv.startDist] at h1
    cases h1
  have hQ : ∀ a c d, Walk adj a c d → a ∈ uv0 → a ∉ st.unvisited →
      c ∉ st.unvisited := by
    intro a c d hw
    induction hw with
    | nil a => exact fun _ h => h
    | cons b hb tail ih =>
      intro ha hanot
      have hbU : b ∈ uv0 := htK _ (mem_adjTargets hb)
      have hbnot : b ∉ st.unvisited := by
        intro hbin
        have hbnone := hnone b hbin
        obtain ⟨da, hda, _⟩ := inv.settledLB _ ha hanot
        have hb2 := inv.boundary _ ha hanot _ hb hbin
        rw [hbnone, hda] at hb2
        have h4 := eLe_none_right hb2
        simp [eAdd] at h4
      exact ih hbU hbnot
  rintro v ⟨d, hw⟩
  exact hQ s v d hw hs0 hsnot

/-- From the invariant and either exit condition of the Dijkstra loop, every
reachable node carries a finite shortest distance. -/
theorem dijkstra_correct_of_inv {adj : AdjacencyList} {s : String} {uv0 : List String}
    {st : DijkstraState} (inv : DijkInv adj s uv0 st)
    (hs0 : s ∈ uv0) (htK : ∀ x ∈ adjTargets adj, x ∈ uv0)
    (hexit : st.unvisited = [] ∨ ∀ v ∈ st.unvisited, st.dist v = none) :
    ∀ v, Reachable adj s v → ∃ d, st.dist v = some d ∧ ShortestFrom adj s v d := by
  intro v hr
  have hvU : v ∈ uv0 := by
    obtain ⟨d, hw⟩ := hr
    rcases hw.end_cases with rfl | hmem
    · exact hs0
    · exact htK _ hmem
  have hvnot : v ∉ st.unvisited := by
    rcases hexit with hnil | hnone
    · rw [hnil]
      exact List.not_mem_nil v
    · exact dijk_cover inv hs0 htK hnone v hr
  obtain ⟨d, hd, hlb⟩ := inv.settledLB v hvU hvnot
  exact ⟨d, hd, inv.attained v d hd, hlb⟩

/-- The master lemma for the Dijkstra loop when the requested target (if any)
is unreachable from the start: with fuel at least the unvisited count the loop
preserves the invariant, exits with the unvisited set empty or all-infinite,
appends only path-free steps, and never touches the distance or predecessor
entry of an unreachable node. -/
theorem dijkstraLoop_master (adj : AdjacencyList) (s : String) (uv0 : List String)
    (nodeIds dkeys : List String) (t : Option String)
    (hnn : AdjNonneg adj)
    (htK : ∀ x ∈ adjTargets adj, x ∈ uv0)
    (hs0 : s ∈ uv0)
    (hnt : ∀ v, targetMatches t v = true → ¬ Reachable adj s v) :
    ∀ (fuel : Nat) (st : DijkstraState), DijkInv adj s uv0 st →
      st.unvisited.length ≤ fuel → st.unvisited.Nodup →
      DijkInv adj s uv0 (dijkstraLoop adj nodeIds dkeys t fuel st) ∧
      ("" ∉ uv0 →
        (dijkstraLoop adj nodeIds dkeys t fuel st).unvisited = [] ∨
        ∀ v ∈ (dijkstraLoop adj nodeIds dkeys t fuel st).unvisited,
          (dijkstraLoop adj nodeIds dkeys t fuel st).dist v = none) ∧
      (∃ ds, (dijkstraLoop adj nodeIds dkeys t fuel st).steps = st.steps ++ ds ∧
        ∀ x ∈ ds, x.path = none) ∧
      (∀ v, ¬ Reachable adj s v →
        (dijkstraLoop adj nodeIds dkeys t fuel st).prev v = st.prev v ∧
        (dijkstraLoop adj nodeIds dkeys t fuel st).dist v = st.dist v) := by
  intro fuel
  induction fuel with
  | zero =>
    intro st inv hlen _
    have hnil : st.unvisited = [] := List.length_eq_zero.mp (Nat.le_zero.mp hlen)
    have hstep : dijkstraLoop adj nodeIds dkeys t 0 st = st := by
      unfold dijkstraLoop
      rfl
    rw [hstep]
    exact ⟨inv, fun _ => Or.inl hnil, ⟨[], by simp, by simp⟩, fun v _ => ⟨rfl, rfl⟩⟩
  | succ fuel ih =>
    intro st inv hlen hnd
    by_cases hemp : st.unvisited.isEmpty = true
    · have hstep : dijkstraLoop adj nodeIds dkeys t (fuel + 1) st = st := by
        conv_lhs => rw [dijkstraLoop]
        rw [if_pos hemp]
      rw [hstep]
      have hnil : st.unvisited = [] := by simpa using hemp
      exact ⟨inv, fun _ => Or.inl hnil, ⟨[], by simp, by simp⟩, fun v _ => ⟨rfl, rfl⟩⟩
    · cases hscan : scanMin st.dist st.unvisited with
      | mk o sd =>
        cases o with
        | none =>
          have hstep : dijkstraLoop adj nodeIds dkeys t (fuel + 1) st = st := by
            conv_lhs => rw [dijkstraLoop]
            rw [if_neg hemp, hscan]
          rw [hstep]
          have hnone : ∀ v ∈ st.unvisited, st.dist v = none :=
            scanMin_none (by rw [hscan])
          exact ⟨inv, fun _ => Or.inr hnone, ⟨[], by simp, by simp⟩,
            fun v _ => ⟨rfl, rfl⟩⟩
        | some c =>
          obtain ⟨hcm, hdsd2, hsds, hminp⟩ := scanMin_some hscan
          obtain ⟨dc, rfl⟩ : ∃ dc, sd = some dc := Option.isSome_iff_exists.mp hsds
          have hdsd : st.dist c = some dc := hdsd2
          by_cases hcemp : (c == "") = true
          · have hstep : dijkstraLoop adj nodeIds dkeys t (fuel + 1) st = st := by
              conv_lhs => rw [dijkstraLoop]
              rw [if_neg hemp, hscan]
              dsimp only
              rw [if_pos (show (c == "" || (some dc : EDist).isNone) = true from by
                rw [hcemp]
                rfl)]
            rw [hstep]
            refine ⟨inv, ?_, ⟨[], by simp, by simp⟩, fun v _ => ⟨rfl, rfl⟩⟩
            intro hne
            have hc0 : c = "" := by simpa using hcemp
            exact absurd (hc0 ▸ inv.sub c hcm) hne
          · have hcef : (c == "") = false := by
              rw [Bool.eq_false_iff]
              exact hcemp
            by_cases htm : targetMatches t c = true
            · exact absurd ⟨dc, inv.attained c dc hdsd⟩ (hnt c htm)
            · have hc1 : c ∉ st.unvisited.erase c := by
                intro hmem
                exact ((List.Nodup.mem_erase_iff hnd).mp hmem).1 rfl
              have hc1b : (st.unvisited.erase c).contains c = false := by
                rw [Bool.eq_false_iff]
                intro hcontra
                exact hc1 (by simpa using hcontra)
              obtain ⟨f1, f2, f3, f4, f5, fds, hfds1, hfds2⟩ :=
                dijkstraRelax_fold_facts nodeIds dkeys c (adjEntries adj c)
                  { st with unvisited := st.unvisited.erase c } hc1b
              set st2 := (adjEntries adj c).foldl (dijkstraRelax nodeIds dkeys c)
                { st with unvisited := st.unvisited.erase c } with hst2
              have hu2 : st2.unvisited = st.unvisited.erase c := f1
              have f2b : ∀ v, v ∉ st.unvisited.erase c →
                  st2.dist v = st.dist v ∧ st2.prev v = st.prev v := f2
              have f3b : ∀ v, eLe (st2.dist v) (st.dist v) := f3
              have f4b : ∀ v, (st2.dist v = st.dist v ∧ st2.prev v = st.prev v) ∨
                  (v ∈ st.unvisited.erase c ∧ st2.prev v = some (some c) ∧
                    ∃ e ∈ adjEntries adj c, e.nodeId = v ∧
                      st2.dist v = eAdd (st.dist c) e.weight) := f4
              have f5b : ∀ e ∈ adjEntries adj c, e.nodeId ∈ st.unvisited.erase c →
                  eLe (st2.dist e.nodeId) (eAdd (st.dist c) e.weight) := f5
              have hfds1b : st2.steps = st.steps ++ fds := hfds1
              have hur : ∀ v, ¬ Reachable adj s v →
                  st2.dist v = st.dist v ∧ st2.prev v = st.prev v := by
                intro v hnr
                rcases f4b v with h | ⟨_, _, e, he, hev, _⟩
                · exact h
                · exact absurd (reachable_snoc ⟨dc, inv.attained c dc hdsd⟩
                    (hev ▸ (show AdjEntry.mk e.nodeId e.weight ∈ adjEntries adj c
                      from he))) hnr
              have inv2 : DijkInv adj s uv0 st2 := by
                refine ⟨?_, ?_, ?_, ?_, ?_, ?_, ?_⟩
                · intro x hx
                  rw [hu2] at hx
                  exact inv.sub x (List.mem_of_mem_erase hx)
                · intro v d2 hd2v
                  rcases f4b v with ⟨hdl, _⟩ | ⟨hvm, _, e, he, hev, hdv⟩
                  · rw [hdl] at hd2v
                    exact inv.attained v d2 hd2v
                  · rw [hdv, hdsd] at hd2v
                    have hd2e : dc + e.weight = d2 := by
                      simpa [eAdd] using hd2v
                    exact ((inv.attained c dc hdsd).snoc
                      (hev ▸ (show AdjEntry.mk e.nodeId e.weight ∈ adjEntries adj c
                        from he))).cast_weight hd2e
                · rcases f4b s with ⟨hdl, _⟩ | ⟨_, _, e, he, hev, hdv⟩
                  · rw [hdl]
                    exact inv.startDist
                  · have hws : (0 : Int) ≤ dc :=
                      Walk.weight_nonneg hnn (inv.attained c dc hdsd)
                    have hwe : (0 : Int) ≤ e.weight := hnn _ _ he
                    have hmono := f3b s
                    rw [hdv, inv.startDist, hdsd] at hmono
                    have hmono2 : eLe (some (dc + e.weight)) (some 0) := hmono
                    rw [eLe_some_some] at hmono2
                    rw [hdv, hdsd]
                    have hz : dc + e.weight = 0 := by omega
                    show some (dc + e.weight) = some 0
                    rw [hz]
                · intro v hvU hvnot
                  rw [hu2] at hvnot
                  by_cases hvc : v = c
                  · subst hvc
                    obtain ⟨hdl, _⟩ := f2b v hvnot
                    refine ⟨dc, by rw [hdl]; exact hdsd, ?_⟩
                    intro dw hw
                    have hsb := dijk_settle_bound hnn inv htK hminp s v dw hw hcm hs0
                      0 inv.startDist
                    omega
                  · have hvold : v ∉ st.unvisited := fun hmem =>
                      hvnot ((List.Nodup.mem_erase_iff hnd).mpr ⟨hvc, hmem⟩)
                    obtain ⟨d0, hd0, hlb⟩ := inv.settledLB v hvU hvold
                    obtain ⟨hdl, _⟩ := f2b v hvnot
                    exact ⟨d0, by rw [hdl]; exact hd0, hlb⟩
                · intro x hxU hxnot e he hein
                  rw [hu2] at hxnot hein
                  have hdx : st2.dist x = st.dist x := (f2b x hxnot).1
                  rw [hdx]
                  by_cases hxc : x = c
                  · subst hxc
                    exact f5b e he hein
                  · have hxold : x ∉ st.unvisited := fun hmem =>
                      hxnot ((List.Nodup.mem_erase_iff hnd).mpr ⟨hxc, hmem⟩)
                    have hold := inv.boundary x hxU hxold e he (List.mem_of_mem_erase hein)
                    exact eLe_trans (f3b e.nodeId) hold
                · intro v
                  rcases f4b v with ⟨_, hpl⟩ | ⟨hvm, hp, _⟩
                  · rw [hpl]
                    exact inv.prevShape v
                  · constructor
                    · intro _
                      rw [hp]
                      simp
                    · intro hvnot0
                      exact absurd (inv.sub v (List.mem_of_mem_erase hvm)) hvnot0
                · intro v p hp2
                  rcases f4b v with ⟨_, hpl⟩ | ⟨_, _, e, he, hev, _⟩
                  · rw [hpl] at hp2
                    exact inv.prevReach v p hp2
                  · exact reachable_snoc ⟨dc, inv.attained c dc hdsd⟩
                      (hev ▸ (show AdjEntry.mk e.nodeId e.weight ∈ adjEntries adj c
                        from he))
              have hlen2 : st2.unvisited.length ≤ fuel := by
                rw [hu2, List.length_erase_of_mem hcm]
                have hpos : 0 < st.unvisited.length :=
                  List.length_pos.mpr (List.ne_nil_of_mem hcm)
                omega
              have hnd2 : st2.unvisited.Nodup := by
                rw [hu2]
                exact hnd.erase c
              have hstep : dijkstraLoop adj nodeIds dkeys t (fuel + 1) st =
                  dijkstraLoop adj nodeIds dkeys t fuel
                    (match scanMin st2.dist st2.unvisited with
                     | (some nx, _) =>
                       if nx == "" then st2
                       else
                         { st2 with
                           steps := st2.steps ++ [{
                             step := st2.stepn
                             visited := visitedSnapshot nodeIds st2.unvisited
                             current := some nx
                             distances := some (distSnapshot dkeys st2.dist)
                             description := "Moving to node " ++ nx ++
                               " with current distance " ++ edistStr (st2.dist nx) }]
                           stepn := st2.stepn + 1 }
                     | (none, _) => st2) := by
                conv_lhs => rw [dijkstraLoop]
                rw [if_neg hemp, hscan]
                dsimp only
                rw [if_neg (show ¬((c == "" || (some dc : EDist).isNone) = true) from by
                    rw [hcef]
                    exact Bool.false_ne_true),
                  if_neg htm]
              cases hscan2 : scanMin st2.dist st2.unvisited with
              | mk o2 sd2 =>
                cases o2 with
                | none =>
                  rw [hscan2] at hstep
                  dsimp only at hstep
                  obtain ⟨hI, hE, ⟨ds2, hds2a, hds2b⟩, hP⟩ := ih st2 inv2 hlen2 hnd2
                  rw [hstep]
                  refine ⟨hI, hE, ⟨fds ++ ds2, ?_, ?_⟩, ?_⟩
                  · rw [hds2a, hfds1b, List.append_assoc]
                  · intro x hx
                    rcases List.mem_append.mp hx with hx | hx
                    · exact hfds2 x hx
                    · exact hds2b x hx
                  · intro v hnr
                    obtain ⟨hp1, hd1⟩ := hP v hnr
                    obtain ⟨hd0, hp0⟩ := hur v hnr
                    exact ⟨by rw [hp1, hp0], by rw [hd1, hd0]⟩
                | some nx =>
                  rw [hscan2] at hstep
                  dsimp only at hstep
                  by_cases hnxe : (nx == "") = true
                  · rw [if_pos hnxe] at hstep
                    obtain ⟨hI, hE, ⟨ds2, hds2a, hds2b⟩, hP⟩ := ih st2 inv2 hlen2 hnd2
                    rw [hstep]
                    refine ⟨hI, hE, ⟨fds ++ ds2, ?_, ?_⟩, ?_⟩
                    · rw [hds2a, hfds1b, List.append_assoc]
                    · intro x hx
                      rcases List.mem_append.mp hx with hx | hx
                      · exact hfds2 x hx
                      · exact hds2b x hx
                    · intro v hnr
                      obtain ⟨hp1, hd1⟩ := hP v hnr
                      obtain ⟨hd0, hp0⟩ := hur v hnr
                      exact ⟨by rw [hp1, hp0], by rw [hd1, hd0]⟩
                  · rw [if_neg hnxe] at hstep
                    have invM : DijkInv adj s uv0 ({ st2 with
                        steps := st2.steps ++ [{
                          step := st2.stepn
                          visited := visitedSnapshot nodeIds st2.unvisited
                          current := some nx
                          distances := some (distSnapshot dkeys st2.dist)
                          description := "Moving to node " ++ nx ++
                            " with current distance " ++ edistStr (st2.dist nx) }]
                        stepn := st2.stepn + 1 } : DijkstraState) :=
                      ⟨inv2.sub, inv2.attained, inv2.startDist, inv2.settledLB,
                        inv2.boundary, inv2.prevShape, inv2.prevReach⟩
                    obtain ⟨hI, hE, ⟨ds2, hds2a, hds2b⟩, hP⟩ := ih _ invM hlen2 hnd2
                    rw [hstep]
                    refine ⟨hI, hE, ⟨fds ++ ([{
                        step := st2.stepn
                        visited := visitedSnapshot nodeIds st2.unvisited
                        current := some nx
                        distances := some (distSnapshot dkeys st2.dist)
                        description := "Moving to node " ++ nx ++
                          " with current distance " ++ edistStr (st2.dist nx) }] ++ ds2),
                      ?_, ?_⟩, ?_⟩
                    · rw [hds2a]
                      show (st2.steps ++ [{
                          step := st2.stepn
                          visited := visitedSnapshot nodeIds st2.unvisited
                          current := some nx
                          distances := some (distSnapshot dkeys st2.dist)
                          description := "Moving to node " ++ nx ++
                            " with current distance " ++ edistStr (st2.dist nx) }]) ++ ds2 =
                        st.steps ++ (fds ++ ([{
                          step := st2.stepn
                          visited := visitedSnapshot nodeIds st2.unvisited
                          current := some nx
                          distances := some (distSnapshot dkeys st2.dist)
                          description := "Moving to node " ++ nx ++
                            " with current distance " ++ edistStr (st2.dist nx) }] ++ ds2))
                      rw [hfds1b]
                      simp only [List.append_assoc]
                    · intro x hx
                      rcases List.mem_append.mp hx with hx | hx
                      · exact hfds2 x hx
                      · rcases List.mem_append.mp hx with hx | hx
                        · rw [List.mem_singleton] at hx
                          rw [hx]
                        · exact hds2b x hx
                    · intro v hnr
                      obtain ⟨hp1, hd1⟩ := hP v hnr
                      obtain ⟨hd0, hp0⟩ := hur v hnr
                      refine ⟨?_, ?_⟩
                      · rw [hp1]
                        show st2.prev v = st.prev v
                        rw [hp0]
                      · rw [hd1]
                        show st2.dist v = st.dist v
                        rw [hd0]

/-- The Dijkstra invariant holds in the initial state built by `dijkstraRun`. -/
theorem dijk_initial_inv (adj : AdjacencyList) (s : String) (uv : List String)
    (stepsInit : List AlgorithmStep) (n : Nat) :
    DijkInv adj s uv {
      dist := updF (fun _ => (none : EDist)) s (some 0)
      prev := fun id => if uv.contains id then some none else none
      unvisited := uv
      steps := stepsInit
      stepn := n } := by
  refine ⟨fun x hx => hx, ?_, ?_, ?_, ?_, ?_, ?_⟩
  · intro v d h
    have h2 : updF (fun _ => (none : EDist)) s (some 0) v = some d := h
    unfold updF at h2
    by_cases hv : v = s
    · rw [if_pos hv] at h2
      rw [Option.some.injEq] at h2
      rw [hv, ← h2]
      exact Walk.nil s
    · rw [if_neg hv] at h2
      cases h2
  · show updF (fun _ => (none : EDist)) s (some 0) s = some 0
    unfold updF
    rw [if_pos rfl]
  · intro v hv hnv
    exact absurd hv hnv
  · intro x hx hnx
    exact absurd hx hnx
  · intro v
    constructor
    · intro hv hcontra
      have h2 : (if uv.contains v then some (none : Option String) else none) = none :=
        hcontra
      rw [if_pos (by simpa using hv)] at h2
      cases h2
    · intro hv
      show (if uv.contains v then some (none : Option String) else none) = none
      rw [if_neg (fun hcontra => hv (by simpa using hcontra))]
  · intro v p h
    have h2 : (if uv.contains v then some (none : Option String) else none) =
        some (some p) := h
    by_cases hv : uv.contains v = true
    · rw [if_pos hv] at h2
      rw [Option.some.injEq] at h2
      cases h2
    · rw [if_neg hv] at h2
      cases h2

/-- Counterexample to claim C1 as stated: on the two-node graph `A - B` with
the single unit-weight edge, a run with the requested target equal to the
start terminates at once, and the reachable node `B` keeps the recorded final
distance Infinity rather than its shortest-walk weight. -/
theorem C1_shortest_distances_counterexample :
    ∃ st, dijkstraRun [{ id := "A", label := "A" }, { id := "B", label := "B" }]
        [{ id := "e1", source := "A", target := "B" }] "A" (some "A") = .ok st ∧
      createAdjacencyList [{ id := "A", label := "A" }, { id := "B", label := "B" }]
        [{ id := "e1", source := "A", target := "B" }] =
        .ok [("A", [⟨"B", 1⟩]), ("B", [⟨"A", 1⟩])] ∧
      AdjNonneg [("A", [⟨"B", 1⟩]), ("B", [⟨"A", 1⟩])] ∧
      Reachable [("A", [⟨"B", 1⟩]), ("B", [⟨"A", 1⟩])] "A" "B" ∧
      st.dist "B" = none :=
  ⟨_, rfl, rfl,
    build_adjNonneg (rfl :
      createAdjacencyList [{ id := "A", label := "A" }, { id := "B", label := "B" }]
        [{ id := "e1", source := "A", target := "B" }] =
        .ok [("A", [⟨"B", 1⟩]), ("B", [⟨"A", 1⟩])]) (by decide),
    ⟨1 + 0, Walk.cons "B" (List.mem_singleton.mpr rfl) (Walk.nil "B")⟩, rfl⟩

/-- The JS falsiness break in action: on the chain `A - "" - B` with unit
edges and no target, the Dijkstra loop selects the empty-string node id in
its second iteration, `if (!currentNode || ...) break` fires, and the
reachable node `B` is left at Infinity.  This is why the amended C1 excludes
empty-string node ids. -/
theorem dijkstra_empty_id_break :
    ∃ st, dijkstraRun
        [{ id := "A", label := "A" }, { id := "", label := "" },
         { id := "B", label := "B" }]
        [{ id := "e1", source := "A", target := "" },
         { id := "e2", source := "", target := "B" }] "A" none = .ok st ∧
      Reachable [("A", [⟨"", 1⟩]), ("", [⟨"A", 1⟩, ⟨"B", 1⟩]), ("B", [⟨"", 1⟩])]
        "A" "B" ∧
      st.dist "B" = none :=
  ⟨_, rfl,
    ⟨1 + (1 + 0), Walk.cons "" (List.mem_singleton.mpr rfl)
      (Walk.cons "B" (List.mem_cons_of_mem _ (List.mem_singleton.mpr rfl))
        (Walk.nil "B"))⟩, rfl⟩

/-- Claim C1, amended to runs without a requested target and without an
empty-string node id (a target equal to the start, or any reachable target,
makes the loop break early and leave other reachable nodes at Infinity; a
selected empty-string node id likewise fires the JS falsiness break
`if (!currentNode || ...) break` mid-run): with non-negative effective
weights, a listed start node, no empty-string node id and no target, the
Dijkstra runner terminates with the final distance of every node reachable
from the start equal to the true shortest walk weight in the adjacency
projection. -/
theorem C1_dijkstra_shortest_distances (nodes : List Node) (edges : List Edge)
    (s : String) (adj : AdjacencyList)
    (hadj : createAdjacencyList nodes edges = .ok adj)
    (hs : s ∈ nodes.map Node.id)
    (hids : "" ∉ nodes.map Node.id) (hnn : AdjNonneg adj) :
    ∃ st, dijkstraRun nodes edges s none = .ok st ∧
      ∀ v, Reachable adj s v → ∃ d, st.dist v = some d ∧ ShortestFrom adj s v d := by
  have htK : ∀ x ∈ adjTargets adj, x ∈ dedupKeys (nodes.map Node.id) := by
    intro x hx
    have h1 := build_targets_has hadj x hx
    rw [recordHas_iff, build_ok_keys hadj] at h1
    exact h1
  have hs0 : s ∈ dedupKeys (nodes.map Node.id) := (mem_dedupKeys _ _).mpr hs
  have hInv0 : DijkInv adj s (dedupKeys (nodes.map Node.id))
      ({ dist := updF (fun _ => (none : EDist)) s (some 0)
         prev := fun id =>
           if (dedupKeys (nodes.map Node.id)).contains id then some none else none
         unvisited := dedupKeys (nodes.map Node.id)
         steps := [{
           step := 0
           visited := []
           current := some s
           distances := some (distSnapshot (insertKey (dedupKeys (nodes.map Node.id)) s)
             (updF (fun _ => (none : EDist)) s (some 0)))
           description := "Starting Dijkstra's algorithm from node " ++ s }]
         stepn := 1 } : DijkstraState) :=
    dijk_initial_inv adj s _ _ _
  obtain ⟨hI, hE, _, _⟩ := dijkstraLoop_master adj s (dedupKeys (nodes.map Node.id))
    (nodes.map Node.id) (insertKey (dedupKeys (nodes.map Node.id)) s) none hnn htK hs0
    (fun v hv => absurd hv (by simp [targetMatches]))
    (dedupKeys (nodes.map Node.id)).length
    ({ dist := updF (fun _ => (none : EDist)) s (some 0)
       prev := fun id =>
         if (dedupKeys (nodes.map Node.id)).contains id then some none else none
       unvisited := dedupKeys (nodes.map Node.id)
       steps := [{
         step := 0
         visited := []
         current := some s
         distances := some (distSnapshot (insertKey (dedupKeys (nodes.map Node.id)) s)
           (updF (fun _ => (none : EDist)) s (some 0)))
         description := "Starting Dijkstra's algorithm from node " ++ s }]
       stepn := 1 } : DijkstraState)
    hInv0 (le_refl ((dedupKeys (nodes.map Node.id)).length)) (nodup_dedupKeys _)
  have hrun : dijkstraRun nodes edges s none = .ok
      (dijkstraLoop adj (nodes.map Node.id)
        (insertKey (dedupKeys (nodes.map Node.id)) s) none
        (dedupKeys (nodes.map Node.id)).length
        ({ dist := updF (fun _ => (none : EDist)) s (some 0)
           prev := fun id =>
             if (dedupKeys (nodes.map Node.id)).contains id then some none else none
           unvisited := dedupKeys (nodes.map Node.id)
           steps := [{
             step := 0
             visited := []
             current := some s
             distances := some (distSnapshot
               (insertKey (dedupKeys (nodes.map Node.id)) s)
               (updF (fun _ => (none : EDist)) s (some 0)))
             description := "Starting Dijkstra's algorithm from node " ++ s }]
           stepn := 1 } : DijkstraState)) := by
    unfold dijkstraRun
    rw [hadj]
    rfl
  have hne0 : "" ∉ dedupKeys (nodes.map Node.id) := fun hmem =>
    hids ((mem_dedupKeys _ _).mp hmem)
  exact ⟨_, hrun, dijkstra_correct_of_inv hI hs0 htK (hE hne0)⟩

/-- Witness for the amended C1 on the concrete two-node graph. -/
theorem C1_dijkstra_shortest_distances_witness :
    ∃ st, dijkstraRun [{ id := "A", label := "A" }, { id := "B", label := "B" }]
        [{ id := "e1", source := "A", target := "B" }] "A" none = .ok st ∧
      ∀ v, Reachable [("A", [⟨"B", 1⟩]), ("B", [⟨"A", 1⟩])] "A" v →
        ∃ d, st.dist v = some d ∧
          ShortestFrom [("A", [⟨"B", 1⟩]), ("B", [⟨"A", 1⟩])] "A" v d :=
  C1_dijkstra_shortest_distances
    [{ id := "A", label := "A" }, { id := "B", label := "B" }]
    [{ id := "e1", source := "A", target := "B" }] "A"
    [("A", [⟨"B", 1⟩]), ("B", [⟨"A", 1⟩])] rfl (by decide) (by decide)
    (build_adjNonneg (rfl :
      createAdjacencyList [{ id := "A", label := "A" }, { id := "B", label := "B" }]
        [{ id := "e1", source := "A", target := "B" }] =
        .ok [("A", [⟨"B", 1⟩]), ("B", [⟨"A", 1⟩])]) (by decide))

theorem getLast?_exists_cons {α : Type} : ∀ (l : List α) (a : α),
    ∃ y, (a :: l).getLast? = some y ∧ y ∈ a :: l := by
  intro l
  induction l with
  | nil => exact fun a => ⟨a, rfl, List.mem_singleton.mpr rfl⟩
  | cons b bs ih =>
    intro a
    obtain ⟨y, hy, hmem⟩ := ih b
    exact ⟨y, by rw [List.getLast?_cons_cons]; exact hy, List.mem_cons_of_mem _ hmem⟩

/-- Counterexample to claim C4 as stated: on the two-node edgeless graph,
running Dijkstra from `A` toward the unreachable listed target `B` ends with a
final step whose path is the degenerate `["B"]` — a path step IS emitted,
because `previous[B]` holds the initial `null`, which is not `undefined`. -/
theorem C4_unreachable_target_counterexample :
    ¬ Reachable [("A", []), ("B", [])] "A" "B" ∧
    createAdjacencyList [{ id := "A", label := "A" }, { id := "B", label := "B" }] [] =
      .ok [("A", []), ("B", [])] ∧
    lastPath (executeDijkstra [{ id := "A", label := "A" }, { id := "B", label := "B" }]
      [] "A" (some "B")) = some (some ["B"]) := by
  refine ⟨?_, rfl, rfl⟩
  intro hr
  exact absurd (reachable_no_nbrs (show adjEntries
    ([("A", []), ("B", [])] : AdjacencyList) "A" = [] from rfl) hr) (by decide)

/-- Claim C4, amended: for a non-empty target unreachable from the listed
start, the target's predecessor entry keeps its initial value (`null` for a
listed node id, absent otherwise) and no loop step carries a path; but the
post-loop block then emits one final degenerate path step `[target]` whenever
the target is a listed node id, because its `null` predecessor entry is not
`undefined`.  Only an unlisted target yields a trace with no path step. -/
theorem C4_unreachable_target_path (nodes : List Node) (edges : List Edge)
    (s tv : String) (adj : AdjacencyList)
    (hadj : createAdjacencyList nodes edges = .ok adj)
    (hs : s ∈ nodes.map Node.id) (htv : tv ≠ "")
    (hnn : AdjNonneg adj) (hnr : ¬ Reachable adj s tv) :
    ∃ st, dijkstraRun nodes edges s (some tv) = .ok st ∧
      st.prev tv =
        (if tv ∈ dedupKeys (nodes.map Node.id) then some none else none) ∧
      (tv ∉ dedupKeys (nodes.map Node.id) → ∀ x ∈ st.steps, x.path = none) ∧
      (tv ∈ dedupKeys (nodes.map Node.id) →
        ∃ pre last2, st.steps = pre ++ [last2] ∧ (∀ x ∈ pre, x.path = none) ∧
          last2.path = some [tv]) := by
  have htK : ∀ x ∈ adjTargets adj, x ∈ dedupKeys (nodes.map Node.id) := by
    intro x hx
    have h1 := build_targets_has hadj x hx
    rw [recordHas_iff, build_ok_keys hadj] at h1
    exact h1
  have hs0 : s ∈ dedupKeys (nodes.map Node.id) := (mem_dedupKeys _ _).mpr hs
  have hnt : ∀ v, targetMatches (some tv) v = true → ¬ Reachable adj s v := by
    intro v hv
    unfold targetMatches at hv
    rcases Bool.and_eq_true _ _ |>.mp hv with ⟨_, h2⟩
    have hveq : tv = v := by simpa using h2
    rw [← hveq]
    exact hnr
  have hInv0 : DijkInv adj s (dedupKeys (nodes.map Node.id))
      ({ dist := updF (fun _ => (none : EDist)) s (some 0)
         prev := fun id =>
           if (dedupKeys (nodes.map Node.id)).contains id then some none else none
         unvisited := dedupKeys (nodes.map Node.id)
         steps := [{
           step := 0
           visited := []
           current := some s
           distances := some (distSnapshot (insertKey (dedupKeys (nodes.map Node.id)) s)
             (updF (fun _ => (none : EDist)) s (some 0)))
           description := "Starting Dijkstra's algorithm from node " ++ s }]
         stepn := 1 } : DijkstraState) :=
    dijk_initial_inv adj s _ _ _
  obtain ⟨hI, hE, hS, hP⟩ := dijkstraLoop_master adj s (dedupKeys (nodes.map Node.id))
    (nodes.map Node.id) (insertKey (dedupKeys (nodes.map Node.id)) s) (some tv)
    hnn htK hs0 hnt
    (dedupKeys (nodes.map Node.id)).length
    ({ dist := updF (fun _ => (none : EDist)) s (some 0)
       prev := fun id =>
         if (dedupKeys (nodes.map Node.id)).contains id then some none else none
       unvisited := dedupKeys (nodes.map Node.id)
       steps := [{
         step := 0
         visited := []
         current := some s
         distances := some (distSnapshot (insertKey (dedupKeys (nodes.map Node.id)) s)
           (updF (fun _ => (none : EDist)) s (some 0)))
         description := "Starting Dijkstra's algorithm from node " ++ s }]
       stepn := 1 } : DijkstraState)
    hInv0 (le_refl ((dedupKeys (nodes.map Node.id)).length)) (nodup_dedupKeys _)
  set stL := dijkstraLoop adj (nodes.map Node.id)
    (insertKey (dedupKeys (nodes.map Node.id)) s) (some tv)
    (dedupKeys (nodes.map Node.id)).length
    ({ dist := updF (fun _ => (none : EDist)) s (some 0)
       prev := fun id =>
         if (dedupKeys (nodes.map Node.id)).contains id then some none else none
       unvisited := dedupKeys (nodes.map Node.id)
       steps := [{
         step := 0
         visited := []
         current := some s
         distances := some (distSnapshot (insertKey (dedupKeys (nodes.map Node.id)) s)
           (updF (fun _ => (none : EDist)) s (some 0)))
         description := "Starting Dijkstra's algorithm from node " ++ s }]
       stepn := 1 } : DijkstraState) with hstL
  obtain ⟨ds, hsteps, hdsnone⟩ := hS
  have hprevL : stL.prev tv =
      (if (dedupKeys (nodes.map Node.id)).contains tv then some none else none) :=
    (hP tv hnr).1
  have hallnone : ∀ x ∈ stL.steps, x.path = none := by
    rw [hsteps]
    intro x hx
    rcases List.mem_append.mp hx with hx | hx
    · rw [List.mem_singleton] at hx
      rw [hx]
    · exact hdsnone x hx
  have hrun : dijkstraRun nodes edges s (some tv) = .ok
      (dijkstraFinal (nodes.map Node.id)
        (insertKey (dedupKeys (nodes.map Node.id)) s) (some tv) stL) := by
    unfold dijkstraRun
    rw [hadj]
    rfl
  have htvb : (tv == "") = false := by simpa using htv
  by_cases hmem : tv ∈ dedupKeys (nodes.map Node.id)
  · have hct : (dedupKeys (nodes.map Node.id)).contains tv = true := by simpa using hmem
    have hprevL2 : stL.prev tv = some none := by
      rw [hprevL, if_pos hct]
    have hsteps2 : stL.steps =
        ({ step := 0
           visited := []
           current := some s
           distances := some (distSnapshot (insertKey (dedupKeys (nodes.map Node.id)) s)
             (updF (fun _ => (none : EDist)) s (some 0)))
           description := "Starting Dijkstra's algorithm from node " ++ s } :
          AlgorithmStep) :: ds := by
      rw [hsteps]
      rfl
    obtain ⟨last0, hl0, hl0mem⟩ := getLast?_exists_cons ds ({
        step := 0
        visited := []
        current := some s
        distances := some (distSnapshot (insertKey (dedupKeys (nodes.map Node.id)) s)
          (updF (fun _ => (none : EDist)) s (some 0)))
        description := "Starting Dijkstra's algorithm from node " ++ s } : AlgorithmStep)
    have hl0b : stL.steps.getLast? = some last0 := by
      rw [hsteps2]
      exact hl0
    have hl0path : last0.path = none := hallnone last0 (by
      rw [hsteps2]
      exact hl0mem)
    have hiso : last0.path.isNone = true := by
      rw [hl0path]
      rfl
    have hrecon : reconstructPath stL.prev
        ((insertKey (dedupKeys (nodes.map Node.id)) s).length + 1) tv = [tv] := by
      unfold reconstructPath
      conv_lhs => rw [prevChain]
      rw [hprevL2]
      rfl
    have hfin : dijkstraFinal (nodes.map Node.id)
        (insertKey (dedupKeys (nodes.map Node.id)) s) (some tv) stL =
        { stL with
          steps := stL.steps ++ [{
            step := stL.stepn
            visited := visitedSnapshot (nodes.map Node.id) stL.unvisited
            current := some tv
            distances := some (distSnapshot
              (insertKey (dedupKeys (nodes.map Node.id)) s) stL.dist)
            path := some (reconstructPath stL.prev
              ((insertKey (dedupKeys (nodes.map Node.id)) s).length + 1) tv)
            description := "Final shortest path to " ++ tv ++ ": " ++
              String.intercalate " -> " (reconstructPath stL.prev
                ((insertKey (dedupKeys (nodes.map Node.id)) s).length + 1) tv) }]
          stepn := stL.stepn + 1 } := by
      unfold dijkstraFinal
      dsimp only
      rw [htvb]
      rw [if_neg Bool.false_ne_true]
      rw [hprevL2]
      dsimp only
      rw [hl0b]
      dsimp only
      rw [if_pos hiso]
    refine ⟨_, hrun, ?_, ?_, ?_⟩
    · rw [hfin, if_pos hmem]
      show stL.prev tv = some none
      exact hprevL2
    · intro hw
      exact absurd hmem hw
    · intro _
      refine ⟨stL.steps, {
          step := stL.stepn
          visited := visitedSnapshot (nodes.map Node.id) stL.unvisited
          current := some tv
          distances := some (distSnapshot
            (insertKey (dedupKeys (nodes.map Node.id)) s) stL.dist)
          path := some (reconstructPath stL.prev
            ((insertKey (dedupKeys (nodes.map Node.id)) s).length + 1) tv)
          description := "Final shortest path to " ++ tv ++ ": " ++
            String.intercalate " -> " (reconstructPath stL.prev
              ((insertKey (dedupKeys (nodes.map Node.id)) s).length + 1) tv) },
        ?_, hallnone, ?_⟩
      · rw [hfin]
      · show some (reconstructPath stL.prev
          ((insertKey (dedupKeys (nodes.map Node.id)) s).length + 1) tv) = some [tv]
        rw [hrecon]
  · have hct : (dedupKeys (nodes.map Node.id)).contains tv = false := by
      rw [Bool.eq_false_iff]
      intro hcontra
      exact hmem (by simpa using hcontra)
    have hprevL2 : stL.prev tv = none := by
      rw [hprevL, if_neg (show ¬((dedupKeys (nodes.map Node.id)).contains tv = true)
        from by rw [hct]; exact Bool.false_ne_true)]
    have hfin : dijkstraFinal (nodes.map Node.id)
        (insertKey (dedupKeys (nodes.map Node.id)) s) (some tv) stL = stL := by
      unfold dijkstraFinal
      dsimp only
      rw [htvb]
      rw [if_neg Bool.false_ne_true]
      rw [hprevL2]
    refine ⟨_, hrun, ?_, ?_, ?_⟩
    · rw [hfin, if_neg hmem]
      exact hprevL2
    · intro _
      rw [hfin]
      exact hallnone
    · intro hw
      exact absurd hw hmem

/-- Witness for the amended C4 on the concrete two-node edgeless graph with
the unreachable listed target `B`. -/
theorem C4_unreachable_target_path_witness :
    ∃ st, dijkstraRun [{ id := "A", label := "A" }, { id := "B", label := "B" }]
        [] "A" (some "B") = .ok st ∧
      st.prev "B" = (if "B" ∈ dedupKeys
        ([{ id := "A", label := "A" }, { id := "B", label := "B" }].map Node.id)
        then some none else none) ∧
      ("B" ∉ dedupKeys
          ([{ id := "A", label := "A" }, { id := "B", label := "B" }].map Node.id) →
        ∀ x ∈ st.steps, x.path = none) ∧
      ("B" ∈ dedupKeys
          ([{ id := "A", label := "A" }, { id := "B", label := "B" }].map Node.id) →
        ∃ pre last2, st.steps = pre ++ [last2] ∧ (∀ x ∈ pre, x.path = none) ∧
          last2.path = some ["B"]) :=
  C4_unreachable_target_path
    [{ id := "A", label := "A" }, { id := "B", label := "B" }] [] "A" "B"
    [("A", []), ("B", [])] rfl (by decide) (by decide)
    (build_adjNonneg (rfl :
      createAdjacencyList [{ id := "A", label := "A" }, { id := "B", label := "B" }] [] =
        .ok [("A", []), ("B", [])]) (by decide))
    (fun hr => absurd (reachable_no_nbrs (show adjEntries
      ([("A", []), ("B", [])] : AdjacencyList) "A" = [] from rfl) hr) (by decide))

end Engine
